import Mathlib

/-!
# Embree kernels: irregular parallel-for, the tessellation cache, the Morton builder, the lazy sub-tree

A shallow embedding of `kernels/algorithms/parallel_for_for.h`,
`kernels/common/subdiv/tessellation_cache.h` (the non-MIC build),
`kernels/xeon/bvh4/bvh4_builder_morton_general.h`,
`kernels/xeonphi/bvh4i/bvh4i_intersector16_subdiv.cpp` (the lazy construction
of the sub-tree of a patch) and `kernels/xeon/bvh4/bvh4_builder_binned_sah.cpp`
(the function `build`), followed by the properties proved about them.

Conventions.

* `size_t` is 64 bits wide and `unsigned int` 32 bits wide.  Values are kept
  as natural numbers and every arithmetic operation of the source that can
  wrap is written with an explicit `% SIZE_T` or `% UINT`.
* A group of `array2` is represented by its size: the functions embedded here
  only ever call `size()` on a group and hand the group on to `func`.  A null
  group pointer is not represented (`init` reads it as size 0,
  `sequential_for_for` dereferences it).
* The groups are held in memory together, so their total `K` is a `size_t`
  value: statements about `parallel_for_for` assume `sizes.sum < SIZE_T`.
  Nothing else is assumed about the sizes, `minStepSize` or the worker count
  unless a statement says so.
* An invocation `func(array2[i], range(r0, r1), k)` is recorded as a `Call`;
  the list of recorded calls stands for the effect of running the loop.
* Behaviour the C++ standard leaves undefined (division by zero, reading an
  array outside its bounds) is the result `none`.
-/

namespace Embree

/-! ## Machine integers -/

/-- Number of values of a `size_t`. -/
def SIZE_T : Nat := 2 ^ 64

/-- Number of values of an `unsigned int`. -/
def UINT : Nat := 2 ^ 32

/-- Addition of two `size_t` values. -/
def addS (a b : Nat) : Nat := (a + b) % SIZE_T

/-- Subtraction of two `size_t` values (wraps below zero). -/
def subS (a b : Nat) : Nat := (a + (SIZE_T - b % SIZE_T)) % SIZE_T

/-- Multiplication of two `size_t` values. -/
def mulS (a b : Nat) : Nat := (a * b) % SIZE_T

/-! ## `parallel_for_for.h` -/

/-- One invocation `func(array2[i], range<size_t>(r0, r1), k)`. -/
structure Call where
  /-- index of the group handed to `func` -/
  i : Nat
  /-- first local index of the range -/
  r0 : Nat
  /-- one past the last local index of the range -/
  r1 : Nat
  /-- the global offset argument -/
  k : Nat
deriving DecidableEq, Repr

/-- Body of the loop of `sequential_for_for`, started at group index `i` with
running offset `k`; the list argument holds the sizes of `array2[i..]`. -/
def sequential_for_for_loop : List Nat → Nat → Nat → List Call
  | [], _, _ => []
  | N :: rest, i, k =>
    (if N ≠ 0 then [Call.mk i 0 N k] else []) ++
      sequential_for_for_loop rest (i + 1) (addS k N)

/-- The function `sequential_for_for(array2, minStepSize, func)`. -/
def sequential_for_for (array2 : List Nat) (_minStepSize : Nat) : List Call :=
  sequential_for_for_loop array2 0 0

/-- Loop of `ParallelForForState::init`: from the sizes of `array2[i..]` and
the running `sum`, the entries `prefix_sum[i..]` and the final `sum`. -/
def initLoop : List Nat → Nat → List Nat × Nat
  | [], sum => ([], sum)
  | N :: rest, sum =>
    (sum :: (initLoop rest (addS sum N)).1, (initLoop rest (addS sum N)).2)

/-- The class `ParallelForForState`. -/
structure ParallelForForState where
  sizes : List Nat
  prefix_sum : List Nat
  K : Nat
  M : Nat
deriving DecidableEq, Repr

/-- Constructor `ParallelForForStackState(array2)`: sets `M`, allocates the
two arrays and runs `ParallelForForState::init`. -/
def ParallelForForState.init (array2 : List Nat) : ParallelForForState :=
  { sizes := array2
    prefix_sum := (initLoop array2 0).1
    K := (initLoop array2 0).2
    M := array2.length }

/-- The method `ParallelForForState::size`. -/
def ParallelForForState.size (s : ParallelForForState) : Nat := s.K

/-- Loop of `std::upper_bound` over `a[first, first + len)` (the halving
search of the standard library); `fuel` bounds the number of iterations. -/
def upper_bound_loop (a : List Nat) (val : Nat) : Nat → Nat → Nat → Nat
  | 0, first, _ => first
  | fuel + 1, first, len =>
    if 0 < len then
      if val < a.getD (first + len / 2) 0 then
        upper_bound_loop a val fuel first (len / 2)
      else
        upper_bound_loop a val fuel (first + len / 2 + 1) (len - len / 2 - 1)
    else first

/-- The call `std::upper_bound(&a[0], &a[M], val)`, as an index into `a`: the
interval halves in every iteration, so `M` iterations are enough. -/
def upper_bound (a : List Nat) (M : Nat) (val : Nat) : Nat :=
  upper_bound_loop a val M 0 M

/-- The method `ParallelForForState::start_indices(k0, i0, j0)`; the result is
the pair `(i0, j0)`, or `none` when `prefix_sum[i0]` is read out of bounds.
The pointer difference `iter-&prefix_sum[0]-1` lies between `-1` and `M-1`, and
only `-1` wraps when it is stored in the `size_t i0`. -/
def ParallelForForState.start_indices (s : ParallelForForState) (k0 : Nat) :
    Option (Nat × Nat) :=
  let iter := upper_bound s.prefix_sum s.M k0
  let i0 := if iter = 0 then SIZE_T - 1 else iter - 1
  match s.prefix_sum[i0]? with
  | none => none
  | some p => some (i0, subS k0 p)

/-- The `for (size_t i=i0; k<k1; i++)` loop of a task.  The list argument holds
`state.sizes[i..]`; reading `state.sizes[i]` past the end of the array gives
`none`. -/
def taskLoop (k1 : Nat) : List Nat → Nat → Nat → Nat → Option (List Call)
  | [], _, _, k => if k < k1 then none else some []
  | N :: rest, i, j0, k =>
    if k < k1 then
      let r0 := j0
      let r1 := min N (subS (addS r0 k1) k)
      match taskLoop k1 rest (i + 1) 0 (addS k (subS r1 r0)) with
      | none => none
      | some calls => some ((if r1 > r0 then [Call.mk i r0 r1 k] else []) ++ calls)
    else some []

/-- The first statement of `parallel_for_for`:
`taskCount = (N+minStepSize-1)/minStepSize`. -/
def initialTaskCount (N minStepSize : Nat) : Nat :=
  subS (addS N minStepSize) 1 / minStepSize

/-- The range `[k0, k1)` a task computes for itself:
`k0 = (taskIndex+0)*N/taskCount`, `k1 = (taskIndex+1)*N/taskCount`. -/
def taskRange (N taskCount taskIndex : Nat) : Nat × Nat :=
  (mulS (addS taskIndex 0) N / taskCount, mulS (addS taskIndex 1) N / taskCount)

/-- The closure `parallel_for_for` hands to `parallel_for`, run for one
`taskIndex`. -/
def task (state : ParallelForForState) (N taskCount taskIndex : Nat) :
    Option (List Call) :=
  let k0 := (taskRange N taskCount taskIndex).1
  let k1 := (taskRange N taskCount taskIndex).2
  match state.start_indices k0 with
  | none => none
  | some (i0, j0) => taskLoop k1 (state.sizes.drop i0) i0 j0 k0

/-- Modelled from the spec: `parallel_for` and the worker pool are not among
the source files; the spec gives the pool as "run closure across T tasks,
block until done".  The closure runs once for every task index below `N`; the
result lists what each task did, by task index. -/
def parallel_for {α : Type} (N : Nat) (func : Nat → α) : List α :=
  (List.range N).map func

/-- Collects the per-task results: `none` as soon as one task is undefined. -/
def collect {α : Type} : List (Option α) → Option (List α)
  | [] => some []
  | none :: _ => none
  | some a :: rest =>
    match collect rest with
    | none => none
    | some as => some (a :: as)

/-- The function `parallel_for_for(array2, minStepSize, f)`, with the value of
`LockStepTaskScheduler::instance()->getNumThreads()` as `numThreads`.  The
result lists the calls of `f` task by task (the sequential fast path is one
task). -/
def parallel_for_for (array2 : List Nat) (minStepSize numThreads : Nat) :
    Option (List (List Call)) :=
  let state := ParallelForForState.init array2
  let N := state.size
  if minStepSize = 0 then none
  else
    let taskCount := initialTaskCount N minStepSize
    if taskCount = 1 then some [sequential_for_for array2 minStepSize]
    else
      let taskCount := min taskCount numThreads
      collect (parallel_for taskCount (task state N taskCount))

/-! ### Vocabulary of the statements about `parallel_for_for` -/

/-- The pairs `(group, local index)` one call of `f` visits. -/
def Call.pairs (c : Call) : List (Nat × Nat) :=
  (List.range' c.r0 (c.r1 - c.r0)).map (fun j => (c.i, j))

/-- All pairs `(group, local index)` of groups numbered from `i` on, in
order: the full enumeration the loops are meant to visit. -/
def allPairs : Nat → List Nat → List (Nat × Nat)
  | _, [] => []
  | i, N :: rest => (List.range N).map (fun j => (i, j)) ++ allPairs (i + 1) rest

/-- Pairs visited by a whole run, task after task. -/
def visited (run : List (List Call)) : List (Nat × Nat) :=
  run.flatten.flatMap Call.pairs

/-! ## `tessellation_cache.h`

The build without `__MIC__`: `InputTagType` is `size_t`.  A `primID` is a
`size_t` value; `commitCounter` is an `unsigned int`, so callers pass values
below `2^32`.  The statistics counters (`CACHE_STATS`) expand to nothing. -/

/-- `DEFAULT_64B_BLOCKS = (1<<14)`. -/
def DEFAULT_64B_BLOCKS : Nat := 1 <<< 14

/-- `CACHE_ENTRIES = DEFAULT_64B_BLOCKS / 4`. -/
def CACHE_ENTRIES : Nat := DEFAULT_64B_BLOCKS / 4

/-- `CACHE_MISS = (size_t)-1`. -/
def CACHE_MISS : Nat := SIZE_T - 1

/-- The constant `BIG_CACHE_ENTRIES`. -/
def BIG_CACHE_ENTRIES : Nat := 16

/-- The struct `CacheTag`: four `unsigned int` fields. -/
structure CacheTag where
  prim_tag : Nat
  commit_tag : Nat
  usedBlocks : Nat
  subtree_root : Nat
deriving DecidableEq, Repr

/-- `CacheTag::toTag`: `((size_t)prim) >> 6`, returned as `unsigned int`. -/
def CacheTag.toTag (prim : Nat) : Nat := (prim >>> 6) % UINT

/-- `CacheTag::reset`: every field is overwritten, `(unsigned int)-1` is
`UINT - 1`. -/
def CacheTag.reset (_t : CacheTag) : CacheTag :=
  { prim_tag := UINT - 1
    commit_tag := UINT - 1
    subtree_root := UINT - 1
    usedBlocks := 0 }

/-- `CacheTag::match`. -/
def CacheTag.match_ (t : CacheTag) (primID commitCounter : Nat) : Bool :=
  t.prim_tag == CacheTag.toTag primID && t.commit_tag == commitCounter

/-- `CacheTag::set`; `root32bit` and `blocks` are `unsigned int` parameters, the
`size_t` arguments `request` passes are truncated to 32 bits. -/
def CacheTag.set (_t : CacheTag) (primID commitCounter root32bit blocks : Nat) : CacheTag :=
  { prim_tag := CacheTag.toTag primID
    commit_tag := commitCounter
    subtree_root := root32bit % UINT
    usedBlocks := blocks % UINT }

/-- `CacheTag::update`. -/
def CacheTag.update (t : CacheTag) (primID commitCounter : Nat) : CacheTag :=
  { t with prim_tag := CacheTag.toTag primID, commit_tag := commitCounter }

/-- `CacheTag::updateRootRef`. -/
def CacheTag.updateRootRef (t : CacheTag) (root32bit : Nat) : CacheTag :=
  { t with subtree_root := root32bit % UINT }

/-- `CacheTag::getRootRef`. -/
def CacheTag.getRootRef (t : CacheTag) : Nat := t.subtree_root

/-- `CacheTag::clearRootRefBits`: `subtree_root &= ~(((unsigned int)1 << 4)-1)`;
the complement is taken in 32 bits. -/
def CacheTag.clearRootRefBits (t : CacheTag) : CacheTag :=
  { t with subtree_root := t.subtree_root &&& (UINT - 1 - ((1 <<< 4) - 1)) }

/-- `CacheTag::blocks`. -/
def CacheTag.blocks (t : CacheTag) : Nat := t.usedBlocks

/-- The class `TessellationCache`: the tag array, the address `lazymem` of
the arena, its capacity in 64-byte blocks and the allocation cursor. -/
structure TessellationCache where
  tags : Fin CACHE_ENTRIES → CacheTag
  lazymem : Nat
  allocated64BytesBlocks : Nat
  blockCounter : Nat

/-- `TessellationCache::addrToCacheIndex`. -/
def addrToCacheIndex (primID : Nat) : Fin CACHE_ENTRIES :=
  ⟨(primID >>> 6) % CACHE_ENTRIES, Nat.mod_lt _ (by decide)⟩

/-- `TessellationCache::clear`. -/
def TessellationCache.clear (s : TessellationCache) : TessellationCache :=
  { s with blockCounter := 0, tags := fun i => (s.tags i).reset }

/-- `TessellationCache::getPtr`. -/
def TessellationCache.getPtr (s : TessellationCache) : Nat := s.lazymem

/-- `TessellationCache::init`, run on a freshly constructed object `s` (the
constructor initialises nothing).  `alloc_mem blocks` is the address
`_mm_malloc(64 * blocks, 64)` returns. -/
def TessellationCache.init (alloc_mem : Nat → Nat) (s : TessellationCache) :
    TessellationCache :=
  { s.clear with
    allocated64BytesBlocks := DEFAULT_64B_BLOCKS
    lazymem := alloc_mem DEFAULT_64B_BLOCKS }

/-- `TessellationCache::allocated64ByteBlocks`, an `unsigned int`. -/
def TessellationCache.allocated64ByteBlocks (s : TessellationCache) : Nat :=
  s.allocated64BytesBlocks % UINT

/-- `TessellationCache::lookup`. -/
def TessellationCache.lookup (s : TessellationCache) (primID commitCounter : Nat) : Nat :=
  let index := addrToCacheIndex primID
  if (s.tags index).match_ primID commitCounter then
    addS s.getPtr (s.tags index).getRootRef
  else CACHE_MISS

/-- First test of `request`: `tags[index].blocks() >= neededBlocks`. -/
def TessellationCache.reuses (s : TessellationCache) (primID neededBlocks : Nat) : Bool :=
  decide ((s.tags (addrToCacheIndex primID)).blocks ≥ neededBlocks)

/-- Second test of `request`:
`blockCounter + neededBlocks >= allocated64BytesBlocks`. -/
def TessellationCache.exhausted (s : TessellationCache) (neededBlocks : Nat) : Bool :=
  decide (addS s.blockCounter neededBlocks ≥ s.allocated64BytesBlocks)

/-- Third test of `request`:
`BIG_CACHE_ENTRIES*neededBlocks > allocated64BytesBlocks`. -/
def TessellationCache.grows (s : TessellationCache) (neededBlocks : Nat) : Bool :=
  decide (mulS BIG_CACHE_ENTRIES neededBlocks > s.allocated64BytesBlocks)

/-- The block `if (blockCounter + neededBlocks >= allocated64BytesBlocks) {...}`
of `request`: grow the arena if the entry is big, then `clear()`. -/
def TessellationCache.makeRoom (alloc_mem : Nat → Nat) (s : TessellationCache)
    (neededBlocks : Nat) : TessellationCache :=
  if s.exhausted neededBlocks then
    (if s.grows neededBlocks then
      { s with
        allocated64BytesBlocks := mulS BIG_CACHE_ENTRIES neededBlocks % UINT
        lazymem := alloc_mem (mulS BIG_CACHE_ENTRIES neededBlocks % UINT) }
    else s).clear
  else s

/-- `TessellationCache::request`: the new state and the tag the returned
reference points to.  The assertions are not compiled into a release build and
are not part of the function. -/
def TessellationCache.request (alloc_mem : Nat → Nat) (s : TessellationCache)
    (primID commitCounter neededBlocks : Nat) : TessellationCache × CacheTag :=
  let index := addrToCacheIndex primID
  if s.reuses primID neededBlocks then
    let t := ((s.tags index).update primID commitCounter).clearRootRefBits
    ({ s with tags := Function.update s.tags index t }, t)
  else
    let s1 := s.makeRoom alloc_mem neededBlocks
    let currentIndex := s1.blockCounter
    let curNode :=
      subS (addS s1.lazymem (mulS (mulS currentIndex 16) 4)) s1.getPtr
    let t := (s1.tags index).set primID commitCounter curNode neededBlocks
    ({ s1 with
        blockCounter := addS s1.blockCounter neededBlocks
        tags := Function.update s1.tags index t }, t)

/-! ### Vocabulary of the statements about the cache -/

/-- One call `request(primID, commitCounter, neededBlocks)`. -/
structure Request where
  primID : Nat
  commitCounter : Nat
  neededBlocks : Nat
deriving DecidableEq, Repr

/-- Bookkeeping for the statements, not part of the code: next to the cache,
the request that stored the entry each slot holds (`none` for a slot that was
reset and not written since). -/
def requestStep (alloc_mem : Nat → Nat)
    (st : TessellationCache × (Fin CACHE_ENTRIES → Option Request)) (r : Request) :
    TessellationCache × (Fin CACHE_ENTRIES → Option Request) :=
  ((st.1.request alloc_mem r.primID r.commitCounter r.neededBlocks).1,
    Function.update
      (if !st.1.reuses r.primID r.neededBlocks && st.1.exhausted r.neededBlocks
        then fun _ => none else st.2)
      (addrToCacheIndex r.primID) (some r))

/-- The cache reached from `init` by a sequence of requests, with the
bookkeeping of `requestStep`. -/
def history (alloc_mem : Nat → Nat) (s0 : TessellationCache) (reqs : List Request) :
    TessellationCache × (Fin CACHE_ENTRIES → Option Request) :=
  reqs.foldl (requestStep alloc_mem) (s0.init alloc_mem, fun _ => none)

/-- What the bookkeeping of `requestStep` records about the tag array: a slot
without a recorded request is in the reset state, and a slot with a recorded
request `r` is `r`'s slot and carries `r`'s 32-bit tag and commit counter. -/
def SlotsTracked (st : TessellationCache × (Fin CACHE_ENTRIES → Option Request)) : Prop :=
  ∀ i, (st.2 i = none ∧ st.1.tags i = CacheTag.reset (st.1.tags i)) ∨
    ∃ r, st.2 i = some r ∧ addrToCacheIndex r.primID = i ∧
      (st.1.tags i).prim_tag = CacheTag.toTag r.primID ∧
      (st.1.tags i).commit_tag = r.commitCounter

/-- A freshly constructed cache object for the examples. -/
def blankCache : TessellationCache :=
  { tags := fun _ => CacheTag.mk 0 0 0 0
    lazymem := 0
    allocated64BytesBlocks := 0
    blockCounter := 0 }

/-! ## `bvh4_builder_morton_general.h`

The build without `DEBUG`: the depth check of `createLeaf` and the assertions
of `split` are not compiled.  The array `morton` is a function from indices to
Morton codes (the `index` half of a `MortonID32Bit` is not read by the functions
embedded here); codes are `unsigned int` values.  `recreateMortonCodes` and
`createSmallLeaf` are declared but not defined in the header and are fields of
the builder, like the constant `BVH4::maxBuildDepth` of the missing `bvh4.h`.
The nodes the builder allocates and links through the `parent` pointers of the
records are returned as a `BuildTree`; a record pushed to
`state->buildRecords` appears in it as `queued`. -/

/-- Addition of two `unsigned int` values. -/
def addU (a b : Nat) : Nat := (a + b) % UINT

/-- Subtraction of two `unsigned int` values (wraps below zero). -/
def subU (a b : Nat) : Nat := (a + (UINT - b % UINT)) % UINT

/-- The class `BuildRecord`.  The pointer `parent`, the place the reference
to the finished subtree is written to, is the position of the record in the
`BuildTree`. -/
structure BuildRecord where
  begin : Nat
  end_ : Nat
  depth : Nat
deriving DecidableEq, Repr

/-- `BuildRecord::size`. -/
def BuildRecord.size (r : BuildRecord) : Nat := subU r.end_ r.begin

/-- `BuildRecord::init`: every field is overwritten; the arguments are
`unsigned int`. -/
def BuildRecord.init (_begin _end : Nat) : BuildRecord :=
  { begin := _begin % UINT, end_ := _end % UINT, depth := 1 }

mutual
/-- What a call of `createLeaf` or `recurse` builds: a leaf made by
`createSmallLeaf(current)` with the bounds it reported, a record queued in
`state->buildRecords`, or an allocated node with its children. -/
inductive BuildTree (B : Type) where
  | smallLeaf (current : BuildRecord) (bounds : B) : BuildTree B
  | queued (current : BuildRecord) : BuildTree B
  | node (children : BuildForest B) : BuildTree B
/-- The children of a node in the order they were built, each with the bounds
stored by `node->set(i,bounds)`. -/
inductive BuildForest (B : Type) where
  | nil : BuildForest B
  | cons (child : BuildTree B) (bounds : B) (rest : BuildForest B) : BuildForest B
end

/-- The class `BVH4BuilderMortonGeneral`: the members the embedded functions
read, and the functions and the constant they use that the source files do not
define.  `empty` and `extend` are the empty box and `BBox3fa::extend`. -/
structure BVH4BuilderMortonGeneral (B : Type) where
  minLeafSize : Nat
  topLevelItemThreshold : Nat
  maxBuildDepth : Nat
  recreateMortonCodes : (Nat → Nat) → BuildRecord → (Nat → Nat)
  createSmallLeaf : (Nat → Nat) → BuildRecord → B
  empty : B
  extend : B → B → B

/-- The mode `RECURSE`. -/
def RECURSE : Nat := 1

/-- The mode `CREATE_TOP_LEVEL`. -/
def CREATE_TOP_LEVEL : Nat := 2

/-- Modelled from the spec: the constant `BVH4::N` of the missing header
`bvh4.h`, the "small, fixed" fan-out of a node; `createLeaf` fills
`children[4]`. -/
def BVH4.N : Nat := 4

/-- Number of binary digits of `x`, for `x` below `2 ^ fuel`. -/
def bitLength : Nat → Nat → Nat
  | 0, _ => 0
  | fuel + 1, x => if x = 0 then 0 else bitLength fuel (x / 2) + 1

/-- Modelled from the spec: `clz` is not among the source files; the spec has
the split "find the most-significant bit ... via XOR + leading-zero count", and
`split` tests `bitpos == 32` for equal codes: the number of leading zero bits of
a 32-bit word, 32 for zero. -/
def clz (x : Nat) : Nat := 32 - bitLength 32 x

/-- `splitFallback`: the two records, `center` computed in `unsigned int`. -/
def splitFallback (current : BuildRecord) : BuildRecord × BuildRecord :=
  (BuildRecord.init current.begin (addU current.begin current.end_ / 2),
    BuildRecord.init (addU current.begin current.end_ / 2) current.end_)

/-- The `while (begin + 1 != end)` loop of `split` on `size_t` variables; the
result is the final `(begin, end)`, `none` when the loop is still running after
`fuel` iterations. -/
def splitSearch (morton : Nat → Nat) (bitmask : Nat) : Nat → Nat → Nat → Option (Nat × Nat)
  | 0, begin, end_ => if begin + 1 ≠ end_ then none else some (begin, end_)
  | fuel + 1, begin, end_ =>
    if begin + 1 ≠ end_ then
      if morton ((begin + end_) / 2) &&& bitmask = 0 then
        splitSearch morton bitmask fuel ((begin + end_) / 2) end_
      else
        splitSearch morton bitmask fuel begin ((begin + end_) / 2)
    else some (begin, end_)

/-- The second half of `split`: split the items at the topmost different
Morton code bit. -/
def splitAtBit (morton : Nat → Nat) (fuel bitpos : Nat) (current : BuildRecord) :
    Option (BuildRecord × BuildRecord) :=
  let bitpos_diff := subU 31 bitpos
  let bitmask := 1 <<< bitpos_diff
  match splitSearch morton bitmask fuel current.begin current.end_ with
  | none => none
  | some (_, center) =>
    some (BuildRecord.init current.begin center, BuildRecord.init center current.end_)

/-- What `split` leaves behind: the array `morton`, the arguments of the calls
of `recreateMortonCodes` it made, in order, and the records `left` and
`right`. -/
structure SplitResult where
  morton : Nat → Nat
  recreated : List BuildRecord
  left : BuildRecord
  right : BuildRecord

/-- `BVH4BuilderMortonGeneral::split`. -/
def BVH4BuilderMortonGeneral.split {B : Type} (b : BVH4BuilderMortonGeneral B) (fuel : Nat)
    (morton : Nat → Nat) (current : BuildRecord) : Option SplitResult :=
  let code_start := morton current.begin
  let code_end := morton (subU current.end_ 1)
  let bitpos := clz (code_start ^^^ code_end)
  if bitpos = 32 then
    let morton1 := b.recreateMortonCodes morton current
    let code_start1 := morton1 current.begin
    let code_end1 := morton1 (subU current.end_ 1)
    let bitpos1 := clz (code_start1 ^^^ code_end1)
    if bitpos1 = 32 then
      some
        { morton := morton1
          recreated := [current]
          left := BuildRecord.init current.begin (addU current.begin current.end_ / 2)
          right := BuildRecord.init (addU current.begin current.end_ / 2) current.end_ }
    else
      match splitAtBit morton1 fuel bitpos1 current with
      | none => none
      | some lr => some { morton := morton1, recreated := [current], left := lr.1, right := lr.2 }
  else
    match splitAtBit morton fuel bitpos current with
    | none => none
    | some lr => some { morton := morton, recreated := [], left := lr.1, right := lr.2 }

/-- Runs `f` on the children one after the other, threading the state and
extending `bounds0`: the loops "recurse into each child" of `createLeaf` and
`recurse`. -/
def forChildren {B σ : Type} (extend : B → B → B)
    (f : σ → BuildRecord → Option (σ × BuildTree B × B)) :
    σ → List BuildRecord → B → Option (σ × BuildForest B × B)
  | st, [], bounds0 => some (st, BuildForest.nil, bounds0)
  | st, child :: rest, bounds0 =>
    match f st child with
    | none => none
    | some (st1, tree, bounds) =>
      match forChildren extend f st1 rest (extend bounds0 bounds) with
      | none => none
      | some (st2, forest, bounds1) => some (st2, BuildForest.cons tree bounds forest, bounds1)

/-- `BVH4BuilderMortonGeneral::createLeaf`; `none` when the recursion is
deeper than `fuel`.  `BVH4::compact`, which only reorders the children of the
node, is left out. -/
def BVH4BuilderMortonGeneral.createLeaf {B : Type} (b : BVH4BuilderMortonGeneral B)
    (morton : Nat → Nat) : Nat → BuildRecord → Option (BuildTree B × B)
  | 0, _ => none
  | fuel + 1, current =>
    if current.size ≤ b.minLeafSize then
      some (BuildTree.smallLeaf current (b.createSmallLeaf morton current),
        b.createSmallLeaf morton current)
    else
      let record0 := (splitFallback current).1
      let record1 := (splitFallback current).2
      let children :=
        [(splitFallback record0).1, (splitFallback record0).2,
          (splitFallback record1).1, (splitFallback record1).2]
      match forChildren b.extend
          (fun (_ : Unit) child =>
            match createLeaf b morton fuel { child with depth := addU current.depth 1 } with
            | none => none
            | some r => some ((), r))
          () children b.empty with
      | none => none
      | some (_, forest, bounds0) => some (BuildTree.node forest, bounds0)

/-- The `for` loop of `recurse` that finds `bestChild`, started at index `i`
with the current `bestChild` (`none` for `-1`) and `bestItems`. -/
def findBestChild (minLeafSize : Nat) : List BuildRecord → Nat → Option Nat → Nat → Option Nat
  | [], _, bestChild, _ => bestChild
  | child :: rest, i, bestChild, bestItems =>
    if child.size ≤ minLeafSize then findBestChild minLeafSize rest (i + 1) bestChild bestItems
    else if child.size > bestItems then
      findBestChild minLeafSize rest (i + 1) (some i) child.size
    else findBestChild minLeafSize rest (i + 1) bestChild bestItems

/-- The `do { ... } while (numChildren < BVH4::N)` loop of `recurse` on the
first `numChildren` entries of `children`; `depth` is `current.depth`, `fuel`
the fuel of `split`, and the first argument bounds the number of iterations. -/
def BVH4BuilderMortonGeneral.growChildren {B : Type} (b : BVH4BuilderMortonGeneral B)
    (fuel depth : Nat) :
    Nat → (Nat → Nat) → List BuildRecord → Option ((Nat → Nat) × List BuildRecord)
  | 0, _, _ => none
  | n + 1, morton, children =>
    match findBestChild b.minLeafSize children 0 none 0 with
    | none => some (morton, children)
    | some bestChild =>
      match children[bestChild]?, children[children.length - 1]? with
      | some best, some last =>
        match b.split fuel morton best with
        | none => none
        | some r =>
          if (((children.set bestChild last).set (children.length - 1)
                { r.left with depth := addU depth 1 }) ++
              [{ r.right with depth := addU depth 1 }]).length < BVH4.N then
            growChildren b fuel depth n r.morton
              (((children.set bestChild last).set (children.length - 1)
                { r.left with depth := addU depth 1 }) ++
              [{ r.right with depth := addU depth 1 }])
          else
            some (r.morton,
              ((children.set bestChild last).set (children.length - 1)
                { r.left with depth := addU depth 1 }) ++
              [{ r.right with depth := addU depth 1 }])
      | _, _ => none

/-- `BVH4BuilderMortonGeneral::recurse`: the array `morton` afterwards, what
was built, and the bounds returned; `none` when the recursion is deeper than
`fuel` or a loop of `split` runs longer. -/
def BVH4BuilderMortonGeneral.recurse {B : Type} (b : BVH4BuilderMortonGeneral B) :
    Nat → (Nat → Nat) → BuildRecord → Nat → Option ((Nat → Nat) × BuildTree B × B)
  | 0, _, _, _ => none
  | fuel + 1, morton, current, mode =>
    if mode = CREATE_TOP_LEVEL ∧ current.size ≤ b.topLevelItemThreshold then
      some (morton, BuildTree.queued current, b.empty)
    else if current.depth ≥ b.maxBuildDepth ∨ current.size ≤ b.minLeafSize then
      match b.createLeaf morton fuel current with
      | none => none
      | some r => some (morton, r)
    else
      match b.growChildren fuel current.depth BVH4.N morton [current] with
      | none => none
      | some (morton1, children) =>
        if children.length = 1 then
          some (morton1, BuildTree.smallLeaf current (b.createSmallLeaf morton1 current),
            b.createSmallLeaf morton1 current)
        else
          match forChildren b.extend
              (fun m child =>
                if child.size ≤ b.minLeafSize then
                  match b.createLeaf m fuel child with
                  | none => none
                  | some r => some (m, r)
                else recurse b fuel m child mode)
              morton1 children b.empty with
          | none => none
          | some (morton2, forest, bounds0) => some (morton2, BuildTree.node forest, bounds0)

/-! ### Vocabulary of the statements about the Morton builder -/

/-- The indices `begin, ..., end-1` of a record. -/
def BuildRecord.positions (r : BuildRecord) : List Nat :=
  List.range' r.begin (r.end_ - r.begin)

mutual
/-- The records handed to `createSmallLeaf`, in the order of the calls. -/
def BuildTree.leaves {B : Type} : BuildTree B → List BuildRecord
  | .smallLeaf current _ => [current]
  | .queued _ => []
  | .node children => children.leaves
/-- The records handed to `createSmallLeaf` below the children of a node. -/
def BuildForest.leaves {B : Type} : BuildForest B → List BuildRecord
  | .nil => []
  | .cons child _ rest => child.leaves ++ rest.leaves
end

mutual
/-- The records pushed to `state->buildRecords`, in order. -/
def BuildTree.queuedRecords {B : Type} : BuildTree B → List BuildRecord
  | .smallLeaf _ _ => []
  | .queued current => [current]
  | .node children => children.queuedRecords
/-- The records pushed to `state->buildRecords` below the children of a node. -/
def BuildForest.queuedRecords {B : Type} : BuildForest B → List BuildRecord
  | .nil => []
  | .cons child _ rest => child.queuedRecords ++ rest.queuedRecords
end

mutual
/-- Number of nodes allocated. -/
def BuildTree.nodeCount {B : Type} : BuildTree B → Nat
  | .smallLeaf _ _ => 0
  | .queued _ => 0
  | .node children => children.nodeCount + 1
/-- Number of nodes allocated below the children of a node. -/
def BuildForest.nodeCount {B : Type} : BuildForest B → Nat
  | .nil => 0
  | .cons child _ rest => child.nodeCount + rest.nodeCount
end

/-- Number of children of a node. -/
def BuildForest.length {B : Type} : BuildForest B → Nat
  | .nil => 0
  | .cons _ _ rest => rest.length + 1

/-- A builder for the examples: boxes are not tracked, `recreateMortonCodes`
leaves the codes as they are. -/
def exampleBuilder (minLeafSize topLevelItemThreshold maxBuildDepth : Nat) :
    BVH4BuilderMortonGeneral Unit :=
  { minLeafSize := minLeafSize
    topLevelItemThreshold := topLevelItemThreshold
    maxBuildDepth := maxBuildDepth
    recreateMortonCodes := fun morton _ => morton
    createSmallLeaf := fun _ _ => ()
    empty := ()
    extend := fun _ _ => () }

/-- The child that the growth loop of `recurse` is to split, in the words of
the specification: `none` when no child holds more than `minLeafSize` items,
otherwise the index of a child with the largest item count among the children
holding more than `minLeafSize` items, the lowest such index on ties. -/
def IsBestChild (minLeafSize : Nat) (children : List BuildRecord) : Option Nat → Prop
  | none => ∀ c ∈ children, c.size ≤ minLeafSize
  | some k =>
    ∃ c, children[k]? = some c ∧ minLeafSize < c.size ∧
      ∀ j c', children[j]? = some c' → minLeafSize < c'.size →
        c'.size ≤ c.size ∧ (c'.size = c.size → k ≤ j)

/-- The children of a node with the bounds stored for them, in order. -/
def BuildForest.toList {B : Type} : BuildForest B → List (BuildTree B × B)
  | .nil => []
  | .cons child bounds rest => (child, bounds) :: rest.toList

/-- The union of a list of boxes: `empty` extended by each of them in turn. -/
def unionAll {B : Type} (extend : B → B → B) (empty : B) (boxes : List B) : B :=
  boxes.foldl extend empty

mutual
/-- The bounds that `createSmallLeaf` reported for the leaves of a tree, in
the order of the calls. -/
def BuildTree.leafBounds {B : Type} : BuildTree B → List B
  | .smallLeaf _ bounds => [bounds]
  | .queued _ => []
  | .node children => children.leafBounds
/-- The bounds that `createSmallLeaf` reported for the leaves below the
children of a node. -/
def BuildForest.leafBounds {B : Type} : BuildForest B → List B
  | .nil => []
  | .cons child _ rest => child.leafBounds ++ rest.leafBounds
end

mutual
/-- In every node of the tree, the bound stored for a child is the union of
the bounds reported for the leaves of that child's subtree. -/
def BuildTree.BoundsExact {B : Type} (extend : B → B → B) (empty : B) : BuildTree B → Prop
  | .smallLeaf _ _ => True
  | .queued _ => True
  | .node children => children.BoundsExact extend empty
/-- The statement `BuildTree.BoundsExact` for the children of a node. -/
def BuildForest.BoundsExact {B : Type} (extend : B → B → B) (empty : B) : BuildForest B → Prop
  | .nil => True
  | .cons child bounds rest =>
    bounds = unionAll extend empty child.leafBounds ∧ child.BoundsExact extend empty ∧
      rest.BoundsExact extend empty
end

/-- A box in one dimension, `lower` and `upper` bound; the empty box has the
bounds `+inf` and `-inf`, as `BBox3fa(empty)` has in each dimension. -/
structure Box where
  lower : WithTop Int
  upper : WithBot Int

/-- The empty box. -/
def Box.empty : Box := { lower := ⊤, upper := ⊥ }

/-- The union of two boxes, `BBox3fa::extend`: minimum of the lower and
maximum of the upper bounds. -/
def Box.extend (a b : Box) : Box :=
  { lower := min a.lower b.lower, upper := max a.upper b.upper }

/-- A builder for the examples with boxes: the bounds of a leaf `[begin,end)`
are the box from `begin` to `end`, `recreateMortonCodes` leaves the codes as
they are. -/
def boxBuilder (minLeafSize topLevelItemThreshold maxBuildDepth : Nat) :
    BVH4BuilderMortonGeneral Box :=
  { minLeafSize := minLeafSize
    topLevelItemThreshold := topLevelItemThreshold
    maxBuildDepth := maxBuildDepth
    recreateMortonCodes := fun morton _ => morton
    createSmallLeaf := fun _ current =>
      { lower := ((current.begin : Int) : WithTop Int), upper := ((current.end_ : Int) : WithBot Int) }
    empty := Box.empty
    extend := Box.extend }

/-- The byte offsets of a run of requests started in `s` stay below `2^32`:
whenever a request allocates a fresh region, the region ends at a byte offset
of at most `2^32`. -/
def OffsetsFit (alloc_mem : Nat → Nat) : TessellationCache → List Request → Prop
  | _, [] => True
  | s, r :: rest =>
    (s.reuses r.primID r.neededBlocks = false →
      64 * ((s.makeRoom alloc_mem r.neededBlocks).blockCounter + r.neededBlocks) ≤ UINT) ∧
    OffsetsFit alloc_mem (s.request alloc_mem r.primID r.commitCounter r.neededBlocks).1 rest

/-- The regions of the live cache entries do not overlap: the block range
`[offset/64, offset/64 + blocks)` of every slot with a non-zero reserved block
count lies inside `[0, blockCounter)`, and the ranges of two such slots are
disjoint. -/
def RegionsDisjoint (s : TessellationCache) : Prop :=
  (∀ i, (s.tags i).blocks ≠ 0 →
    (s.tags i).getRootRef / 64 + (s.tags i).blocks ≤ s.blockCounter) ∧
  ∀ i j, i ≠ j → (s.tags i).blocks ≠ 0 → (s.tags j).blocks ≠ 0 →
    (s.tags i).getRootRef / 64 + (s.tags i).blocks ≤ (s.tags j).getRootRef / 64 ∨
    (s.tags j).getRootRef / 64 + (s.tags j).blocks ≤ (s.tags i).getRootRef / 64

/-- The byte offset of every slot with a non-zero reserved block count is a
multiple of the block size 64. -/
def RegionsAligned (s : TessellationCache) : Prop :=
  ∀ i, (s.tags i).blocks ≠ 0 → (s.tags i).getRootRef % 64 = 0

/-! ## `bvh4i_intersector16_subdiv.cpp`

The lazy construction of the sub-tree of a subdivision patch: `createSubTree`
and `initLazySubdivTree`, run by one thread without interference.  The stores
of a run are recorded in program order as `Event`s.  The constants of
`BVH4i`, the fields of the `BVH4i` object, `createBVH4iNode` and the
evaluation of the patch are in headers that are not among the source files
and are fields of `BVH4i`.  The assertions are not compiled into a release
build; `FATAL` ends the run. -/

/-- The place a `NodeRef` is stored in: `subdiv_patch.bvh4i_subtree_root`, or
`child(i)` of the node at a block index. -/
inductive RefLoc where
  | root : RefLoc
  | child (node : Nat) (i : Nat) : RefLoc
deriving DecidableEq, Repr

/-- What a run does to the shared memory, in program order. -/
inductive Event (B : Type) where
  /-- `atomic_add` on `subdiv_patch.under_construction` -/
  | atomicAdd (delta : Int)
  /-- `createBVH4iNode<2>(curNode,currentIndex)`: the reference `value` of the
  node at `currentIndex` is stored in `curNode` -/
  | node (curNode : RefLoc) (currentIndex : Nat) (value : Nat)
  /-- `node.setInvalid()` -/
  | setInvalid (currentIndex : Nat)
  /-- the leaf branch: `createSubPatchBVH4iLeaf` stores `value` in `curNode`;
  the arguments of the call of `createSubTree` and `data` are kept with it -/
  | leaf (curNode : RefLoc) (u_start u_end v_start v_end : Nat) (data : Nat) (value : Nat)
  /-- `node.setBounds(i, bounds)` -/
  | setBounds (currentIndex : Nat) (i : Nat) (bounds : B)
deriving DecidableEq, Repr

/-- The class `BVH4i` as far as the code reads it: constants, the field
`numAllocated64BytesBlocks`, the reference `createBVH4iNode<2>` stores for a
block index, the bounds `patch.evalQuadBounds` returns for the grid
positions looked up for a cell (`subdiv_level`, `u_start`, `u_end`, `v_start`,
`v_end`), and the method `offsetIndex` of a node reference. -/
structure BVH4i (B : Type) where
  encodingBits : Nat
  leaf_mask : Nat
  aux_flag_mask : Nat
  invalidNode : Nat
  numAllocated64BytesBlocks : Nat
  createBVH4iNode : Nat → Nat
  quadBounds : Nat → Nat → Nat → Nat → Nat → B
  empty : B
  extend : B → B → B
  offsetIndex : Nat → Nat

/-- The memory the functions share: the cursor `bvh->used64BytesBlocks`, the
fields `under_construction` and `bvh4i_subtree_root` of the patch, the counter
`numLazyBuildPatches`, and the record of the stores so far. -/
structure LazyState (B : Type) where
  used64BytesBlocks : Nat
  under_construction : Nat
  bvh4i_subtree_root : Nat
  numLazyBuildPatches : Nat
  events : List (Event B)

/-- How a run ends: by `FATAL`, or with a value. -/
inductive Outcome (α : Type) where
  | fatal : Outcome α
  | done (value : α) : Outcome α
deriving DecidableEq, Repr

/-- A store to the `NodeRef` at `curNode`, recorded as `e`; a store to the
root reference of the patch changes `bvh4i_subtree_root`. -/
def LazyState.store {B : Type} (s : LazyState B) (curNode : RefLoc) (value : Nat)
    (e : Event B) : LazyState B :=
  match curNode with
  | RefLoc.root => { s with bvh4i_subtree_root := value, events := s.events ++ [e] }
  | RefLoc.child _ _ => { s with events := s.events ++ [e] }

/-- A store into a node, recorded as `e`. -/
def LazyState.record {B : Type} (s : LazyState B) (e : Event B) : LazyState B :=
  { s with events := s.events ++ [e] }

/-- `createSubPatchBVH4iLeaf`: the value stored in `ref`, an `unsigned int`. -/
def createSubPatchBVH4iLeaf {B : Type} (bvh : BVH4i B) (patchIndex subdiv_level : Nat) : Nat :=
  ((patchIndex <<< bvh.encodingBits) % UINT) ||| bvh.leaf_mask ||| bvh.aux_flag_mask |||
    subdiv_level

/-- `createSubTree`; `none` when the recursion is deeper than `fuel`. -/
def createSubTree {B : Type} (bvh : BVH4i B) :
    Nat → RefLoc → Nat → Nat → Nat → Nat → Nat → LazyState B →
      Option (LazyState B × Outcome B)
  | 0, _, _, _, _, _, _, _ => none
  | fuel + 1, curNode, u_start, u_end, v_start, v_end, subdiv_level, s =>
    if subU u_end u_start ≤ 1 then
      let data := ((v_start <<< 8) % UINT) ||| u_start
      let value := createSubPatchBVH4iLeaf bvh data 0
      some (s.store curNode value (Event.leaf curNode u_start u_end v_start v_end data value),
        Outcome.done (bvh.quadBounds subdiv_level u_start u_end v_start v_end))
    else
      let currentIndex := s.used64BytesBlocks
      let s1 := { s with used64BytesBlocks := addS s.used64BytesBlocks 2 }
      if addS currentIndex 2 ≥ bvh.numAllocated64BytesBlocks then some (s1, Outcome.fatal)
      else
        let s2 := s1.store curNode (bvh.createBVH4iNode currentIndex)
          (Event.node curNode currentIndex (bvh.createBVH4iNode currentIndex))
        let s3 := s2.record (Event.setInvalid currentIndex)
        let u_mid := addU u_start u_end / 2
        let v_mid := addU v_start v_end / 2
        match createSubTree bvh fuel (RefLoc.child currentIndex 0)
            u_start u_mid v_start v_mid subdiv_level s3 with
        | none => none
        | some (s4, Outcome.fatal) => some (s4, Outcome.fatal)
        | some (s4, Outcome.done bounds0) =>
          match createSubTree bvh fuel (RefLoc.child currentIndex 1)
              u_mid u_end v_start v_mid subdiv_level
              (s4.record (Event.setBounds currentIndex 0 bounds0)) with
          | none => none
          | some (s5, Outcome.fatal) => some (s5, Outcome.fatal)
          | some (s5, Outcome.done bounds1) =>
            match createSubTree bvh fuel (RefLoc.child currentIndex 2)
                u_mid u_end v_mid v_end subdiv_level
                (s5.record (Event.setBounds currentIndex 1 bounds1)) with
            | none => none
            | some (s6, Outcome.fatal) => some (s6, Outcome.fatal)
            | some (s6, Outcome.done bounds2) =>
              match createSubTree bvh fuel (RefLoc.child currentIndex 3)
                  u_start u_mid v_mid v_end subdiv_level
                  (s6.record (Event.setBounds currentIndex 2 bounds2)) with
              | none => none
              | some (s7, Outcome.fatal) => some (s7, Outcome.fatal)
              | some (s7, Outcome.done bounds3) =>
                some (s7.record (Event.setBounds currentIndex 3 bounds3),
                  Outcome.done
                    (bvh.extend (bvh.extend (bvh.extend (bvh.extend bvh.empty bounds0) bounds1)
                      bounds2) bounds3))

/-- Modelled from the spec: `atomic_add` is not among the source files; the
spec has "A thread that increments it from zero becomes the sole builder": the
call adds `delta` to the counter and returns the value it had before. -/
def LazyState.atomic_add {B : Type} (s : LazyState B) (delta : Int) : LazyState B × Nat :=
  ({ s with
      under_construction := (Int.ofNat s.under_construction + delta).toNat
      events := s.events ++ [Event.atomicAdd delta] },
    s.under_construction)

/-- `initLazySubdivTree`, run by a thread while no other thread runs: the
state afterwards and the reference returned.  `none` when the call does not
return: a loop waits for another thread, the recursion of `createSubTree` is
deeper than `fuel`, or the shift `1 << subdiv_level` is not defined. -/
def initLazySubdivTree {B : Type} (bvh : BVH4i B) (fuel subdiv_level : Nat)
    (s : LazyState B) : Option (LazyState B × Outcome Nat) :=
  let build_state := (s.atomic_add 1).2 % UINT
  let s1 := (s.atomic_add 1).1
  if build_state ≠ 0 then
    let s2 := (s1.atomic_add (-1)).1
    if s2.under_construction ≠ 0 then none
    else if s2.bvh4i_subtree_root = bvh.invalidNode then none
    else some (s2, Outcome.done s2.bvh4i_subtree_root)
  else
    let s2 := { s1 with numLazyBuildPatches := s1.numLazyBuildPatches + 1 }
    if 32 ≤ subdiv_level then none
    else
      let grid_size := addU ((1 <<< subdiv_level) % UINT) 1
      match createSubTree bvh fuel RefLoc.root 0 (subU grid_size 1) 0 (subU grid_size 1)
          subdiv_level s2 with
      | none => none
      | some (s3, Outcome.fatal) => some (s3, Outcome.fatal)
      | some (s3, Outcome.done _) =>
        let s4 := (s3.atomic_add (-1)).1
        some (s4, Outcome.done s4.bvh4i_subtree_root)

/-- The test of `BVH4iIntersector16Subdiv::intersect` that leads to the call
of `initLazySubdivTree`: `subdiv_patch.bvh4i_subtree_root == invalidNode`. -/
def subtreeMissing {B : Type} (bvh : BVH4i B) (s : LazyState B) : Bool :=
  s.bvh4i_subtree_root == bvh.invalidNode

/-! ### Vocabulary of the statements about the lazy sub-tree -/

/-- The cell, data word and stored value of a leaf event:
`(u_start, u_end, v_start, v_end, data, value)`. -/
def Event.leafCell {B : Type} : Event B → Option (Nat × Nat × Nat × Nat × Nat × Nat)
  | Event.leaf _ u_start u_end v_start v_end data value =>
    some (u_start, u_end, v_start, v_end, data, value)
  | _ => none

/-- The block index of the node an event stores into, if it stores into one:
the node whose reference is created, that is invalidated or gets bounds, and
the node whose child reference a leaf or node store writes. -/
def Event.nodeIndices {B : Type} : Event B → List Nat
  | Event.atomicAdd _ => []
  | Event.node (RefLoc.child n _) currentIndex _ => [n, currentIndex]
  | Event.node RefLoc.root currentIndex _ => [currentIndex]
  | Event.setInvalid currentIndex => [currentIndex]
  | Event.leaf (RefLoc.child n _) _ _ _ _ _ _ => [n]
  | Event.leaf RefLoc.root _ _ _ _ _ _ => []
  | Event.setBounds currentIndex _ _ => [currentIndex]

/-- Whether an event is a store to the root reference of the patch. -/
def Event.storesRoot {B : Type} : Event B → Bool
  | Event.node RefLoc.root _ _ => true
  | Event.leaf RefLoc.root _ _ _ _ _ _ => true
  | _ => false

/-- The leaf branch of the traversal in `BVH4iIntersector16Subdiv::intersect`,
for the reference `curNode` of a leaf: `uv = curNode.offsetIndex()`,
`u = uv & 0xff`, `v = uv >> 8`, all `unsigned int`. -/
def leafUV {B : Type} (bvh : BVH4i B) (curNode : Nat) : Nat × Nat :=
  let uv := bvh.offsetIndex curNode % UINT
  (uv &&& 0xff, uv >>> 8)

/-- The root reference of the patch after the stores `evs`, when it was
`root` before them. -/
def rootAfter {B : Type} (root : Nat) (evs : List (Event B)) : Nat :=
  evs.foldl (fun r e =>
    match e with
    | Event.node RefLoc.root _ value => value
    | Event.leaf RefLoc.root _ _ _ _ _ value => value
    | _ => r) root

/-- The unit cells `(u, v)` of the square `[u0, u0 + 2^k] x [v0, v0 + 2^k]`
in the order `createSubTree` reaches them. -/
def quadCells : Nat → Nat → Nat → List (Nat × Nat)
  | 0, u0, v0 => [(u0, v0)]
  | k + 1, u0, v0 =>
    quadCells k u0 v0 ++ quadCells k (u0 + 2 ^ k) v0 ++
      quadCells k (u0 + 2 ^ k) (v0 + 2 ^ k) ++ quadCells k u0 (v0 + 2 ^ k)

/-- Number of nodes of the sub-tree for subdivision level `k`. -/
def quadNodes : Nat → Nat
  | 0 => 0
  | k + 1 => 4 * quadNodes k + 1

/-- Values for the examples: `encodingBits = 4`, leaf and auxiliary flag in
bits 3 and 2, `invalidNode = (unsigned int)-1`, the reference of the node at
block index `i` is `i << 4`, `offsetIndex` of a reference is the reference
shifted right by `encodingBits`, boxes are not tracked. -/
def exampleBVH4i (numAllocated64BytesBlocks : Nat) : BVH4i Unit :=
  { encodingBits := 4
    leaf_mask := 8
    aux_flag_mask := 4
    invalidNode := 4294967295
    numAllocated64BytesBlocks := numAllocated64BytesBlocks
    createBVH4iNode := fun i => i <<< 4
    quadBounds := fun _ _ _ _ _ => ()
    empty := ()
    extend := fun _ _ => ()
    offsetIndex := fun ref => ref >>> 4 }

/-- A patch whose sub-tree has not been built, and an arena with `used`
blocks in use. -/
def freshPatch (used : Nat) : LazyState Unit :=
  { used64BytesBlocks := used
    under_construction := 0
    bvh4i_subtree_root := 4294967295
    numLazyBuildPatches := 0
    events := [] }

/-- The record of the leaf for the unit cell `c = (u, v)`: the arguments
`u, u+1, v, v+1`, the data word `(v << 8) | u` and the value stored. -/
def leafOf {B : Type} (bvh : BVH4i B) (c : Nat × Nat) : Nat × Nat × Nat × Nat × Nat × Nat :=
  (c.1, c.1 + 1, c.2, c.2 + 1, ((c.2 <<< 8) % UINT) ||| c.1,
    createSubPatchBVH4iLeaf bvh (((c.2 <<< 8) % UINT) ||| c.1) 0)

/-- What `createSubTree` does for a child reference on a square of side
`2^k` inside the grid of 256 cells a side, with room for the nodes: it
returns, allocates `quadNodes k` nodes, does not store to the root reference
of the patch, and stores the leaves of `quadCells k u0 v0`, in order. -/
def SquareSpec {B : Type} (bvh : BVH4i B) (subdiv_level k : Nat) : Prop :=
  ∀ (fuel n i u0 v0 : Nat) (s : LazyState B),
    k < fuel → u0 + 2 ^ k ≤ 256 → v0 + 2 ^ k ≤ 256 →
    s.used64BytesBlocks + 2 * quadNodes k < bvh.numAllocated64BytesBlocks →
    ∃ evs bounds,
      createSubTree bvh fuel (RefLoc.child n i) u0 (u0 + 2 ^ k) v0 (v0 + 2 ^ k) subdiv_level s =
        some ({ s with
                used64BytesBlocks := s.used64BytesBlocks + 2 * quadNodes k
                events := s.events ++ evs }, Outcome.done bounds) ∧
      evs.filter Event.storesRoot = [] ∧
      evs.filterMap Event.leafCell = (quadCells k u0 v0).map (leafOf bvh) ∧
      ∀ e ∈ evs, ∀ m ∈ e.nodeIndices, m = n ∨ s.used64BytesBlocks ≤ m


/-- The leaves `L` (as `Event.leafCell` gives them) are the unit cells of the
grid `[0, 2^k] x [0, 2^k]`: there are `4^k` of them; at each both assertions
of the leaf branch hold (`u_end - u_start == 1`, `v_end - v_start == 1`), the
data word is `(v_start << 8) | u_start`, and `data & 0xff` and `data >> 8`
are `u_start` and `v_start`; the reference stored for the leaf is
`(data << encodingBits) | leaf_mask | aux_flag_mask | 0` in 32 bits, and the
traversal reads `u_start` and `v_start` back from it; no cell
`(u_start, v_start)` occurs twice, and the cells are all `(u, v)` with
`u, v < 2^k`. -/
def LeavesAreUnitCells {B : Type} (bvh : BVH4i B) (k : Nat)
    (L : List (Nat × Nat × Nat × Nat × Nat × Nat)) : Prop :=
  L.length = 4 ^ k ∧
  (∀ c ∈ L, subU c.2.1 c.1 = 1 ∧ subU c.2.2.2.1 c.2.2.1 = 1 ∧
    c.2.2.2.2.1 = ((c.2.2.1 <<< 8) % UINT) ||| c.1 ∧
    c.2.2.2.2.1 = (c.2.2.1 <<< 8) ||| c.1 ∧
    c.2.2.2.2.1 &&& 255 = c.1 ∧ c.2.2.2.2.1 >>> 8 = c.2.2.1 ∧
    c.2.2.2.2.2 =
      ((c.2.2.2.2.1 <<< bvh.encodingBits) % UINT) ||| bvh.leaf_mask ||| bvh.aux_flag_mask ||| 0 ∧
    c.2.2.2.2.2 < UINT ∧
    bvh.offsetIndex c.2.2.2.2.2 = c.2.2.2.2.1 ∧
    leafUV bvh c.2.2.2.2.2 = (c.1, c.2.2.1)) ∧
  (L.map (fun c => (c.1, c.2.2.1))).Nodup ∧
  ∀ u v, (u, v) ∈ L.map (fun c => (c.1, c.2.2.1)) ↔ u < 2 ^ k ∧ v < 2 ^ k
/-! ## `bvh4_builder_binned_sah.cpp`

`BVH4Triangle4BuilderFastClass::build`.  The scene, the class `BVH4`, its
allocator, `createPrimRefArray` and `bvh_builder_binned_sah_internal` are not
among the source files: what they return and what they do to the BVH are
fields of the builder below, and each call `build` makes is recorded.  The
file defines `PROFILE`, so the loop of 20 builds is compiled in.  The
measurement of time and the output are left out. -/

/-- `PrimInfo` as far as `build` reads it: `geomBounds` and `size()`. -/
structure PrimInfo (B : Type) where
  geomBounds : B
  size : Nat

/-- The calls of `build` on the BVH, the vector `prims` and the scene. -/
inductive BuildCall (R B : Type) where
  /-- `prims.resize(n)` -/
  | resize (n : Nat)
  /-- `bvh->set(root,bounds,numPrimitives)` -/
  | set (root : R) (bounds : B) (numPrimitives : Nat)
  /-- `bvh->alloc2.init(bytesAllocate,bytesReserve)` -/
  | allocInit (bytesAllocate bytesReserve : Nat)
  /-- `createPrimRefArray<TriangleMesh,1>(scene,prims)` -/
  | createPrimRefArray
  /-- `bvh_builder_binned_sah_internal<BVH4::NodeRef>(...)` -/
  | builder
deriving DecidableEq, Repr

/-- Whether a call initialises the allocator, generates the primitive
references or runs the SAH builder. -/
def BuildCall.isBuildWork {R B : Type} : BuildCall R B → Bool
  | BuildCall.allocInit _ _ => true
  | BuildCall.createPrimRefArray => true
  | BuildCall.builder => true
  | _ => false

/-- The builder with what it reads from the code that is not among the
source files: the constants `BVH4::emptyNode` and `empty`, the sizes
`sizeof(PrimRef)` and `sizeof(BVH4::Node)`, the result `numPrimitives` of
`scene->getNumPrimitives<TriangleMesh,1>()`, what `bvh->set` and
`bvh->alloc2.init` do to a BVH of type `S`, the `PrimInfo` that
`createPrimRefArray` returns, and the root `bvh_builder_binned_sah_internal`
returns together with the BVH it leaves. -/
structure BVH4Triangle4BuilderFastClass (S R B : Type) where
  emptyNode : R
  empty : B
  sizeofPrimRef : Nat
  sizeofNode : Nat
  numPrimitives : Nat
  set : R → B → Nat → S → S
  allocInit : Nat → Nat → S → S
  createPrimRefArray : PrimInfo B
  builder : PrimInfo B → S → R × S

/-- The objects `build` works on: the BVH, the size of the vector `prims`,
and the record of the calls made so far. -/
structure BuildState (S R B : Type) where
  bvh : S
  prims : Nat
  calls : List (BuildCall R B)

/-- The body of the loop of `build`: reserve data, build the BVH, set it. -/
def BVH4Triangle4BuilderFastClass.buildOnce {S R B : Type}
    (b : BVH4Triangle4BuilderFastClass S R B) (st : BuildState S R B) : BuildState S R B :=
  let bytesAllocate := mulS b.numPrimitives b.sizeofPrimRef
  let bytesReserve := mulS b.numPrimitives b.sizeofNode
  let bvh1 := b.allocInit bytesAllocate bytesReserve st.bvh
  let pinfo := b.createPrimRefArray
  let r := b.builder pinfo bvh1
  { bvh := b.set r.1 pinfo.geomBounds pinfo.size r.2
    prims := b.numPrimitives
    calls := st.calls ++
      [BuildCall.allocInit bytesAllocate bytesReserve, BuildCall.resize b.numPrimitives,
        BuildCall.createPrimRefArray, BuildCall.builder,
        BuildCall.set r.1 pinfo.geomBounds pinfo.size] }

/-- The loop `for (size_t i=0; i<20; i++)` of `build`, with `n` iterations
left. -/
def BVH4Triangle4BuilderFastClass.buildLoop {S R B : Type}
    (b : BVH4Triangle4BuilderFastClass S R B) : Nat → BuildState S R B → BuildState S R B
  | 0, st => st
  | n + 1, st => b.buildLoop n (b.buildOnce st)

/-- `BVH4Triangle4BuilderFastClass::build`. -/
def BVH4Triangle4BuilderFastClass.build {S R B : Type}
    (b : BVH4Triangle4BuilderFastClass S R B) (st : BuildState S R B) : BuildState S R B :=
  if b.numPrimitives = 0 then
    { bvh := b.set b.emptyNode b.empty 0 st.bvh
      prims := b.numPrimitives
      calls := st.calls ++
        [BuildCall.resize b.numPrimitives, BuildCall.set b.emptyNode b.empty 0] }
  else b.buildLoop 20 st

/-- A BVH as the triple `bvh->set` was last called with, for the examples. -/
def exampleFastBuilder (numPrimitives : Nat) :
    BVH4Triangle4BuilderFastClass (Nat × Nat × Nat) Nat Nat :=
  { emptyNode := 8
    empty := 0
    sizeofPrimRef := 32
    sizeofNode := 128
    numPrimitives := numPrimitives
    set := fun root bounds n _ => (root, bounds, n)
    allocInit := fun _ _ bvh => bvh
    createPrimRefArray := { geomBounds := 7, size := numPrimitives }
    builder := fun _ bvh => (16, bvh) }

/-! ## Proofs: machine arithmetic -/

theorem SIZE_T_val : SIZE_T = 18446744073709551616 := by
  norm_num [SIZE_T]

theorem UINT_val : UINT = 4294967296 := by
  norm_num [UINT]

theorem addS_exact {a b : Nat} (h : a + b < SIZE_T) : addS a b = a + b :=
  Nat.mod_eq_of_lt h

theorem subS_exact {a b : Nat} (hb : b ≤ a) (ha : a < SIZE_T) : subS a b = a - b := by
  unfold subS
  rw [SIZE_T_val] at *
  omega

theorem mulS_exact {a b : Nat} (h : a * b < SIZE_T) : mulS a b = a * b :=
  Nat.mod_eq_of_lt h

/-- The expression `r0 + k1 - k` of the task loop is exact whenever its true value
fits, even if the intermediate sum `r0 + k1` wraps. -/
theorem subS_addS_exact {a b c : Nat} (hc : c ≤ b)
    (h : a + (b - c) < SIZE_T) : subS (addS a b) c = a + (b - c) := by
  unfold subS addS
  rw [SIZE_T_val] at *
  omega

/-! ## Proofs: `ParallelForForState` -/

theorem initLoop_fst_length (sizes : List Nat) (sum : Nat) :
    (initLoop sizes sum).1.length = sizes.length := by
  induction sizes generalizing sum with
  | nil => rfl
  | cons N rest ih => simp [initLoop, ih]

theorem initLoop_snd (sizes : List Nat) (sum : Nat) (h : sum + sizes.sum < SIZE_T) :
    (initLoop sizes sum).2 = sum + sizes.sum := by
  induction sizes generalizing sum with
  | nil => simp [initLoop]
  | cons N rest ih =>
    simp only [List.sum_cons] at h
    have hN : addS sum N = sum + N := addS_exact (by omega)
    simp only [initLoop, hN, List.sum_cons]
    rw [ih (sum + N) (by omega)]
    omega

theorem initLoop_fst_getD (sizes : List Nat) (sum : Nat) (h : sum + sizes.sum < SIZE_T)
    (i : Nat) (hi : i < sizes.length) :
    (initLoop sizes sum).1.getD i 0 = sum + (sizes.take i).sum := by
  induction sizes generalizing sum i with
  | nil => simp at hi
  | cons N rest ih =>
    simp only [List.sum_cons] at h
    have hN : addS sum N = sum + N := addS_exact (by omega)
    cases i with
    | zero => simp [initLoop]
    | succ j =>
      simp only [List.length_cons, Nat.add_lt_add_iff_right] at hi
      simp only [initLoop, hN, List.getD_cons_succ, List.take_succ_cons, List.sum_cons]
      rw [ih (sum + N) (by omega) j hi]
      omega

theorem init_K (sizes : List Nat) (h : sizes.sum < SIZE_T) :
    (ParallelForForState.init sizes).K = sizes.sum := by
  simp [ParallelForForState.init, initLoop_snd sizes 0 (by omega)]

theorem init_prefix_sum_length (sizes : List Nat) :
    (ParallelForForState.init sizes).prefix_sum.length = sizes.length := by
  simp [ParallelForForState.init, initLoop_fst_length]

theorem init_prefix_sum_getD (sizes : List Nat) (h : sizes.sum < SIZE_T)
    (i : Nat) (hi : i < sizes.length) :
    (ParallelForForState.init sizes).prefix_sum.getD i 0 = (sizes.take i).sum := by
  have := initLoop_fst_getD sizes 0 (by omega) i hi
  simpa [ParallelForForState.init] using this

theorem sum_take_le (sizes : List Nat) (i : Nat) : (sizes.take i).sum ≤ sizes.sum := by
  conv_rhs => rw [← List.take_append_drop i sizes, List.sum_append]
  omega

theorem sum_take_succ (sizes : List Nat) (i : Nat) (hi : i < sizes.length) :
    (sizes.take (i + 1)).sum = (sizes.take i).sum + sizes[i] := by
  rw [List.take_succ, List.sum_append]
  simp [List.getElem?_eq_getElem hi]

theorem sum_take_mono (sizes : List Nat) {i j : Nat} (hij : i ≤ j) :
    (sizes.take i).sum ≤ (sizes.take j).sum := by
  have h := sum_take_le (sizes.take j) i
  rwa [List.take_take, Nat.min_eq_left hij] at h

/-- The halving search returns the boundary between the entries `≤ val` and the
entries `> val`, provided the searched interval brackets that boundary. -/
theorem upper_bound_loop_spec (a : List Nat) (val : Nat) :
    ∀ (fuel first len : Nat), len ≤ fuel → first + len ≤ a.length →
      (∀ i, i < first → a.getD i 0 ≤ val) →
      (∀ i, first + len ≤ i → i < a.length → val < a.getD i 0) →
      (∀ i j, i ≤ j → j < a.length → a.getD i 0 ≤ a.getD j 0) →
      (∀ i, i < upper_bound_loop a val fuel first len → a.getD i 0 ≤ val) ∧
      (∀ i, upper_bound_loop a val fuel first len ≤ i → i < a.length → val < a.getD i 0) ∧
      upper_bound_loop a val fuel first len ≤ first + len := by
  intro fuel
  induction fuel with
  | zero =>
    intro first len hlen _ hlo hhi _
    have : len = 0 := by omega
    subst this
    exact ⟨hlo, fun i h1 h2 => hhi i (by simpa [upper_bound_loop] using h1) h2,
      by simp [upper_bound_loop]⟩
  | succ fuel ih =>
    intro first len hlen hbnd hlo hhi hmono
    unfold upper_bound_loop
    by_cases hpos : 0 < len
    · rw [if_pos hpos]
      by_cases hlt : val < a.getD (first + len / 2) 0
      · rw [if_pos hlt]
        have hhalf : len / 2 < len := Nat.div_lt_self hpos (by decide)
        have := ih first (len / 2) (by omega) (by omega) hlo
          (fun i h1 h2 => lt_of_lt_of_le hlt (hmono _ _ h1 h2)) hmono
        exact ⟨this.1, this.2.1, by omega⟩
      · rw [if_neg hlt]
        have hhalf : len / 2 < len := Nat.div_lt_self hpos (by decide)
        have hmid : first + len / 2 < a.length := by omega
        have := ih (first + len / 2 + 1) (len - len / 2 - 1) (by omega) (by omega)
          (fun i h1 => le_trans (hmono i _ (by omega) hmid) (not_lt.mp hlt))
          (fun i h1 h2 => hhi i (by omega) h2) hmono
        exact ⟨this.1, this.2.1, by omega⟩
    · rw [if_neg hpos]
      have : len = 0 := by omega
      subst this
      exact ⟨hlo, fun i h1 h2 => hhi i (by simpa using h1) h2, by simp⟩

theorem sum_take_getD_succ (sizes : List Nat) (i : Nat) :
    (sizes.take (i + 1)).sum = (sizes.take i).sum + sizes.getD i 0 := by
  by_cases hi : i < sizes.length
  · rw [sum_take_succ sizes i hi]
    simp [List.getD, List.getElem?_eq_getElem hi]
  · have h1 : sizes.take (i + 1) = sizes := List.take_of_length_le (by omega)
    have h2 : sizes.take i = sizes := List.take_of_length_le (by omega)
    have h3 : sizes[i]? = none := List.getElem?_eq_none (by omega)
    simp [h1, h2, List.getD, h3]

/-- What `start_indices` computes, in terms of the sums of the first groups. -/
theorem start_indices_sums (sizes : List Nat) (hK : sizes.sum < SIZE_T)
    (k0 : Nat) (hk : k0 < sizes.sum) :
    ∃ i0 j0, (ParallelForForState.init sizes).start_indices k0 = some (i0, j0) ∧
      i0 < sizes.length ∧ j0 < sizes.getD i0 0 ∧ (sizes.take i0).sum + j0 = k0 := by
  have hlen : (ParallelForForState.init sizes).prefix_sum.length = sizes.length :=
    init_prefix_sum_length sizes
  have hget := init_prefix_sum_getD sizes hK
  have hM : (ParallelForForState.init sizes).M = sizes.length := rfl
  have hpos : 0 < sizes.length := by
    cases sizes with
    | nil => simp at hk
    | cons _ _ => simp
  obtain ⟨hlo, hhi, hle⟩ := upper_bound_loop_spec (ParallelForForState.init sizes).prefix_sum k0
    sizes.length 0 sizes.length le_rfl (by omega) (by intro i hi; omega)
    (by intro i h1 h2; omega)
    (by
      intro i j hij hj
      rw [hlen] at hj
      rw [hget i (by omega), hget j hj]
      exact sum_take_mono sizes hij)
  set p := upper_bound_loop (ParallelForForState.init sizes).prefix_sum k0
    sizes.length 0 sizes.length with hp
  have hp0 : p ≠ 0 := by
    intro h0
    have := hhi 0 (by omega) (by omega)
    rw [hget 0 hpos] at this
    simp at this
  have hpM : p ≤ sizes.length := by omega
  have hi0 : p - 1 < sizes.length := by omega
  have hpre : (ParallelForForState.init sizes).prefix_sum.getD (p - 1) 0
      = (sizes.take (p - 1)).sum := hget _ hi0
  have hle0 : (sizes.take (p - 1)).sum ≤ k0 := by
    rw [← hpre]
    exact hlo (p - 1) (by omega)
  have hlt : k0 < (sizes.take p).sum := by
    by_cases hpl : p < sizes.length
    · have := hhi p le_rfl (by omega)
      rwa [hget p hpl] at this
    · have : p = sizes.length := by omega
      rw [this, List.take_length]
      exact hk
  have hsucc := sum_take_getD_succ sizes (p - 1)
  rw [show p - 1 + 1 = p by omega] at hsucc
  have hopt : (ParallelForForState.init sizes).prefix_sum[p - 1]?
      = some (sizes.take (p - 1)).sum := by
    have h1 : p - 1 < (ParallelForForState.init sizes).prefix_sum.length := by omega
    rw [List.getElem?_eq_getElem h1]
    have h2 := hpre
    rw [List.getD_eq_getElem _ _ h1] at h2
    rw [h2]
  refine ⟨p - 1, k0 - (sizes.take (p - 1)).sum, ?_, hi0, by omega, by omega⟩
  unfold ParallelForForState.start_indices upper_bound
  simp only [hM, ← hp, if_neg hp0, hopt]
  rw [subS_exact hle0 (by omega)]

/-- At most one pair `(i, j)` with `j` inside group `i` has a given global
index. -/
theorem global_index_unique (sizes : List Nat) {i j i0 j0 : Nat}
    (hj : j < sizes.getD i 0) (hj0 : j0 < sizes.getD i0 0)
    (h : (sizes.take i).sum + j = (sizes.take i0).sum + j0) : i = i0 ∧ j = j0 := by
  have key : ∀ a b x y : Nat, a < b → x < sizes.getD a 0 →
      (sizes.take a).sum + x = (sizes.take b).sum + y → False := by
    intro a b x y hab hx hxy
    have h1 := sum_take_getD_succ sizes a
    have h2 : (sizes.take (a + 1)).sum ≤ (sizes.take b).sum := sum_take_mono sizes hab
    omega
  rcases Nat.lt_trichotomy i i0 with hlt | heq | hgt
  · exact (key i i0 j j0 hlt hj h).elim
  · subst heq
    exact ⟨rfl, by omega⟩
  · exact (key i0 i j0 j hgt hj0 h.symm).elim

/-! ## Proofs: the task loop -/

theorem drop_range' (s : Nat) : ∀ (j n : Nat),
    (List.range' s n).drop j = List.range' (s + j) (n - j) := by
  intro j
  induction j generalizing s with
  | zero => intro n; simp
  | succ j ih =>
    intro n
    cases n with
    | zero => simp
    | succ n =>
      rw [List.range'_succ, List.drop_succ_cons, ih (s + 1) n]
      congr 1 <;> omega

theorem take_range' (s : Nat) : ∀ (d n : Nat),
    (List.range' s n).take d = List.range' s (min d n) := by
  intro d
  induction d generalizing s with
  | zero => intro n; simp
  | succ d ih =>
    intro n
    cases n with
    | zero => simp
    | succ n =>
      rw [List.range'_succ, List.take_succ_cons, ih (s + 1) n,
        show min (d + 1) (n + 1) = min d n + 1 by omega, List.range'_succ]

theorem allPairs_length (i : Nat) (sizes : List Nat) :
    (allPairs i sizes).length = sizes.sum := by
  induction sizes generalizing i with
  | nil => rfl
  | cons N rest ih => simp [allPairs, ih]

theorem allPairs_append (i : Nat) (xs ys : List Nat) :
    allPairs i (xs ++ ys) = allPairs i xs ++ allPairs (i + xs.length) ys := by
  induction xs generalizing i with
  | nil => simp [allPairs]
  | cons N rest ih =>
    rw [List.cons_append, allPairs, allPairs, ih (i + 1), List.append_assoc, List.length_cons,
      show i + 1 + rest.length = i + (rest.length + 1) by omega]

/-- The slice of the enumeration a task loop is about to walk through. -/
theorem allPairs_cons_slice (i N : Nat) (rest : List Nat) (j0 d : Nat) (hj : j0 ≤ N) :
    ((allPairs i (N :: rest)).drop j0).take d =
      (List.range' j0 (min d (N - j0))).map (fun j => (i, j)) ++
        (allPairs (i + 1) rest).take (d - (N - j0)) := by
  rw [allPairs]
  rw [List.drop_append_of_le_length (by simp [hj]), List.take_append_eq_append_take]
  congr 1
  · rw [← List.map_drop, ← List.map_take, List.range_eq_range', drop_range', take_range']
    simp
  · simp

theorem taskLoop_done (k1 : Nat) (rest : List Nat) (i j0 k : Nat) (h : ¬ k < k1) :
    taskLoop k1 rest i j0 k = some [] := by
  cases rest with
  | nil => simp [taskLoop, h]
  | cons N rest => simp [taskLoop, h]

/-- The task loop started at local index `j0` of group `i`, with global offset
`k = b + j0`, ends normally; the pairs it visits are the next `k1 - k` pairs of
the enumeration, and each call stays inside its group and carries the global
index of its first element. -/
theorem taskLoop_spec (k1 : Nat) (hk1 : k1 < SIZE_T) :
    ∀ (rest : List Nat) (i j0 k b : Nat), k ≤ k1 → k = b + j0 →
      j0 ≤ rest.headD 0 → (k1 - k) + j0 ≤ rest.sum → rest.sum < SIZE_T →
      ∃ calls, taskLoop k1 rest i j0 k = some calls ∧
        calls.flatMap Call.pairs = ((allPairs i rest).drop j0).take (k1 - k) ∧
        ∀ c ∈ calls, i ≤ c.i ∧ c.i < i + rest.length ∧ c.r0 < c.r1 ∧
          c.r1 ≤ rest.getD (c.i - i) 0 ∧
          c.k = b + (rest.take (c.i - i)).sum + c.r0 := by
  intro rest
  induction rest with
  | nil =>
    intro i j0 k b hk hb hj hd _
    simp only [List.sum_nil, Nat.le_zero, Nat.add_eq_zero] at hd
    refine ⟨[], taskLoop_done k1 [] i j0 k (by omega), ?_, by simp⟩
    simp [hd.1]
  | cons N rest ih =>
    intro i j0 k b hk hb hj hd hsum
    simp only [List.headD_cons] at hj
    simp only [List.sum_cons] at hd hsum
    by_cases hlt : k < k1
    · have he : subS (addS j0 k1) k = j0 + (k1 - k) :=
        subS_addS_exact hk (by omega)
      by_cases hin : j0 + (k1 - k) ≤ N
      · -- the range ends inside this group
        have hr1 : min N (j0 + (k1 - k)) = j0 + (k1 - k) := by omega
        have hs : subS (j0 + (k1 - k)) j0 = k1 - k := by
          rw [subS_exact (by omega) (by omega)]; omega
        have hk' : addS k (k1 - k) = k1 := by
          rw [addS_exact (by omega)]; omega
        refine ⟨[Call.mk i j0 (j0 + (k1 - k)) k], ?_, ?_, ?_⟩
        · simp only [taskLoop, if_pos hlt, he, hr1, hs, hk']
          rw [taskLoop_done k1 rest (i + 1) 0 k1 (by omega)]
          simp only [List.append_nil]
          rw [if_pos (by omega)]
        · rw [allPairs_cons_slice i N rest j0 (k1 - k) hj]
          simp only [List.flatMap_cons, List.flatMap_nil, List.append_nil, Call.pairs]
          rw [show k1 - k - (N - j0) = 0 by omega,
            show min (k1 - k) (N - j0) = j0 + (k1 - k) - j0 by omega]
          simp
        · intro c hc
          simp only [List.mem_singleton] at hc
          subst hc
          simp only [Nat.sub_self, List.getD_cons_zero, List.take_zero, List.sum_nil,
            List.length_cons]
          omega
      · -- the range continues into the next group
        have hr1 : min N (j0 + (k1 - k)) = N := by omega
        have hs : subS N j0 = N - j0 := subS_exact hj (by omega)
        have hk' : addS k (N - j0) = k + (N - j0) := addS_exact (by omega)
        obtain ⟨calls, hrun, hpairs, hcalls⟩ :=
          ih (i + 1) 0 (k + (N - j0)) (k + (N - j0)) (by omega) rfl (Nat.zero_le _)
            (by omega) (by omega)
        refine ⟨(if N > j0 then [Call.mk i j0 N k] else []) ++ calls, ?_, ?_, ?_⟩
        · simp only [taskLoop, if_pos hlt, he, hr1, hs, hk', hrun]
        · rw [allPairs_cons_slice i N rest j0 (k1 - k) hj, List.flatMap_append, hpairs]
          rw [show k1 - (k + (N - j0)) = k1 - k - (N - j0) by omega,
            show min (k1 - k) (N - j0) = N - j0 by omega]
          simp only [List.drop_zero]
          congr 1
          by_cases hN : N > j0
          · simp [hN, Call.pairs]
          · simp [hN, show N - j0 = 0 by omega]
        · intro c hc
          rw [List.mem_append] at hc
          rcases hc with hc | hc
          · by_cases hN : N > j0
            · simp only [hN, if_true, List.mem_singleton] at hc
              subst hc
              simp only [Nat.sub_self, List.getD_cons_zero, List.take_zero, List.sum_nil,
                List.length_cons]
              omega
            · simp [hN] at hc
          · obtain ⟨h1, h2, h3, h4, h5⟩ := hcalls c hc
            have hci : c.i - i = (c.i - (i + 1)) + 1 := by omega
            rw [hci, List.getD_cons_succ, List.take_succ_cons, List.sum_cons]
            simp only [List.length_cons]
            refine ⟨by omega, by omega, h3, h4, ?_⟩
            rw [h5]
            omega
    · have hkk : k = k1 := by omega
      refine ⟨[], taskLoop_done k1 _ i j0 k hlt, ?_, by simp⟩
      simp [hkk]

theorem taskLoop_from_start (sizes : List Nat) (i0 : Nat) (hi0 : i0 ≤ sizes.length) (j0 : Nat) :
    (allPairs i0 (sizes.drop i0)).drop j0 =
      (allPairs 0 sizes).drop ((sizes.take i0).sum + j0) := by
  conv_rhs => rw [← List.take_append_drop i0 sizes, allPairs_append]
  rw [List.length_take, Nat.min_eq_left hi0, Nat.zero_add,
    ← allPairs_length 0 (List.take i0 (List.take i0 sizes ++ List.drop i0 sizes))]
  simp [List.drop_append]

theorem sum_take_drop (sizes : List Nat) (i0 n : Nat) :
    (sizes.take (i0 + n)).sum = (sizes.take i0).sum + ((sizes.drop i0).take n).sum := by
  rw [List.take_add, List.sum_append]

theorem getD_drop (sizes : List Nat) (i0 n : Nat) :
    (sizes.drop i0).getD n 0 = sizes.getD (i0 + n) 0 := by
  simp [List.getD, List.getElem?_drop]

theorem headD_drop (sizes : List Nat) (i0 : Nat) :
    (sizes.drop i0).headD 0 = sizes.getD i0 0 := by
  have h := getD_drop sizes i0 0
  rw [Nat.add_zero] at h
  rw [← h]
  cases sizes.drop i0 <;> simp

theorem sum_drop (sizes : List Nat) (i0 : Nat) :
    (sizes.drop i0).sum = sizes.sum - (sizes.take i0).sum := by
  have h : sizes.sum = (sizes.take i0).sum + (sizes.drop i0).sum := by
    conv_lhs => rw [← List.take_append_drop i0 sizes]
    rw [List.sum_append]
  omega

/-- One task of the parallel path, for a range `[k0, k1)` inside `[0, K)`: it
ends normally, visits exactly the pairs with global index in `[k0, k1)`, in
order, and every call stays inside its group and carries the global index of
its first element. -/
theorem task_spec (sizes : List Nat) (hK : sizes.sum < SIZE_T) (T t : Nat)
    (h0 : (taskRange sizes.sum T t).1 < sizes.sum)
    (h1 : (taskRange sizes.sum T t).2 ≤ sizes.sum) :
    ∃ calls, task (ParallelForForState.init sizes) sizes.sum T t = some calls ∧
      calls.flatMap Call.pairs =
        ((allPairs 0 sizes).drop (taskRange sizes.sum T t).1).take
          ((taskRange sizes.sum T t).2 - (taskRange sizes.sum T t).1) ∧
      ∀ c ∈ calls, c.i < sizes.length ∧ c.r0 < c.r1 ∧ c.r1 ≤ sizes.getD c.i 0 ∧
        c.k = (sizes.take c.i).sum + c.r0 := by
  obtain ⟨i0, j0, hstart, hi0, hj0, hsum⟩ := start_indices_sums sizes hK _ h0
  have hsizes : (ParallelForForState.init sizes).sizes = sizes := rfl
  unfold task
  simp only [hstart, hsizes]
  by_cases hle : (taskRange sizes.sum T t).1 ≤ (taskRange sizes.sum T t).2
  · have htl := sum_take_le sizes i0
    obtain ⟨calls, hrun, hpairs, hcalls⟩ :=
      taskLoop_spec (taskRange sizes.sum T t).2 (by omega) (sizes.drop i0) i0 j0
        (taskRange sizes.sum T t).1 (sizes.take i0).sum hle hsum.symm
        (by rw [headD_drop]; omega) (by rw [sum_drop]; omega) (by rw [sum_drop]; omega)
    refine ⟨calls, hrun, ?_, ?_⟩
    · rw [hpairs, taskLoop_from_start sizes i0 (by omega) j0, hsum]
    · intro c hc
      obtain ⟨c1, c2, c3, c4, c5⟩ := hcalls c hc
      rw [List.length_drop] at c2
      rw [getD_drop] at c4
      have e : i0 + (c.i - i0) = c.i := by omega
      rw [e] at c4
      have := sum_take_drop sizes i0 (c.i - i0)
      rw [e] at this
      exact ⟨by omega, c3, c4, by omega⟩
  · refine ⟨[], taskLoop_done _ _ _ _ _ (by omega), ?_, by simp⟩
    rw [show (taskRange sizes.sum T t).2 - (taskRange sizes.sum T t).1 = 0 by omega]
    simp

theorem collect_map_some {α β : Type} (l : List β) (f : β → Option α) (g : β → α)
    (h : ∀ x ∈ l, f x = some (g x)) : collect (l.map f) = some (l.map g) := by
  induction l with
  | nil => rfl
  | cons x rest ih =>
    have hx := h x (List.mem_cons_self _ _)
    have hrest := ih (fun y hy => h y (List.mem_cons_of_mem _ hy))
    simp [collect, hx, hrest]

theorem flatMap_flatten_map {α β γ : Type} (l : List α) (g : α → List β)
    (f : β → List γ) (h : α → List γ) (hh : ∀ x ∈ l, (g x).flatMap f = h x) :
    ((l.map g).flatten).flatMap f = l.flatMap h := by
  induction l with
  | nil => rfl
  | cons x rest ih =>
    rw [List.map_cons, List.flatten_cons, List.flatMap_append, List.flatMap_cons,
      hh x (List.mem_cons_self _ _), ih (fun y hy => hh y (List.mem_cons_of_mem _ hy))]

/-- Consecutive slices of a list add up to one slice. -/
theorem flatMap_slices {α : Type} (L : List α) (b : Nat → Nat) (T : Nat)
    (hmono : ∀ t, t < T → b t ≤ b (t + 1)) :
    (List.range T).flatMap (fun t => (L.drop (b t)).take (b (t + 1) - b t)) =
      (L.drop (b 0)).take (b T - b 0) := by
  induction T with
  | zero => simp
  | succ T ih =>
    have hT := ih (fun t ht => hmono t (by omega))
    have h0T : b 0 ≤ b T := by
      clear hT ih
      induction T with
      | zero => exact le_rfl
      | succ n ihn =>
        exact le_trans (ihn (fun t ht => hmono t (by omega))) (hmono n (by omega))
    rw [List.range_succ, List.flatMap_append, hT]
    simp only [List.flatMap_cons, List.flatMap_nil, List.append_nil]
    have hstep := hmono T (by omega)
    rw [show b (T + 1) - b 0 = (b T - b 0) + (b (T + 1) - b T) by omega, List.take_add,
      List.drop_drop, show b 0 + (b T - b 0) = b T by omega]

/-- The sequential loop visits every pair once, in order, one call per
non-empty group. -/
theorem sequential_loop_spec :
    ∀ (sizes : List Nat) (i k : Nat), k + sizes.sum < SIZE_T →
      (sequential_for_for_loop sizes i k).flatMap Call.pairs = allPairs i sizes ∧
      (∀ c ∈ sequential_for_for_loop sizes i k, i ≤ c.i ∧ c.i < i + sizes.length ∧
        c.r0 = 0 ∧ c.r0 < c.r1 ∧ c.r1 = sizes.getD (c.i - i) 0 ∧
        c.k = k + (sizes.take (c.i - i)).sum + c.r0) ∧
      (sequential_for_for_loop sizes i k).map (fun c => (c.i, c.r0, c.r1)) =
        ((sizes.enumFrom i).filter (fun p => decide (p.2 ≠ 0))).map
          (fun p => (p.1, 0, p.2)) := by
  intro sizes
  induction sizes with
  | nil => intro i k _; simp [sequential_for_for_loop, allPairs]
  | cons N rest ih =>
    intro i k hk
    simp only [List.sum_cons] at hk
    obtain ⟨h1, h2, h3⟩ := ih (i + 1) (k + N) (by omega)
    have hadd : addS k N = k + N := addS_exact (by omega)
    simp only [sequential_for_for_loop, hadd, allPairs, List.flatMap_append, h1,
      List.map_append, h3, List.enumFrom_cons]
    refine ⟨?_, ?_, ?_⟩
    · by_cases hN : N = 0
      · simp [hN]
      · simp [hN, Call.pairs, List.range_eq_range']
    · intro c hc
      rw [List.mem_append] at hc
      rcases hc with hc | hc
      · by_cases hN : N = 0
        · simp [hN] at hc
        · simp only [hN, ne_eq, not_false_eq_true, if_true, List.mem_singleton] at hc
          subst hc
          simp only [Nat.sub_self, List.getD_cons_zero, List.take_zero, List.sum_nil,
            List.length_cons]
          exact ⟨le_rfl, by omega, trivial, by omega, trivial, by omega⟩
      · obtain ⟨c1, c2, c3, c4, c5, c6⟩ := h2 c hc
        have hci : c.i - i = (c.i - (i + 1)) + 1 := by omega
        rw [hci, List.getD_cons_succ, List.take_succ_cons, List.sum_cons]
        simp only [List.length_cons]
        exact ⟨by omega, by omega, c3, c4, c5, by omega⟩
    · by_cases hN : N = 0
      · simp [hN, List.filter_cons]
      · simp [hN, List.filter_cons]

/-! ## Proofs: task count and task ranges -/

theorem initialTaskCount_exact (K m : Nat) (hm : 1 ≤ m) (h : K + m ≤ SIZE_T) :
    initialTaskCount K m = (K + m - 1) / m := by
  unfold initialTaskCount
  rw [subS_addS_exact hm (by omega)]
  congr 1
  omega

theorem initialTaskCount_zero (m : Nat) (hm : 1 ≤ m) : initialTaskCount 0 m = 0 := by
  unfold initialTaskCount
  apply Nat.div_eq_of_lt
  unfold subS addS
  rw [SIZE_T_val]
  omega

theorem initialTaskCount_lt (K m : Nat) : initialTaskCount K m < SIZE_T := by
  unfold initialTaskCount
  have h1 : subS (addS K m) 1 < SIZE_T := Nat.mod_lt _ (by rw [SIZE_T_val]; omega)
  exact lt_of_le_of_lt (Nat.div_le_self _ _) h1

/-- Whatever wraps, a task range computed by the code stays inside `[0, K]`. -/
theorem taskRange_bounds (K T t : Nat) (ht : t < T) (hK : 0 < K) :
    (taskRange K T t).1 < K ∧ (taskRange K T t).2 ≤ K := by
  have hT : 0 < T := by omega
  constructor
  · have h1 : mulS (addS t 0) K ≤ t * K :=
      le_trans (Nat.mod_le _ _) (Nat.mul_le_mul_right K (Nat.mod_le _ _))
    have h2 : t * K < K * T := by
      rw [Nat.mul_comm K T]
      exact Nat.mul_lt_mul_of_pos_right ht hK
    exact (Nat.div_lt_iff_lt_mul hT).mpr (lt_of_le_of_lt h1 h2)
  · have h1 : mulS (addS t 1) K ≤ (t + 1) * K :=
      le_trans (Nat.mod_le _ _) (Nat.mul_le_mul_right K (Nat.mod_le _ _))
    have h2 : (t + 1) * K ≤ T * K := Nat.mul_le_mul_right K ht
    exact Nat.div_le_of_le_mul (le_trans h1 h2)

theorem taskRange_exact (K T t : Nat) (ht : t + 1 < SIZE_T) (hmul : (t + 1) * K < SIZE_T) :
    taskRange K T t = (t * K / T, (t + 1) * K / T) := by
  have h0 : addS t 0 = t := addS_exact (by omega)
  have h1 : addS t 1 = t + 1 := addS_exact ht
  have hle : t * K ≤ (t + 1) * K := Nat.mul_le_mul_right K (by omega)
  unfold taskRange
  rw [h0, h1, mulS_exact hmul, mulS_exact (lt_of_le_of_lt hle hmul)]

/-- Consecutive boundaries `t*K/T` are `K/T` or `K/T + 1` apart. -/
theorem boundary_step (K T t : Nat) (hT : 0 < T) :
    t * K / T + K / T ≤ (t + 1) * K / T ∧ (t + 1) * K / T ≤ t * K / T + K / T + 1 := by
  have ha1 : t * K / T * T ≤ t * K := Nat.div_mul_le_self _ _
  have hq1 : K / T * T ≤ K := Nat.div_mul_le_self _ _
  have ha2 : t * K < T * (t * K / T + 1) := Nat.lt_mul_div_succ _ hT
  have hq2 : K < T * (K / T + 1) := Nat.lt_mul_div_succ _ hT
  have hexp : (t + 1) * K = t * K + K := by ring
  constructor
  · rw [Nat.le_div_iff_mul_le hT, Nat.add_mul, hexp]
    omega
  · apply Nat.le_of_lt_succ
    rw [Nat.div_lt_iff_lt_mul hT, hexp]
    have : (t * K / T + K / T + 1).succ * T = T * (t * K / T + 1) + T * (K / T + 1) := by
      rw [Nat.succ_eq_add_one]; ring
    rw [this]
    omega

theorem boundary_last (K T : Nat) (hT : 0 < T) : T * K / T = K :=
  Nat.mul_div_cancel_left K hT

/-! ## Proofs: `parallel_for_for` -/

theorem parallel_for_for_unfold (sizes : List Nat) (m th : Nat) (hK : sizes.sum < SIZE_T)
    (hm : 1 ≤ m) :
    parallel_for_for sizes m th =
      if initialTaskCount sizes.sum m = 1 then some [sequential_for_for sizes m]
      else collect (parallel_for (min (initialTaskCount sizes.sum m) th)
        (task (ParallelForForState.init sizes) sizes.sum
          (min (initialTaskCount sizes.sum m) th))) := by
  unfold parallel_for_for
  simp only [ParallelForForState.size, init_K sizes hK]
  rw [if_neg (by omega)]

/-- The parallel path with `T` tasks ends normally, and every task does what
`task_spec` says. -/
theorem parallel_path_spec (sizes : List Nat) (hK : sizes.sum < SIZE_T) (T : Nat)
    (hpos : 0 < sizes.sum ∨ T = 0) :
    ∃ run, collect (parallel_for T (task (ParallelForForState.init sizes) sizes.sum T))
        = some run ∧
      run.length = T ∧
      (∀ t, t < T → (run.getD t []).flatMap Call.pairs =
        ((allPairs 0 sizes).drop (taskRange sizes.sum T t).1).take
          ((taskRange sizes.sum T t).2 - (taskRange sizes.sum T t).1)) ∧
      visited run = (List.range T).flatMap (fun t =>
        ((allPairs 0 sizes).drop (taskRange sizes.sum T t).1).take
          ((taskRange sizes.sum T t).2 - (taskRange sizes.sum T t).1)) ∧
      ∀ calls ∈ run, ∀ c ∈ calls, c.i < sizes.length ∧ c.r0 < c.r1 ∧
        c.r1 ≤ sizes.getD c.i 0 ∧ c.k = (sizes.take c.i).sum + c.r0 := by
  have hspec : ∀ t, t < T → ∃ calls,
      task (ParallelForForState.init sizes) sizes.sum T t = some calls ∧
      calls.flatMap Call.pairs =
        ((allPairs 0 sizes).drop (taskRange sizes.sum T t).1).take
          ((taskRange sizes.sum T t).2 - (taskRange sizes.sum T t).1) ∧
      ∀ c ∈ calls, c.i < sizes.length ∧ c.r0 < c.r1 ∧ c.r1 ≤ sizes.getD c.i 0 ∧
        c.k = (sizes.take c.i).sum + c.r0 := by
    intro t ht
    have hK0 : 0 < sizes.sum := by
      rcases hpos with h | h
      · exact h
      · omega
    obtain ⟨b1, b2⟩ := taskRange_bounds sizes.sum T t ht hK0
    exact task_spec sizes hK T t b1 b2
  let g : Nat → List Call :=
    fun t => (task (ParallelForForState.init sizes) sizes.sum T t).getD []
  have hg : ∀ t ∈ List.range T,
      task (ParallelForForState.init sizes) sizes.sum T t = some (g t) := by
    intro t ht
    obtain ⟨calls, h1, _⟩ := hspec t (List.mem_range.mp ht)
    simp [g, h1]
  have hgspec : ∀ t, t < T →
      (g t).flatMap Call.pairs =
        ((allPairs 0 sizes).drop (taskRange sizes.sum T t).1).take
          ((taskRange sizes.sum T t).2 - (taskRange sizes.sum T t).1) ∧
      ∀ c ∈ g t, c.i < sizes.length ∧ c.r0 < c.r1 ∧ c.r1 ≤ sizes.getD c.i 0 ∧
        c.k = (sizes.take c.i).sum + c.r0 := by
    intro t ht
    obtain ⟨calls, h1, h2, h3⟩ := hspec t ht
    have : g t = calls := by simp [g, h1]
    rw [this]
    exact ⟨h2, h3⟩
  refine ⟨(List.range T).map g, collect_map_some _ _ g hg, by simp, ?_, ?_, ?_⟩
  · intro t ht
    have : ((List.range T).map g).getD t [] = g t := by
      rw [List.getD_eq_getElem _ _ (by simpa using ht)]
      simp
    rw [this]
    exact (hgspec t ht).1
  · unfold visited
    exact flatMap_flatten_map _ g Call.pairs _
      (fun t ht => (hgspec t (List.mem_range.mp ht)).1)
  · intro calls hcalls c hc
    obtain ⟨t, ht, rfl⟩ := List.mem_map.mp hcalls
    exact (hgspec t (List.mem_range.mp ht)).2 c hc

theorem mem_allPairs (sizes : List Nat) : ∀ (i a j : Nat),
    (a, j) ∈ allPairs i sizes ↔ i ≤ a ∧ a < i + sizes.length ∧ j < sizes.getD (a - i) 0 := by
  induction sizes with
  | nil => intro i a j; simp [allPairs]
  | cons N rest ih =>
    intro i a j
    rw [allPairs, List.mem_append, ih (i + 1) a j]
    simp only [List.mem_map, List.mem_range, Prod.mk.injEq, List.length_cons]
    constructor
    · rintro (⟨x, hx, rfl, rfl⟩ | ⟨h1, h2, h3⟩)
      · simp only [Nat.sub_self, List.getD_cons_zero]
        omega
      · have hci : a - i = (a - (i + 1)) + 1 := by omega
        rw [hci, List.getD_cons_succ]
        omega
    · rintro ⟨h1, h2, h3⟩
      by_cases hai : a = i
      · subst hai
        left
        simp only [Nat.sub_self, List.getD_cons_zero] at h3
        exact ⟨j, h3, rfl, rfl⟩
      · right
        have hci : a - i = (a - (i + 1)) + 1 := by omega
        rw [hci, List.getD_cons_succ] at h3
        omega

theorem nodup_allPairs (sizes : List Nat) : ∀ (i : Nat), (allPairs i sizes).Nodup := by
  induction sizes with
  | nil => intro i; simp [allPairs]
  | cons N rest ih =>
    intro i
    rw [allPairs, List.nodup_append]
    refine ⟨?_, ih (i + 1), ?_⟩
    · refine List.Nodup.map ?_ (List.nodup_range N)
      intro x y hxy
      simpa using hxy
    · intro p hp hq
      obtain ⟨a, j⟩ := p
      rw [mem_allPairs] at hq
      simp only [List.mem_map, List.mem_range, Prod.mk.injEq] at hp
      obtain ⟨x, _, hx, _⟩ := hp
      omega

theorem allPairs_eq_nil (sizes : List Nat) (i : Nat) (h : sizes.sum = 0) :
    allPairs i sizes = [] := by
  apply List.eq_nil_of_length_eq_zero
  rw [allPairs_length, h]

theorem count_eq_one_of_nodup {α : Type} [BEq α] [LawfulBEq α] (a : α) :
    ∀ (l : List α), l.Nodup → a ∈ l → l.count a = 1 := by
  intro l
  induction l with
  | nil => intro _ h; simp at h
  | cons b rest ih =>
    intro hnd hmem
    rw [List.nodup_cons] at hnd
    rw [List.count_cons]
    by_cases hba : b = a
    · subst hba
      simp [List.count_eq_zero_of_not_mem hnd.1]
    · have hin : a ∈ rest := by
        rcases List.mem_cons.mp hmem with h | h
        · exact absurd h.symm hba
        · exact h
      simp [ih hnd.2 hin, hba]

/-- In the full enumeration every pair inside a group occurs once, and no
other pair occurs. -/
theorem count_allPairs (sizes : List Nat) (i j : Nat) :
    (allPairs 0 sizes).count (i, j) =
      if i < sizes.length ∧ j < sizes.getD i 0 then 1 else 0 := by
  have hmem := mem_allPairs sizes 0 i j
  simp only [Nat.zero_le, true_and, Nat.zero_add, Nat.sub_zero] at hmem
  by_cases h : i < sizes.length ∧ j < sizes.getD i 0
  · rw [if_pos h]
    exact count_eq_one_of_nodup _ _ (nodup_allPairs sizes 0) (hmem.mpr h)
  · rw [if_neg h]
    exact List.count_eq_zero_of_not_mem (fun hin => h (hmem.mp hin))

theorem flatMap_range_congr {α : Type} (T : Nat) (f g : Nat → List α)
    (h : ∀ t, t < T → f t = g t) : (List.range T).flatMap f = (List.range T).flatMap g := by
  induction T with
  | zero => rfl
  | succ T ih =>
    rw [List.range_succ, List.flatMap_append, List.flatMap_append,
      ih (fun t ht => h t (by omega))]
    simp [h T (by omega)]

/-- The parallel path visits the whole enumeration when its task ranges are
computed without wrap-around. -/
theorem parallel_path_visits_all (sizes : List Nat) (T : Nat)
    (hT : T < SIZE_T) (hpos : 0 < T ∨ sizes.sum = 0) (hmul : T * sizes.sum < SIZE_T) :
    (List.range T).flatMap (fun t =>
        ((allPairs 0 sizes).drop (taskRange sizes.sum T t).1).take
          ((taskRange sizes.sum T t).2 - (taskRange sizes.sum T t).1)) =
      allPairs 0 sizes := by
  rcases Nat.eq_zero_or_pos T with hT0 | hT0
  · subst hT0
    rcases hpos with h | h
    · omega
    · simp [allPairs_eq_nil sizes 0 h]
  · rw [flatMap_range_congr T _
      (fun t => ((allPairs 0 sizes).drop (t * sizes.sum / T)).take
        ((t + 1) * sizes.sum / T - t * sizes.sum / T))]
    · rw [flatMap_slices (allPairs 0 sizes) (fun t => t * sizes.sum / T) T]
      · simp only [Nat.zero_mul, Nat.zero_div, List.drop_zero, Nat.sub_zero,
          boundary_last sizes.sum T hT0]
        exact List.take_of_length_le (by rw [allPairs_length])
      · intro t _
        exact Nat.div_le_div_right (Nat.mul_le_mul_right _ (by omega))
    · intro t ht
      have hle : (t + 1) * sizes.sum ≤ T * sizes.sum := Nat.mul_le_mul_right _ ht
      rw [taskRange_exact sizes.sum T t (by omega) (by omega)]

/-- Claim C3: for group sizes whose total `K` is a `size_t` value and every
global index `k0 < K`, `start_indices(k0)` returns the one pair `(i0, j0)` with
`j0 < sizes[i0]` and `prefix_sum[i0] + j0 = k0`, where `prefix_sum`, computed by
`init`, is the exclusive prefix sum of the sizes; the group returned is never
empty. -/
theorem start_indices_unique_position (sizes : List Nat) (hK : sizes.sum < SIZE_T)
    (k0 : Nat) (hk : k0 < (ParallelForForState.init sizes).size) :
    (∀ i, i < sizes.length →
      (ParallelForForState.init sizes).prefix_sum.getD i 0 = (sizes.take i).sum) ∧
    ∃ i0 j0, (ParallelForForState.init sizes).start_indices k0 = some (i0, j0) ∧
      i0 < sizes.length ∧ 0 < sizes.getD i0 0 ∧ j0 < sizes.getD i0 0 ∧
      (ParallelForForState.init sizes).prefix_sum.getD i0 0 + j0 = k0 ∧
      ∀ i j, i < sizes.length → j < sizes.getD i 0 →
        (ParallelForForState.init sizes).prefix_sum.getD i 0 + j = k0 → i = i0 ∧ j = j0 := by
  have hget := init_prefix_sum_getD sizes hK
  refine ⟨hget, ?_⟩
  rw [ParallelForForState.size, init_K sizes hK] at hk
  obtain ⟨i0, j0, hstart, hi0, hj0, hsum⟩ := start_indices_sums sizes hK k0 hk
  refine ⟨i0, j0, hstart, hi0, by omega, hj0, by rw [hget i0 hi0]; exact hsum, ?_⟩
  intro i j hi hj hij
  rw [hget i hi] at hij
  exact global_index_unique sizes hj hj0 (by omega)

theorem start_indices_unique_position_witness :
    [3, 0, 5, 2].sum < SIZE_T ∧ 3 < (ParallelForForState.init [3, 0, 5, 2]).size ∧
    ((∀ i, i < [3, 0, 5, 2].length →
      (ParallelForForState.init [3, 0, 5, 2]).prefix_sum.getD i 0 = ([3, 0, 5, 2].take i).sum) ∧
    ∃ i0 j0, (ParallelForForState.init [3, 0, 5, 2]).start_indices 3 = some (i0, j0) ∧
      i0 < [3, 0, 5, 2].length ∧ 0 < [3, 0, 5, 2].getD i0 0 ∧ j0 < [3, 0, 5, 2].getD i0 0 ∧
      (ParallelForForState.init [3, 0, 5, 2]).prefix_sum.getD i0 0 + j0 = 3 ∧
      ∀ i j, i < [3, 0, 5, 2].length → j < [3, 0, 5, 2].getD i 0 →
        (ParallelForForState.init [3, 0, 5, 2]).prefix_sum.getD i 0 + j = 3 →
          i = i0 ∧ j = j0) :=
  ⟨by decide, by decide,
    start_indices_unique_position [3, 0, 5, 2] (by decide) 3 (by decide)⟩

/-- Claim C2: in the sequential and in the parallel path of `parallel_for_for`
alike, every invocation `f(group i, [r0, r1), k)` receives as `k` the global
index of its first element, `k = (sum of the sizes of groups 0..i-1) + r0`, for
all group sizes (with a total that is a `size_t` value), every
`minStepSize >= 1` and every worker count; the run itself ends normally. -/
theorem parallel_for_for_global_offset (sizes : List Nat) (minStepSize numThreads : Nat)
    (hK : sizes.sum < SIZE_T) (hm : 1 ≤ minStepSize) :
    (∀ c ∈ sequential_for_for sizes minStepSize, c.k = (sizes.take c.i).sum + c.r0) ∧
    ∃ run, parallel_for_for sizes minStepSize numThreads = some run ∧
      ∀ calls ∈ run, ∀ c ∈ calls, c.k = (sizes.take c.i).sum + c.r0 := by
  have hseq : ∀ c ∈ sequential_for_for sizes minStepSize,
      c.k = (sizes.take c.i).sum + c.r0 := by
    intro c hc
    obtain ⟨_, _, _, _, _, h6⟩ := (sequential_loop_spec sizes 0 0 (by omega)).2.1 c hc
    simpa using h6
  refine ⟨hseq, ?_⟩
  rw [parallel_for_for_unfold sizes minStepSize numThreads hK hm]
  by_cases h1 : initialTaskCount sizes.sum minStepSize = 1
  · rw [if_pos h1]
    refine ⟨_, rfl, ?_⟩
    intro calls hcalls c hc
    rw [List.mem_singleton] at hcalls
    subst hcalls
    exact hseq c hc
  · rw [if_neg h1]
    have hpos : 0 < sizes.sum ∨
        min (initialTaskCount sizes.sum minStepSize) numThreads = 0 := by
      rcases Nat.eq_zero_or_pos sizes.sum with h0 | h0
      · right
        rw [h0, initialTaskCount_zero minStepSize hm]
        simp
      · exact Or.inl h0
    obtain ⟨run, hrun, _, _, _, hcalls⟩ := parallel_path_spec sizes hK _ hpos
    exact ⟨run, hrun, fun calls h c hc => (hcalls calls h c hc).2.2.2⟩

theorem parallel_for_for_global_offset_witness :
    [3, 0, 5, 2].sum < SIZE_T ∧ 1 ≤ 2 ∧
    ((∀ c ∈ sequential_for_for [3, 0, 5, 2] 2, c.k = ([3, 0, 5, 2].take c.i).sum + c.r0) ∧
    ∃ run, parallel_for_for [3, 0, 5, 2] 2 3 = some run ∧
      ∀ calls ∈ run, ∀ c ∈ calls, c.k = ([3, 0, 5, 2].take c.i).sum + c.r0) :=
  ⟨by decide, by decide, parallel_for_for_global_offset [3, 0, 5, 2] 2 3 (by decide) (by decide)⟩

/-- Claim C1 (as amended): for all group sizes, every `minStepSize >= 1` and
every worker count `>= 1` for which `K + minStepSize - 1` and `taskCount * K`
(with `taskCount = min(ceil(K/minStepSize), workers)`) do not overflow `size_t`,
`parallel_for_for` ends normally and the sub-ranges it passes to `f`, taken over
all tasks, visit every pair (group `i`, index `j < size_i`) exactly once: the
visited pairs, task after task, are the full enumeration in order, every pair
inside a group is visited once and no other pair is visited (so the ranges
handed out for one group are pairwise disjoint and cover `[0, size_i)`), and no
range is empty or reaches past its group. -/
theorem parallel_for_for_visits_each_pair_once (sizes : List Nat)
    (minStepSize numThreads : Nat) (hm : 1 ≤ minStepSize) (hth : 1 ≤ numThreads)
    (hceil : sizes.sum + minStepSize ≤ SIZE_T)
    (hmul : min ((sizes.sum + minStepSize - 1) / minStepSize) numThreads * sizes.sum
      < SIZE_T) :
    ∃ run, parallel_for_for sizes minStepSize numThreads = some run ∧
      visited run = allPairs 0 sizes ∧
      (∀ i j, (visited run).count (i, j) =
        if i < sizes.length ∧ j < sizes.getD i 0 then 1 else 0) ∧
      ∀ calls ∈ run, ∀ c ∈ calls,
        c.i < sizes.length ∧ c.r0 < c.r1 ∧ c.r1 ≤ sizes.getD c.i 0 := by
  have hK : sizes.sum < SIZE_T := by omega
  have hall : ∀ run : List (List Call), visited run = allPairs 0 sizes →
      ∀ i j, (visited run).count (i, j) =
        if i < sizes.length ∧ j < sizes.getD i 0 then 1 else 0 := by
    intro run h i j
    rw [h]
    exact count_allPairs sizes i j
  rw [parallel_for_for_unfold sizes minStepSize numThreads hK hm,
    initialTaskCount_exact sizes.sum minStepSize hm hceil]
  by_cases h1 : (sizes.sum + minStepSize - 1) / minStepSize = 1
  · rw [if_pos h1]
    obtain ⟨s1, s2, _⟩ := sequential_loop_spec sizes 0 0 (by omega)
    have hv : visited [sequential_for_for sizes minStepSize] = allPairs 0 sizes := by
      simpa [visited, sequential_for_for] using s1
    refine ⟨_, rfl, hv, hall _ hv, ?_⟩
    intro calls hcalls c hc
    rw [List.mem_singleton] at hcalls
    subst hcalls
    obtain ⟨_, c2, c3, c4, c5, _⟩ := s2 c hc
    simp only [Nat.sub_zero, Nat.zero_add] at c2 c5
    exact ⟨c2, c4, by omega⟩
  · rw [if_neg h1]
    have hT : min ((sizes.sum + minStepSize - 1) / minStepSize) numThreads < SIZE_T := by
      have := initialTaskCount_lt sizes.sum minStepSize
      rw [initialTaskCount_exact sizes.sum minStepSize hm hceil] at this
      exact lt_of_le_of_lt (Nat.min_le_left _ _) this
    have hpos : 0 < min ((sizes.sum + minStepSize - 1) / minStepSize) numThreads ∨
        sizes.sum = 0 := by
      rcases Nat.eq_zero_or_pos sizes.sum with h0 | h0
      · exact Or.inr h0
      · left
        have : 1 ≤ (sizes.sum + minStepSize - 1) / minStepSize := by
          rw [Nat.le_div_iff_mul_le (by omega)]
          omega
        omega
    have hpos2 : 0 < sizes.sum ∨
        min ((sizes.sum + minStepSize - 1) / minStepSize) numThreads = 0 := by
      rcases Nat.eq_zero_or_pos sizes.sum with h0 | h0
      · right
        have : (sizes.sum + minStepSize - 1) / minStepSize = 0 := by
          rw [h0]
          exact Nat.div_eq_of_lt (by omega)
        simp [this]
      · exact Or.inl h0
    obtain ⟨run, hrun, _, _, hvis, hcalls⟩ := parallel_path_spec sizes hK _ hpos2
    have hv : visited run = allPairs 0 sizes := by
      rw [hvis]
      exact parallel_path_visits_all sizes _ hT hpos hmul
    exact ⟨run, hrun, hv, hall _ hv,
      fun calls h c hc =>
        ⟨(hcalls calls h c hc).1, (hcalls calls h c hc).2.1, (hcalls calls h c hc).2.2.1⟩⟩

/-- The example of claim C1: sizes `[3,0,5,2]`, `minStepSize` 2 and 1, 3 and 17
workers; with 3 workers the group of size 5 is split as `[0,3)` and `[3,5)`
between the second and the third task. -/
theorem parallel_for_for_visits_each_pair_once_witness :
    1 ≤ 2 ∧ 1 ≤ 3 ∧ [3, 0, 5, 2].sum + 2 ≤ SIZE_T ∧
    min (([3, 0, 5, 2].sum + 2 - 1) / 2) 3 * [3, 0, 5, 2].sum < SIZE_T ∧
    (∃ run, parallel_for_for [3, 0, 5, 2] 2 3 = some run ∧
      visited run = allPairs 0 [3, 0, 5, 2] ∧
      (∀ i j, (visited run).count (i, j) =
        if i < [3, 0, 5, 2].length ∧ j < [3, 0, 5, 2].getD i 0 then 1 else 0) ∧
      ∀ calls ∈ run, ∀ c ∈ calls,
        c.i < [3, 0, 5, 2].length ∧ c.r0 < c.r1 ∧ c.r1 ≤ [3, 0, 5, 2].getD c.i 0) ∧
    (∃ run, parallel_for_for [3, 0, 5, 2] 2 1 = some run ∧
      visited run = allPairs 0 [3, 0, 5, 2]) ∧
    (∃ run, parallel_for_for [3, 0, 5, 2] 2 17 = some run ∧
      visited run = allPairs 0 [3, 0, 5, 2]) ∧
    parallel_for_for [3, 0, 5, 2] 2 3 =
      some [[Call.mk 0 0 3 0], [Call.mk 2 0 3 3], [Call.mk 2 3 5 6, Call.mk 3 0 2 8]] :=
  ⟨by decide, by decide, by decide, by decide,
    parallel_for_for_visits_each_pair_once [3, 0, 5, 2] 2 3 (by decide) (by decide)
      (by decide) (by decide),
    (parallel_for_for_visits_each_pair_once [3, 0, 5, 2] 2 1 (by decide) (by decide)
      (by decide) (by decide)).imp (fun _ h => ⟨h.1, h.2.1⟩),
    (parallel_for_for_visits_each_pair_once [3, 0, 5, 2] 2 17 (by decide) (by decide)
      (by decide) (by decide)).imp (fun _ h => ⟨h.1, h.2.1⟩),
    by decide⟩

/-- Claim C1 fails as stated.  With group sizes `[3,0,5,2]`,
`minStepSize = 2^64 - 1` and 3 workers the sum `N + minStepSize - 1` wraps to 8,
`taskCount` becomes 0, no task runs and no pair is visited: the pair
(group 0, index 0) is missing.  With one group of `2^63` elements,
`minStepSize = 1` and 3 workers the products `taskIndex * N` wrap: the first and
the third task are both handed `[0, 3074457345618258602)` and the rest of the
group is never visited. -/
theorem parallel_for_for_wrapped_count_visits_nothing :
    1 ≤ 18446744073709551615 ∧ 1 ≤ 3 ∧
    parallel_for_for [3, 0, 5, 2] 18446744073709551615 3 = some [] ∧
    0 < [3, 0, 5, 2].getD 0 0 ∧ (0, 0) ∉ visited [] ∧
    parallel_for_for [9223372036854775808] 1 3 =
      some [[Call.mk 0 0 3074457345618258602 0], [],
        [Call.mk 0 0 3074457345618258602 0]] := by
  refine ⟨by decide, by decide, by decide, by decide, by decide, by decide⟩

/-- Claim C4 (as amended): when `ceil(K/minStepSize) != 1`, the worker count is
at least 1, and neither `K + minStepSize - 1` nor `taskCount * K` overflows
`size_t`, `parallel_for_for` runs `taskCount = min(ceil(K/minStepSize),
workerCount)` tasks and task `t` works on the global range
`[floor(t*K/taskCount), floor((t+1)*K/taskCount))`: it visits exactly the pairs
with these global indices.  The ranges are consecutive, start at 0 and end at
`K`, are all non-empty when `K > 0`, and the sizes of any two of them differ by
at most 1. -/
theorem parallel_for_for_task_ranges (sizes : List Nat) (minStepSize numThreads K T : Nat)
    (hKdef : K = sizes.sum)
    (hTdef : T = min ((K + minStepSize - 1) / minStepSize) numThreads)
    (hm : 1 ≤ minStepSize) (hth : 1 ≤ numThreads)
    (hceil : K + minStepSize ≤ SIZE_T)
    (hne : (K + minStepSize - 1) / minStepSize ≠ 1)
    (hmul : T * K < SIZE_T) :
    (∃ run, parallel_for_for sizes minStepSize numThreads = some run ∧
      run.length = T ∧
      ∀ t, t < T → (run.getD t []).flatMap Call.pairs =
        ((allPairs 0 sizes).drop (t * K / T)).take ((t + 1) * K / T - t * K / T)) ∧
    min (initialTaskCount (ParallelForForState.init sizes).size minStepSize) numThreads = T ∧
    (∀ t, t < T → taskRange K T t = (t * K / T, (t + 1) * K / T)) ∧
    0 * K / T = 0 ∧
    T * K / T = K ∧
    (0 < K → ∀ t, t < T → t * K / T < (t + 1) * K / T) ∧
    (∀ t u, t < T → u < T →
      (t + 1) * K / T - t * K / T ≤ (u + 1) * K / T - u * K / T + 1) := by
  subst hKdef
  rw [eq_comm] at hTdef
  have hK : sizes.sum < SIZE_T := by omega
  have hitc := initialTaskCount_exact sizes.sum minStepSize hm hceil
  have hTS : T < SIZE_T := by
    have := initialTaskCount_lt sizes.sum minStepSize
    rw [hitc] at this
    omega
  have hzero : sizes.sum = 0 → T = 0 := by
    intro h0
    have : (sizes.sum + minStepSize - 1) / minStepSize = 0 := by
      rw [h0]
      exact Nat.div_eq_of_lt (by omega)
    omega
  have hposT : 0 < sizes.sum → 0 < T ∧ T ≤ sizes.sum := by
    intro h0
    have h1 : 1 ≤ (sizes.sum + minStepSize - 1) / minStepSize := by
      rw [Nat.le_div_iff_mul_le (by omega)]
      omega
    have h2 : (sizes.sum + minStepSize - 1) / minStepSize ≤ sizes.sum := by
      apply Nat.le_of_lt_succ
      rw [Nat.div_lt_iff_lt_mul (by omega)]
      have : sizes.sum.succ * minStepSize =
          sizes.sum * (minStepSize - 1) + sizes.sum + minStepSize := by
        rw [Nat.succ_eq_add_one]
        obtain ⟨m, rfl⟩ : ∃ m, minStepSize = m + 1 := ⟨minStepSize - 1, by omega⟩
        simp only [Nat.add_sub_cancel]
        ring
      rw [this]
      have := Nat.zero_le (sizes.sum * (minStepSize - 1))
      omega
    omega
  have hrange : ∀ t, t < T →
      taskRange sizes.sum T t = (t * sizes.sum / T, (t + 1) * sizes.sum / T) := by
    intro t ht
    have hle : (t + 1) * sizes.sum ≤ T * sizes.sum := Nat.mul_le_mul_right _ ht
    exact taskRange_exact sizes.sum T t (by omega) (by omega)
  refine ⟨?_, ?_, hrange, by simp, ?_, ?_, ?_⟩
  · rw [parallel_for_for_unfold sizes minStepSize numThreads hK hm, hitc, if_neg hne, hTdef]
    have hpos : 0 < sizes.sum ∨ T = 0 := by
      rcases Nat.eq_zero_or_pos sizes.sum with h0 | h0
      · exact Or.inr (hzero h0)
      · exact Or.inl h0
    obtain ⟨run, hrun, hlen, hslice, _, _⟩ := parallel_path_spec sizes hK T hpos
    refine ⟨run, hrun, hlen, ?_⟩
    intro t ht
    rw [hslice t ht, hrange t ht]
  · rw [ParallelForForState.size, init_K sizes hK, hitc, hTdef]
  · rcases Nat.eq_zero_or_pos sizes.sum with h0 | h0
    · simp [h0]
    · exact boundary_last sizes.sum T (hposT h0).1
  · intro h0 t _
    obtain ⟨hT0, hTK⟩ := hposT h0
    have hq : 1 ≤ sizes.sum / T := by
      rw [Nat.le_div_iff_mul_le hT0]
      omega
    have := (boundary_step sizes.sum T t hT0).1
    omega
  · intro t u ht _
    have hT0 : 0 < T := by omega
    have h1 := boundary_step sizes.sum T t hT0
    have h2 := boundary_step sizes.sum T u hT0
    omega

theorem parallel_for_for_task_ranges_witness :
    10 = [3, 0, 5, 2].sum ∧ 3 = min ((10 + 2 - 1) / 2) 3 ∧ 1 ≤ 2 ∧ 1 ≤ 3 ∧
    10 + 2 ≤ SIZE_T ∧ (10 + 2 - 1) / 2 ≠ 1 ∧ 3 * 10 < SIZE_T ∧
    ((∃ run, parallel_for_for [3, 0, 5, 2] 2 3 = some run ∧
      run.length = 3 ∧
      ∀ t, t < 3 → (run.getD t []).flatMap Call.pairs =
        ((allPairs 0 [3, 0, 5, 2]).drop (t * 10 / 3)).take ((t + 1) * 10 / 3 - t * 10 / 3)) ∧
    min (initialTaskCount (ParallelForForState.init [3, 0, 5, 2]).size 2) 3 = 3 ∧
    (∀ t, t < 3 → taskRange 10 3 t = (t * 10 / 3, (t + 1) * 10 / 3)) ∧
    0 * 10 / 3 = 0 ∧
    3 * 10 / 3 = 10 ∧
    (0 < 10 → ∀ t, t < 3 → t * 10 / 3 < (t + 1) * 10 / 3) ∧
    (∀ t u, t < 3 → u < 3 →
      (t + 1) * 10 / 3 - t * 10 / 3 ≤ (u + 1) * 10 / 3 - u * 10 / 3 + 1)) :=
  ⟨by decide, by decide, by decide, by decide, by decide, by decide, by decide,
    parallel_for_for_task_ranges [3, 0, 5, 2] 2 3 10 3 (by decide) (by decide) (by decide)
      (by decide) (by decide) (by decide) (by decide)⟩

/-- Claim C4 fails as stated.  For one group of `2^63 + 1` elements,
`minStepSize = 2^63` and one worker, `ceil(K/minStepSize) = 2` and
`min(2, 1) * K` fits a `size_t`, but `N + minStepSize - 1` wraps to 0, so the
code computes `taskCount = 0` instead of 1 and runs no task at all.  With a
worker count of 0 the task count `min(3, 0)` is 0 as the claim says, and the
ranges of no task cannot cover `[0, 3)`. -/
theorem parallel_for_for_task_count_wraps :
    (9223372036854775809 + 9223372036854775808 - 1) / 9223372036854775808 ≠ 1 ∧
    min ((9223372036854775809 + 9223372036854775808 - 1) / 9223372036854775808) 1 = 1 ∧
    1 * [9223372036854775809].sum < SIZE_T ∧
    min (initialTaskCount (ParallelForForState.init [9223372036854775809]).size
      9223372036854775808) 1 = 0 ∧
    parallel_for_for [9223372036854775809] 9223372036854775808 1 = some [] ∧
    ([3].sum + 1 - 1) / 1 ≠ 1 ∧ parallel_for_for [3] 1 0 = some [] := by
  refine ⟨by decide, by decide, by decide, by decide, by decide, by decide, by decide⟩

/-- Claim C5 (as amended): when `1 <= K <= minStepSize` and `K + minStepSize - 1`
does not overflow `size_t`, `parallel_for_for` runs sequentially whatever the
worker count: `f` is invoked exactly once for each non-empty group, in
increasing group order, with the full range `[0, size_i)` of the group, and
never for an empty group. -/
theorem parallel_for_for_sequential_path (sizes : List Nat) (minStepSize numThreads : Nat)
    (h1 : 1 ≤ sizes.sum) (h2 : sizes.sum ≤ minStepSize)
    (hceil : sizes.sum + minStepSize ≤ SIZE_T) :
    parallel_for_for sizes minStepSize numThreads
      = some [sequential_for_for sizes minStepSize] ∧
    (sequential_for_for sizes minStepSize).map (fun c => (c.i, c.r0, c.r1)) =
      (sizes.enum.filter (fun p => decide (p.2 ≠ 0))).map (fun p => (p.1, 0, p.2)) := by
  have hK : sizes.sum < SIZE_T := by omega
  constructor
  · rw [parallel_for_for_unfold sizes minStepSize numThreads hK (by omega),
      initialTaskCount_exact sizes.sum minStepSize (by omega) hceil]
    have : (sizes.sum + minStepSize - 1) / minStepSize = 1 := by
      apply Nat.div_eq_of_lt_le <;> omega
    rw [if_pos this]
  · exact (sequential_loop_spec sizes 0 0 (by omega)).2.2

theorem parallel_for_for_sequential_path_witness :
    1 ≤ [3, 0, 5, 2].sum ∧ [3, 0, 5, 2].sum ≤ 20 ∧ [3, 0, 5, 2].sum + 20 ≤ SIZE_T ∧
    parallel_for_for [3, 0, 5, 2] 20 17 = some [sequential_for_for [3, 0, 5, 2] 20] ∧
    (sequential_for_for [3, 0, 5, 2] 20).map (fun c => (c.i, c.r0, c.r1)) =
      ([3, 0, 5, 2].enum.filter (fun p => decide (p.2 ≠ 0))).map (fun p => (p.1, 0, p.2)) :=
  ⟨by decide, by decide, by decide,
    parallel_for_for_sequential_path [3, 0, 5, 2] 20 17 (by decide) (by decide) (by decide)⟩

/-- Claim C5 fails as stated: for one group of 2 elements and
`minStepSize = 2^64 - 1` the condition `1 <= K <= minStepSize` holds, yet
`N + minStepSize - 1` wraps to 0, `taskCount` is 0 rather than 1, the sequential
path is not taken and `f` is not invoked for the non-empty group. -/
theorem parallel_for_for_fast_path_missed :
    1 ≤ [2].sum ∧ [2].sum ≤ 18446744073709551615 ∧
    parallel_for_for [2] 18446744073709551615 1 = some [] ∧
    sequential_for_for [2] 18446744073709551615 = [Call.mk 0 0 2 0] := by
  refine ⟨by decide, by decide, by decide, by decide⟩

/-! ## Proofs: the tessellation cache -/

/-- The byte offset `&lazymem[currentIndex*16] - getPtr()` once it is stored in
the 32-bit root field. -/
theorem curNode_truncated (L c : Nat) :
    subS (addS L (mulS (mulS c 16) 4)) L % UINT = (64 * c) % UINT := by
  unfold subS addS mulS
  rw [SIZE_T_val, UINT_val]
  omega

theorem land_low_bits_mask (x : Nat) (hx : x < UINT) :
    x &&& (UINT - 1 - ((1 <<< 4) - 1)) = x - x % 16 := by
  have e0 : UINT - 1 - ((1 <<< 4) - 1) = 2 ^ 4 * (2 ^ 28 - 1) := by
    rw [UINT_val]
    decide
  have e2 : x - x % 16 = 2 ^ 4 * (x / 2 ^ 4) := by
    have := Nat.div_add_mod x 16
    norm_num
    omega
  rw [e0, e2]
  apply Nat.eq_of_testBit_eq
  intro i
  rw [Nat.testBit_and, Nat.testBit_mul_pow_two, Nat.testBit_mul_pow_two,
    Nat.testBit_two_pow_sub_one, ← Nat.shiftRight_eq_div_pow, Nat.testBit_shiftRight]
  by_cases h4 : 4 ≤ i
  · have e : 4 + (i - 4) = i := by omega
    simp only [h4, decide_True, Bool.true_and, e, ge_iff_le]
    by_cases h32 : i < 32
    · have : i - 4 < 28 := by omega
      simp [this]
    · have hlt : x < 2 ^ i := lt_of_lt_of_le hx (by
        rw [UINT]
        exact Nat.pow_le_pow_right (by decide) (by omega))
      have : ¬ (i - 4 < 28) := by omega
      simp [this, Nat.testBit_lt_two_pow hlt]
  · simp [h4]

theorem request_reuse_eq (alloc_mem : Nat → Nat) (s : TessellationCache)
    (primID c n : Nat) (h : s.reuses primID n = true) :
    s.request alloc_mem primID c n =
      ({ s with tags := (Function.update s.tags (addrToCacheIndex primID)
          (((s.tags (addrToCacheIndex primID)).update primID c).clearRootRefBits)) },
        ((s.tags (addrToCacheIndex primID)).update primID c).clearRootRefBits) := by
  unfold TessellationCache.request
  simp only [h, if_true]

theorem request_fresh_eq (alloc_mem : Nat → Nat) (s : TessellationCache)
    (primID c n : Nat) (h : s.reuses primID n = false) :
    s.request alloc_mem primID c n =
      ({ s.makeRoom alloc_mem n with
          blockCounter := addS (s.makeRoom alloc_mem n).blockCounter n
          tags := (Function.update (s.makeRoom alloc_mem n).tags (addrToCacheIndex primID)
            { prim_tag := CacheTag.toTag primID
              commit_tag := c
              subtree_root := (64 * (s.makeRoom alloc_mem n).blockCounter) % UINT
              usedBlocks := n % UINT }) },
        { prim_tag := CacheTag.toTag primID
          commit_tag := c
          subtree_root := (64 * (s.makeRoom alloc_mem n).blockCounter) % UINT
          usedBlocks := n % UINT }) := by
  unfold TessellationCache.request
  simp only [h, CacheTag.set, TessellationCache.getPtr, curNode_truncated]
  rfl

theorem request_tag_stored (alloc_mem : Nat → Nat) (s : TessellationCache)
    (primID c n : Nat) :
    (s.request alloc_mem primID c n).1.tags (addrToCacheIndex primID)
      = (s.request alloc_mem primID c n).2 := by
  cases h : s.reuses primID n
  · rw [request_fresh_eq alloc_mem s primID c n h]
    simp
  · rw [request_reuse_eq alloc_mem s primID c n h]
    simp

theorem request_tag_key (alloc_mem : Nat → Nat) (s : TessellationCache)
    (primID c n : Nat) :
    (s.request alloc_mem primID c n).2.prim_tag = CacheTag.toTag primID ∧
    (s.request alloc_mem primID c n).2.commit_tag = c := by
  cases h : s.reuses primID n
  · rw [request_fresh_eq alloc_mem s primID c n h]
    simp
  · rw [request_reuse_eq alloc_mem s primID c n h]
    simp [CacheTag.update, CacheTag.clearRootRefBits]

theorem makeRoom_room (alloc_mem : Nat → Nat) (s : TessellationCache) (n : Nat)
    (h : s.exhausted n = false) : s.makeRoom alloc_mem n = s := by
  unfold TessellationCache.makeRoom
  simp [h]

theorem makeRoom_exhausted (alloc_mem : Nat → Nat) (s : TessellationCache) (n : Nat)
    (h : s.exhausted n = true) :
    (s.makeRoom alloc_mem n).blockCounter = 0 ∧
    (∀ j, (s.makeRoom alloc_mem n).tags j = CacheTag.reset (s.tags j)) ∧
    (s.makeRoom alloc_mem n).allocated64BytesBlocks =
      (if s.grows n then mulS BIG_CACHE_ENTRIES n % UINT else s.allocated64BytesBlocks) ∧
    (s.makeRoom alloc_mem n).lazymem =
      (if s.grows n then alloc_mem (mulS BIG_CACHE_ENTRIES n % UINT) else s.lazymem) := by
  unfold TessellationCache.makeRoom
  cases hg : s.grows n <;> simp [h, TessellationCache.clear, CacheTag.reset]

theorem slotsTracked_init (alloc_mem : Nat → Nat) (s0 : TessellationCache) :
    SlotsTracked (s0.init alloc_mem, fun _ => none) := by
  intro i
  left
  exact ⟨rfl, rfl⟩

theorem slotsTracked_step (alloc_mem : Nat → Nat)
    (st : TessellationCache × (Fin CACHE_ENTRIES → Option Request)) (r : Request)
    (h : SlotsTracked st) : SlotsTracked (requestStep alloc_mem st r) := by
  intro i
  unfold requestStep
  by_cases hi : i = addrToCacheIndex r.primID
  · subst hi
    right
    refine ⟨r, by simp, rfl, ?_⟩
    simp only [request_tag_stored]
    exact request_tag_key alloc_mem st.1 r.primID r.commitCounter r.neededBlocks
  · cases hre : st.1.reuses r.primID r.neededBlocks
    · have hreq := request_fresh_eq alloc_mem st.1 r.primID r.commitCounter r.neededBlocks hre
      cases hex : st.1.exhausted r.neededBlocks
      · have hroom := makeRoom_room alloc_mem st.1 r.neededBlocks hex
        simp only [hreq, hroom, Bool.not_false, Bool.true_and, Bool.false_eq_true, if_false,
          Function.update_noteq hi]
        exact h i
      · have hclr := (makeRoom_exhausted alloc_mem st.1 r.neededBlocks hex).2.1 i
        left
        simp only [hreq, Bool.not_false, Bool.true_and, if_true, Function.update_noteq hi,
          ne_eq, not_false_eq_true, hclr]
        exact ⟨trivial, rfl⟩
    · have hreq := request_reuse_eq alloc_mem st.1 r.primID r.commitCounter r.neededBlocks hre
      simp only [hreq, Bool.not_true, Bool.false_and, Bool.false_eq_true, if_false,
        Function.update_noteq hi]
      exact h i

theorem slotsTracked_history (alloc_mem : Nat → Nat) (s0 : TessellationCache)
    (reqs : List Request) : SlotsTracked (history alloc_mem s0 reqs) := by
  unfold history
  induction reqs using List.reverseRecOn with
  | nil => exact slotsTracked_init alloc_mem s0
  | append_singleton l r ih =>
    rw [List.foldl_append]
    exact slotsTracked_step alloc_mem _ r ih

theorem lookup_eq_miss_of_no_match (s : TessellationCache) (primID c : Nat)
    (h : (s.tags (addrToCacheIndex primID)).match_ primID c = false) :
    s.lookup primID c = CACHE_MISS := by
  unfold TessellationCache.lookup
  simp [h]

theorem match_iff (t : CacheTag) (primID c : Nat) :
    t.match_ primID c = true ↔ t.prim_tag = CacheTag.toTag primID ∧ t.commit_tag = c := by
  unfold CacheTag.match_
  simp

/-- Claim C6 (as amended): `lookup(primID, commitCounter)` returns
`CACHE_MISS` whenever the 32-bit tag `(primID >> 6) mod 2^32` or the commit
counter differs from what slot `addrToCacheIndex(primID)` holds; and in every
cache state reached from `init` by requests, for a key other than the reset
pattern (tag `2^32-1` with commit counter `2^32-1`), it returns a value other
than `CACHE_MISS` only if the entry in that slot was stored by a request for
that slot with the same 32-bit tag and the same commit counter. -/
theorem lookup_hit_only_on_stored_key (alloc_mem : Nat → Nat) (s0 : TessellationCache)
    (reqs : List Request) (primID commitCounter : Nat)
    (hkey : ¬ (CacheTag.toTag primID = UINT - 1 ∧ commitCounter = UINT - 1)) :
    (((history alloc_mem s0 reqs).1.tags (addrToCacheIndex primID)).prim_tag
        ≠ CacheTag.toTag primID ∨
      ((history alloc_mem s0 reqs).1.tags (addrToCacheIndex primID)).commit_tag
        ≠ commitCounter →
      (history alloc_mem s0 reqs).1.lookup primID commitCounter = CACHE_MISS) ∧
    ((history alloc_mem s0 reqs).1.lookup primID commitCounter ≠ CACHE_MISS →
      ∃ r, (history alloc_mem s0 reqs).2 (addrToCacheIndex primID) = some r ∧
        addrToCacheIndex r.primID = addrToCacheIndex primID ∧
        CacheTag.toTag r.primID = CacheTag.toTag primID ∧
        r.commitCounter = commitCounter) := by
  constructor
  · intro hne
    apply lookup_eq_miss_of_no_match
    rw [Bool.eq_false_iff, ne_eq, match_iff]
    tauto
  · intro hhit
    have hm : ((history alloc_mem s0 reqs).1.tags (addrToCacheIndex primID)).match_
        primID commitCounter = true := by
      by_contra hno
      exact hhit (lookup_eq_miss_of_no_match _ _ _ (by simpa using hno))
    rw [match_iff] at hm
    rcases slotsTracked_history alloc_mem s0 reqs (addrToCacheIndex primID) with
      ⟨_, hreset⟩ | ⟨r, hr, hidx, htag, hc⟩
    · exfalso
      apply hkey
      rw [hreset] at hm
      exact ⟨hm.1.symm, hm.2.symm⟩
    · exact ⟨r, hr, hidx, by rw [← htag]; exact hm.1, by rw [← hc]; exact hm.2⟩

theorem lookup_hit_only_on_stored_key_witness :
    ¬ (CacheTag.toTag 64 = UINT - 1 ∧ 7 = UINT - 1) ∧
    ((history (fun _ => 4096) blankCache [Request.mk 64 7 2]).1.lookup 64 7 ≠ CACHE_MISS →
      ∃ r, (history (fun _ => 4096) blankCache [Request.mk 64 7 2]).2 (addrToCacheIndex 64)
          = some r ∧
        addrToCacheIndex r.primID = addrToCacheIndex 64 ∧
        CacheTag.toTag r.primID = CacheTag.toTag 64 ∧
        r.commitCounter = 7) ∧
    (history (fun _ => 4096) blankCache [Request.mk 64 7 2]).1.lookup 64 7 ≠ CACHE_MISS :=
  ⟨by decide,
    (lookup_hit_only_on_stored_key (fun _ => 4096) blankCache [Request.mk 64 7 2] 64 7
      (by decide)).2,
    by decide⟩

/-- Claim C6 fails as stated.  After `init` and the single request
`request(0, 7, 1)`, `lookup(2^38, 7)` is a hit (it returns the arena address
4096, not `CACHE_MISS`) although the entry in its slot was stored by a request
with a different `primID`: `0` and `2^38` share the slot and the 32-bit tag.
And right after `init`, before any request, the lookup of `primID = (2^32-1)*64`
with commit counter `2^32-1` matches the reset pattern of its slot and returns
`4096 + (2^32-1)`. -/
theorem lookup_hits_aliased_primID :
    (history (fun _ => 4096) blankCache [Request.mk 0 7 1]).1.lookup 274877906944 7 = 4096 ∧
    (4096 : Nat) ≠ CACHE_MISS ∧
    (history (fun _ => 4096) blankCache [Request.mk 0 7 1]).2 (addrToCacheIndex 274877906944)
      = some (Request.mk 0 7 1) ∧
    (0 : Nat) ≠ 274877906944 ∧
    (history (fun _ => 4096) blankCache []).1.lookup 274877906880 4294967295 = 4294971391 ∧
    (4294971391 : Nat) ≠ CACHE_MISS ∧
    (history (fun _ => 4096) blankCache []).2 (addrToCacheIndex 274877906880) = none := by
  refine ⟨by decide, by decide, by decide, by decide, by decide, by decide, by decide⟩

/-- The two `unsigned int` quantities the frame statements below rely on stay
32-bit values across a request: every root offset, and the capacity. -/
theorem request_keeps_uint_fields (alloc_mem : Nat → Nat) (s : TessellationCache)
    (primID c n : Nat) (hroot : ∀ i, (s.tags i).subtree_root < UINT)
    (hcap : s.allocated64BytesBlocks < UINT) :
    (∀ i, ((s.request alloc_mem primID c n).1.tags i).subtree_root < UINT) ∧
    (s.request alloc_mem primID c n).1.allocated64BytesBlocks < UINT := by
  have hU : 0 < UINT := by rw [UINT_val]; omega
  cases hre : s.reuses primID n
  · rw [request_fresh_eq alloc_mem s primID c n hre]
    have hroom : (∀ i, ((s.makeRoom alloc_mem n).tags i).subtree_root < UINT) ∧
        (s.makeRoom alloc_mem n).allocated64BytesBlocks < UINT := by
      cases hex : s.exhausted n
      · rw [makeRoom_room alloc_mem s n hex]
        exact ⟨hroot, hcap⟩
      · obtain ⟨_, htags, hc, _⟩ := makeRoom_exhausted alloc_mem s n hex
        refine ⟨fun i => ?_, ?_⟩
        · rw [htags i]
          simp only [CacheTag.reset]
          omega
        · rw [hc]
          split
          · exact Nat.mod_lt _ hU
          · exact hcap
    refine ⟨fun i => ?_, hroom.2⟩
    by_cases hi : i = addrToCacheIndex primID
    · subst hi
      simp only [Function.update_same]
      exact Nat.mod_lt _ hU
    · simp only [Function.update_noteq hi]
      exact hroom.1 i
  · rw [request_reuse_eq alloc_mem s primID c n hre]
    refine ⟨fun i => ?_, hcap⟩
    by_cases hi : i = addrToCacheIndex primID
    · subst hi
      simp only [Function.update_same, CacheTag.clearRootRefBits, CacheTag.update]
      exact lt_of_le_of_lt Nat.and_le_left (hroot _)
    · simp only [Function.update_noteq hi]
      exact hroot i

/-- In every cache state reached from `init` by requests, all root offsets and
the capacity are 32-bit values. -/
theorem history_uint_fields (alloc_mem : Nat → Nat) (s0 : TessellationCache)
    (reqs : List Request) :
    (∀ i, ((history alloc_mem s0 reqs).1.tags i).subtree_root < UINT) ∧
    (history alloc_mem s0 reqs).1.allocated64BytesBlocks < UINT := by
  unfold history
  induction reqs using List.reverseRecOn with
  | nil =>
    refine ⟨fun i => ?_, ?_⟩
    · show (CacheTag.reset (s0.tags i)).subtree_root < UINT
      simp only [CacheTag.reset]
      rw [UINT_val]
      omega
    · show DEFAULT_64B_BLOCKS < UINT
      decide
  | append_singleton l r ih =>
    rw [List.foldl_append]
    exact request_keeps_uint_fields alloc_mem _ r.primID r.commitCounter r.neededBlocks
      ih.1 ih.2

/-- Claim C7 (as amended): for every cache state (so for every state reached
from `init`) and every `request(primID, c, n)`, an immediately following
`lookup(primID, c)` is a hit and returns arena base + the root offset of the tag
that `request` returned.  On the fresh-allocation path that offset is
`64 * cursor` reduced modulo `2^32` (the root field has 32 bits), where `cursor`
is the cursor at the allocation: the old cursor when the arena has room, 0 after
a clear.  It is exactly `64 * cursor` as long as the cursor is below `2^26`
blocks. -/
theorem request_then_lookup_hits (alloc_mem : Nat → Nat) (s : TessellationCache)
    (primID c n : Nat) :
    ((s.request alloc_mem primID c n).1.tags (addrToCacheIndex primID)).match_ primID c
      = true ∧
    (s.request alloc_mem primID c n).1.lookup primID c =
      addS (s.request alloc_mem primID c n).1.getPtr
        (s.request alloc_mem primID c n).2.getRootRef ∧
    (s.reuses primID n = false → s.exhausted n = false →
      (s.request alloc_mem primID c n).2.getRootRef = (64 * s.blockCounter) % UINT) ∧
    (s.reuses primID n = false → s.exhausted n = false → s.blockCounter < 2 ^ 26 →
      (s.request alloc_mem primID c n).2.getRootRef = 64 * s.blockCounter) ∧
    (s.reuses primID n = false → s.exhausted n = true →
      (s.request alloc_mem primID c n).2.getRootRef = 0) := by
  have hm : ((s.request alloc_mem primID c n).1.tags (addrToCacheIndex primID)).match_
      primID c = true := by
    rw [request_tag_stored, match_iff]
    exact request_tag_key alloc_mem s primID c n
  have hroom : s.reuses primID n = false → s.exhausted n = false →
      (s.request alloc_mem primID c n).2.getRootRef = (64 * s.blockCounter) % UINT := by
    intro h1 h2
    rw [request_fresh_eq alloc_mem s primID c n h1, makeRoom_room alloc_mem s n h2]
    rfl
  refine ⟨hm, ?_, hroom, ?_, ?_⟩
  · unfold TessellationCache.lookup
    simp only [hm, if_true]
    rw [request_tag_stored]
  · intro h1 h2 h3
    rw [hroom h1 h2]
    apply Nat.mod_eq_of_lt
    rw [UINT_val]
    omega
  · intro h1 h2
    rw [request_fresh_eq alloc_mem s primID c n h1]
    simp [CacheTag.getRootRef, (makeRoom_exhausted alloc_mem s n h2).1]

/-- Claim C7 fails as stated: after `init` and `request(0, 0, 2^26)` the cursor
is `2^26`; the request `request(64, 0, 1)` (key not in its slot, one block, room
in the arena) takes the fresh-allocation path and returns a tag whose root
offset is 0, not `64 * 2^26`. -/
theorem request_root_offset_wraps :
    (history (fun _ => 4096) blankCache [Request.mk 0 0 67108864]).1.blockCounter
      = 67108864 ∧
    ((history (fun _ => 4096) blankCache [Request.mk 0 0 67108864]).1.tags
      (addrToCacheIndex 64)).match_ 64 0 = false ∧
    (history (fun _ => 4096) blankCache [Request.mk 0 0 67108864]).1.reuses 64 1 = false ∧
    (history (fun _ => 4096) blankCache [Request.mk 0 0 67108864]).1.exhausted 1 = false ∧
    ((history (fun _ => 4096) blankCache [Request.mk 0 0 67108864]).1.request
      (fun _ => 4096) 64 0 1).2.getRootRef = 0 ∧
    64 * 67108864 ≠ 0 := by
  refine ⟨by decide, by decide, by decide, by decide, by decide, by decide⟩

/-- Claim C8: when the block count already reserved by slot
`addrToCacheIndex(primID)` is `>= neededBlocks`, `request(primID, c,
neededBlocks)` re-keys that slot to `(primID, c)` in place and changes nothing
else: the arena cursor, the arena capacity, the arena itself, every other slot
and the reserved block count of the slot are unchanged, and so is the region
offset of the slot apart from its low 4 bits, which are cleared. -/
theorem request_reuses_slot_in_place (alloc_mem : Nat → Nat) (s : TessellationCache)
    (primID c neededBlocks : Nat)
    (hroot : (s.tags (addrToCacheIndex primID)).subtree_root < UINT)
    (h : neededBlocks ≤ (s.tags (addrToCacheIndex primID)).blocks) :
    (s.request alloc_mem primID c neededBlocks).1.blockCounter = s.blockCounter ∧
    (s.request alloc_mem primID c neededBlocks).1.allocated64BytesBlocks
      = s.allocated64BytesBlocks ∧
    (s.request alloc_mem primID c neededBlocks).1.lazymem = s.lazymem ∧
    (∀ j, j ≠ addrToCacheIndex primID →
      (s.request alloc_mem primID c neededBlocks).1.tags j = s.tags j) ∧
    (s.request alloc_mem primID c neededBlocks).1.tags (addrToCacheIndex primID)
      = (s.request alloc_mem primID c neededBlocks).2 ∧
    (s.request alloc_mem primID c neededBlocks).2.prim_tag = CacheTag.toTag primID ∧
    (s.request alloc_mem primID c neededBlocks).2.commit_tag = c ∧
    (s.request alloc_mem primID c neededBlocks).2.usedBlocks
      = (s.tags (addrToCacheIndex primID)).usedBlocks ∧
    (s.request alloc_mem primID c neededBlocks).2.subtree_root
      = (s.tags (addrToCacheIndex primID)).subtree_root
        - (s.tags (addrToCacheIndex primID)).subtree_root % 16 := by
  have hre : s.reuses primID neededBlocks = true := by
    unfold TessellationCache.reuses
    simpa using h
  rw [request_reuse_eq alloc_mem s primID c neededBlocks hre]
  refine ⟨rfl, rfl, rfl, ?_, by simp, rfl, rfl, rfl, ?_⟩
  · intro j hj
    simp [Function.update_noteq hj]
  · simp only [CacheTag.clearRootRefBits, CacheTag.update]
    exact land_low_bits_mask _ hroot

theorem request_reuses_slot_in_place_witness :
    ((history (fun _ => 4096) blankCache [Request.mk 0 7 4]).1.tags
      (addrToCacheIndex 274877906944)).subtree_root < UINT ∧
    2 ≤ ((history (fun _ => 4096) blankCache [Request.mk 0 7 4]).1.tags
      (addrToCacheIndex 274877906944)).blocks ∧
    ((history (fun _ => 4096) blankCache [Request.mk 0 7 4]).1.request
      (fun _ => 4096) 274877906944 8 2).1.blockCounter
      = (history (fun _ => 4096) blankCache [Request.mk 0 7 4]).1.blockCounter ∧
    ((history (fun _ => 4096) blankCache [Request.mk 0 7 4]).1.request
      (fun _ => 4096) 274877906944 8 2).2.usedBlocks = 4 :=
  ⟨by decide, by decide,
    (request_reuses_slot_in_place (fun _ => 4096)
      (history (fun _ => 4096) blankCache [Request.mk 0 7 4]).1 274877906944 8 2
      (by decide) (by decide)).1,
    by decide⟩

/-- Claim C9 (as amended): for every request whose slot reserves fewer than
`neededBlocks` blocks and whose blocks fit strictly below the capacity
(`cursor + neededBlocks < capacity`), `request` assigns the slot the region
starting at the old cursor (byte offset `64 * cursor`, kept modulo `2^32` in the
32-bit root field) with `neededBlocks` blocks (kept modulo `2^32`), advances the
cursor by `neededBlocks`, and leaves the capacity, the arena and every other
slot unchanged: no clear, no growth. -/
theorem request_bump_allocates (alloc_mem : Nat → Nat) (s : TessellationCache)
    (primID c neededBlocks : Nat)
    (hslot : (s.tags (addrToCacheIndex primID)).blocks < neededBlocks)
    (hroom : s.blockCounter + neededBlocks < s.allocated64BytesBlocks)
    (hcap : s.allocated64BytesBlocks ≤ SIZE_T) :
    (s.request alloc_mem primID c neededBlocks).1.tags (addrToCacheIndex primID)
      = (s.request alloc_mem primID c neededBlocks).2 ∧
    (s.request alloc_mem primID c neededBlocks).2 =
      { prim_tag := CacheTag.toTag primID
        commit_tag := c
        subtree_root := (64 * s.blockCounter) % UINT
        usedBlocks := neededBlocks % UINT } ∧
    (s.request alloc_mem primID c neededBlocks).1.blockCounter
      = s.blockCounter + neededBlocks ∧
    (s.request alloc_mem primID c neededBlocks).1.allocated64BytesBlocks
      = s.allocated64BytesBlocks ∧
    (s.request alloc_mem primID c neededBlocks).1.lazymem = s.lazymem ∧
    (∀ j, j ≠ addrToCacheIndex primID →
      (s.request alloc_mem primID c neededBlocks).1.tags j = s.tags j) := by
  have hre : s.reuses primID neededBlocks = false := by
    unfold TessellationCache.reuses
    simpa using hslot
  have hadd : addS s.blockCounter neededBlocks = s.blockCounter + neededBlocks :=
    addS_exact (by omega)
  have hex : s.exhausted neededBlocks = false := by
    unfold TessellationCache.exhausted
    rw [hadd]
    simpa using hroom
  rw [request_fresh_eq alloc_mem s primID c neededBlocks hre,
    makeRoom_room alloc_mem s neededBlocks hex]
  refine ⟨by simp, rfl, hadd, rfl, rfl, ?_⟩
  intro j hj
  simp [Function.update_noteq hj]

theorem request_bump_allocates_witness :
    ((history (fun _ => 4096) blankCache [Request.mk 0 7 4]).1.tags
      (addrToCacheIndex 64)).blocks < 3 ∧
    (history (fun _ => 4096) blankCache [Request.mk 0 7 4]).1.blockCounter + 3
      < (history (fun _ => 4096) blankCache [Request.mk 0 7 4]).1.allocated64BytesBlocks ∧
    (history (fun _ => 4096) blankCache [Request.mk 0 7 4]).1.allocated64BytesBlocks
      ≤ SIZE_T ∧
    ((history (fun _ => 4096) blankCache [Request.mk 0 7 4]).1.request
      (fun _ => 4096) 64 8 3).2 =
      { prim_tag := CacheTag.toTag 64
        commit_tag := 8
        subtree_root :=
          (64 * (history (fun _ => 4096) blankCache [Request.mk 0 7 4]).1.blockCounter) % UINT
        usedBlocks := 3 % UINT } ∧
    ((history (fun _ => 4096) blankCache [Request.mk 0 7 4]).1.request
      (fun _ => 4096) 64 8 3).2.subtree_root = 256 :=
  ⟨by decide, by decide, by decide,
    (request_bump_allocates (fun _ => 4096)
      (history (fun _ => 4096) blankCache [Request.mk 0 7 4]).1 64 8 3
      (by decide) (by decide) (by decide)).2.1,
    by decide⟩

/-- Claim C9 fails as stated.  After `init` and `request(0, 0, 16383)` the
cursor is 16383 and the capacity 16384; `request(64, 0, 1)` finds no reserved
blocks in its slot and `cursor + 1 <= capacity`, yet it clears the cache: the
slot of `primID` 0 is reset and the cursor ends at 1, not at 16384.  And after
`init` and `request(0, 0, 2^26)` (cursor `2^26`, capacity `2^30`) the request
`request(64, 0, 1)` is given the byte offset 0, the start of the arena, not the
region at the old cursor. -/
theorem request_clears_when_blocks_just_fit :
    ((history (fun _ => 4096) blankCache [Request.mk 0 0 16383]).1.tags
      (addrToCacheIndex 64)).blocks < 1 ∧
    (history (fun _ => 4096) blankCache [Request.mk 0 0 16383]).1.blockCounter + 1
      ≤ (history (fun _ => 4096) blankCache [Request.mk 0 0 16383]).1.allocated64BytesBlocks ∧
    addrToCacheIndex 0 ≠ addrToCacheIndex 64 ∧
    ((history (fun _ => 4096) blankCache [Request.mk 0 0 16383]).1.tags
      (addrToCacheIndex 0)).usedBlocks = 16383 ∧
    (((history (fun _ => 4096) blankCache [Request.mk 0 0 16383]).1.request
      (fun _ => 4096) 64 0 1).1.tags (addrToCacheIndex 0)).usedBlocks = 0 ∧
    (history (fun _ => 4096) blankCache [Request.mk 0 0 16383]).1.blockCounter = 16383 ∧
    ((history (fun _ => 4096) blankCache [Request.mk 0 0 16383]).1.request
      (fun _ => 4096) 64 0 1).1.blockCounter = 1 ∧
    (history (fun _ => 4096) blankCache [Request.mk 0 0 67108864]).1.blockCounter + 1
      ≤ (history (fun _ => 4096) blankCache [Request.mk 0 0 67108864]).1.allocated64BytesBlocks ∧
    (((history (fun _ => 4096) blankCache [Request.mk 0 0 67108864]).1.request
      (fun _ => 4096) 64 0 1).1.tags (addrToCacheIndex 64)).subtree_root = 0 ∧
    (((history (fun _ => 4096) blankCache [Request.mk 0 0 67108864]).1.request
      (fun _ => 4096) 64 0 1).1.tags (addrToCacheIndex 0)).subtree_root = 0 := by
  refine ⟨by decide, by decide, by decide, by decide, by decide, by decide, by decide,
    by decide, by decide, by decide⟩

/-- Claim C10: when `request` cannot reuse the slot and the arena is exhausted
for it (the test `blockCounter + neededBlocks >= allocated64BytesBlocks` of the
code succeeds), then, for `16 * neededBlocks < 2^32`, the capacity becomes
exactly `16 * neededBlocks` if that exceeds the current capacity and is left
unchanged otherwise; in both cases every slot is reset, the cursor restarts at
0, and the new entry is placed at offset 0 with `neededBlocks` blocks, so that
the cursor ends at `neededBlocks`. -/
theorem request_grows_or_clears (alloc_mem : Nat → Nat) (s : TessellationCache)
    (primID c neededBlocks : Nat)
    (hslot : (s.tags (addrToCacheIndex primID)).blocks < neededBlocks)
    (hfull : s.allocated64BytesBlocks ≤ addS s.blockCounter neededBlocks)
    (hbig : 16 * neededBlocks < UINT) :
    (s.request alloc_mem primID c neededBlocks).1.allocated64BytesBlocks =
      (if s.allocated64BytesBlocks < 16 * neededBlocks then 16 * neededBlocks
        else s.allocated64BytesBlocks) ∧
    (s.makeRoom alloc_mem neededBlocks).blockCounter = 0 ∧
    (∀ j, (s.makeRoom alloc_mem neededBlocks).tags j = CacheTag.reset (s.tags j)) ∧
    (∀ j, j ≠ addrToCacheIndex primID →
      (s.request alloc_mem primID c neededBlocks).1.tags j = CacheTag.reset (s.tags j)) ∧
    (s.request alloc_mem primID c neededBlocks).1.tags (addrToCacheIndex primID)
      = (s.request alloc_mem primID c neededBlocks).2 ∧
    (s.request alloc_mem primID c neededBlocks).2 =
      { prim_tag := CacheTag.toTag primID
        commit_tag := c
        subtree_root := 0
        usedBlocks := neededBlocks } ∧
    (s.request alloc_mem primID c neededBlocks).1.blockCounter = neededBlocks := by
  have hre : s.reuses primID neededBlocks = false := by
    unfold TessellationCache.reuses
    simpa using hslot
  have hex : s.exhausted neededBlocks = true := by
    unfold TessellationCache.exhausted
    simpa using hfull
  have hU := UINT_val
  have hS := SIZE_T_val
  have hmul : mulS BIG_CACHE_ENTRIES neededBlocks = 16 * neededBlocks := by
    unfold mulS BIG_CACHE_ENTRIES
    exact Nat.mod_eq_of_lt (by omega)
  obtain ⟨h0, htags, hcapacity, _⟩ := makeRoom_exhausted alloc_mem s neededBlocks hex
  have hgrow : s.grows neededBlocks = decide (s.allocated64BytesBlocks < 16 * neededBlocks) := by
    unfold TessellationCache.grows
    rw [hmul]
  rw [request_fresh_eq alloc_mem s primID c neededBlocks hre]
  refine ⟨?_, h0, htags, ?_, by simp, ?_, ?_⟩
  · show (s.makeRoom alloc_mem neededBlocks).allocated64BytesBlocks = _
    rw [hcapacity, hgrow, hmul, Nat.mod_eq_of_lt hbig]
    by_cases hlt : s.allocated64BytesBlocks < 16 * neededBlocks <;> simp [hlt]
  · intro j hj
    simp [Function.update_noteq hj, htags j]
  · simp only [h0, Nat.mul_zero, Nat.zero_mod]
    rw [Nat.mod_eq_of_lt (by omega)]
  · show addS (s.makeRoom alloc_mem neededBlocks).blockCounter neededBlocks = neededBlocks
    rw [h0, addS_exact (by omega)]
    omega

theorem request_grows_or_clears_witness :
    ((blankCache.init (fun _ => 4096)).tags (addrToCacheIndex 64)).blocks < 16384 ∧
    (blankCache.init (fun _ => 4096)).allocated64BytesBlocks
      ≤ addS (blankCache.init (fun _ => 4096)).blockCounter 16384 ∧
    16 * 16384 < UINT ∧
    ((blankCache.init (fun _ => 4096)).request (fun _ => 4096) 64 3 16384).1.allocated64BytesBlocks
      = (if (blankCache.init (fun _ => 4096)).allocated64BytesBlocks < 16 * 16384
          then 16 * 16384 else (blankCache.init (fun _ => 4096)).allocated64BytesBlocks) ∧
    ((blankCache.init (fun _ => 4096)).request (fun _ => 4096) 64 3 16384).1.allocated64BytesBlocks
      = 262144 :=
  ⟨by decide, by decide, by decide,
    (request_grows_or_clears (fun _ => 4096) (blankCache.init (fun _ => 4096)) 64 3 16384
      (by decide) (by decide) (by decide)).1,
    by decide⟩

/-! ## Proofs: growth, invalidation and direct mapping of the cache -/

theorem request_capacity_exhausted (alloc_mem : Nat → Nat) (s : TessellationCache)
    (primID c n : Nat) (hre : s.reuses primID n = false) (hex : s.exhausted n = true) :
    (s.request alloc_mem primID c n).1.allocated64BytesBlocks =
      (if s.grows n then mulS BIG_CACHE_ENTRIES n % UINT else s.allocated64BytesBlocks) := by
  rw [request_fresh_eq alloc_mem s primID c n hre]
  exact (makeRoom_exhausted alloc_mem s n hex).2.2.1

theorem request_tags_exhausted (alloc_mem : Nat → Nat) (s : TessellationCache)
    (primID c n : Nat) (hre : s.reuses primID n = false) (hex : s.exhausted n = true)
    (j : Fin CACHE_ENTRIES) (hj : j ≠ addrToCacheIndex primID) :
    (s.request alloc_mem primID c n).1.tags j = CacheTag.reset (s.tags j) := by
  rw [request_fresh_eq alloc_mem s primID c n hre]
  simp [Function.update_noteq hj, (makeRoom_exhausted alloc_mem s n hex).2.1 j]

theorem request_tags_no_clear (alloc_mem : Nat → Nat) (s : TessellationCache)
    (primID c n : Nat) (h : s.reuses primID n = true ∨ s.exhausted n = false)
    (j : Fin CACHE_ENTRIES) (hj : j ≠ addrToCacheIndex primID) :
    (s.request alloc_mem primID c n).1.tags j = s.tags j := by
  cases hre : s.reuses primID n
  · have hex : s.exhausted n = false := by
      rcases h with h | h
      · rw [hre] at h; cases h
      · exact h
    rw [request_fresh_eq alloc_mem s primID c n hre, makeRoom_room alloc_mem s n hex]
    simp [Function.update_noteq hj]
  · rw [request_reuse_eq alloc_mem s primID c n hre]
    simp [Function.update_noteq hj]

theorem lookup_reset_slot (s : TessellationCache) (primID c : Nat) (t : CacheTag)
    (h : s.tags (addrToCacheIndex primID) = CacheTag.reset t)
    (hkey : ¬ (CacheTag.toTag primID = UINT - 1 ∧ c = UINT - 1)) :
    s.lookup primID c = CACHE_MISS := by
  apply lookup_eq_miss_of_no_match
  rw [Bool.eq_false_iff, ne_eq, match_iff, h]
  intro hm
  exact hkey ⟨hm.1.symm, hm.2.symm⟩

theorem toTag_determines_slot (p q : Nat) (h : CacheTag.toTag p = CacheTag.toTag q) :
    addrToCacheIndex p = addrToCacheIndex q := by
  apply Fin.ext
  show (p >>> 6) % CACHE_ENTRIES = (q >>> 6) % CACHE_ENTRIES
  have hc : CACHE_ENTRIES = 4096 := by decide
  unfold CacheTag.toTag at h
  rw [UINT_val] at h
  rw [hc]
  omega

/-- Claim C11 (as amended): for every cache state and every request that
cannot reuse its slot and finds the arena exhausted (the test
`blockCounter + neededBlocks >= allocated64BytesBlocks` of the code succeeds),
if `16 * neededBlocks` exceeds the capacity and is below `2^32`, the capacity
after the request is exactly `16 * neededBlocks`, hence at least that. -/
theorem request_growth_capacity (alloc_mem : Nat → Nat) (s : TessellationCache)
    (primID c neededBlocks : Nat)
    (hslot : (s.tags (addrToCacheIndex primID)).blocks < neededBlocks)
    (hfull : s.allocated64BytesBlocks ≤ addS s.blockCounter neededBlocks)
    (hgrow : s.allocated64BytesBlocks < 16 * neededBlocks)
    (hbig : 16 * neededBlocks < UINT) :
    (s.request alloc_mem primID c neededBlocks).1.allocated64BytesBlocks
      = 16 * neededBlocks ∧
    16 * neededBlocks
      ≤ (s.request alloc_mem primID c neededBlocks).1.allocated64BytesBlocks := by
  have hre : s.reuses primID neededBlocks = false := by
    unfold TessellationCache.reuses
    simpa using hslot
  have hex : s.exhausted neededBlocks = true := by
    unfold TessellationCache.exhausted
    simpa using hfull
  have hU := UINT_val
  have hS := SIZE_T_val
  have hmul : mulS BIG_CACHE_ENTRIES neededBlocks = 16 * neededBlocks := by
    unfold mulS BIG_CACHE_ENTRIES
    exact Nat.mod_eq_of_lt (by omega)
  have hg : s.grows neededBlocks = true := by
    unfold TessellationCache.grows
    rw [hmul]
    simpa using hgrow
  have hcap := request_capacity_exhausted alloc_mem s primID c neededBlocks hre hex
  rw [hg, if_pos rfl, hmul, Nat.mod_eq_of_lt hbig] at hcap
  exact ⟨hcap, le_of_eq hcap.symm⟩

theorem request_growth_capacity_witness :
    ((blankCache.init (fun _ => 4096)).tags (addrToCacheIndex 64)).blocks < 16384 ∧
    (blankCache.init (fun _ => 4096)).allocated64BytesBlocks
      ≤ addS (blankCache.init (fun _ => 4096)).blockCounter 16384 ∧
    (blankCache.init (fun _ => 4096)).allocated64BytesBlocks < 16 * 16384 ∧
    16 * 16384 < UINT ∧
    ((blankCache.init (fun _ => 4096)).request (fun _ => 4096) 64 3 16384).1.allocated64BytesBlocks
      = 16 * 16384 ∧
    16 * 16384
      ≤ ((blankCache.init (fun _ => 4096)).request (fun _ => 4096) 64 3 16384).1.allocated64BytesBlocks :=
  ⟨by decide, by decide, by decide, by decide,
    request_growth_capacity (fun _ => 4096) (blankCache.init (fun _ => 4096)) 64 3 16384
      (by decide) (by decide) (by decide) (by decide)⟩

/-- Claim C11 fails as stated.  Right after `init` (capacity 16384, cursor 0)
the request `request(0, 7, 2000)` is for a key that is not cached and has
`16 * 2000 = 32000 > 16384`, but its blocks fit below the capacity, so the
arena is not resized: the capacity stays 16384.  And `request(0, 7, 2^28)`
does resize, to `16 * 2^28` truncated to 32 bits, which is 0. -/
theorem request_above_threshold_keeps_capacity :
    ((blankCache.init (fun _ => 4096)).tags (addrToCacheIndex 0)).match_ 0 7 = false ∧
    (blankCache.init (fun _ => 4096)).allocated64BytesBlocks < 16 * 2000 ∧
    ((blankCache.init (fun _ => 4096)).request (fun _ => 4096) 0 7 2000).1.allocated64BytesBlocks
      = 16384 ∧
    (blankCache.init (fun _ => 4096)).allocated64BytesBlocks < 16 * 268435456 ∧
    ((blankCache.init (fun _ => 4096)).request
      (fun _ => 4096) 0 7 268435456).1.allocated64BytesBlocks = 0 := by
  refine ⟨by decide, by decide, by decide, by decide, by decide⟩

/-- Claim C12 (as amended): right after `init`, and after every request that
clears the cache (with or without growing the arena), every lookup of a key
`(primID, commitCounter)` whose 32-bit tag `(primID >> 6) mod 2^32` or commit
counter differs from those of the key just requested is a miss, provided the
key looked up is not the reset pattern (tag `2^32-1` with commit counter
`2^32-1`); this holds for every `primID` and commit counter, whatever was cached
before. -/
theorem lookup_misses_after_clear (alloc_mem : Nat → Nat) (s0 s : TessellationCache)
    (primID c neededBlocks primID' c' : Nat)
    (hkey : ¬ (CacheTag.toTag primID' = UINT - 1 ∧ c' = UINT - 1)) :
    (s0.init alloc_mem).lookup primID' c' = CACHE_MISS ∧
    (s.reuses primID neededBlocks = false → s.exhausted neededBlocks = true →
      (CacheTag.toTag primID' ≠ CacheTag.toTag primID ∨ c' ≠ c) →
      (s.request alloc_mem primID c neededBlocks).1.lookup primID' c' = CACHE_MISS) := by
  constructor
  · exact lookup_reset_slot _ primID' c' (s0.tags (addrToCacheIndex primID')) rfl hkey
  · intro hre hex hother
    by_cases hslot : addrToCacheIndex primID' = addrToCacheIndex primID
    · apply lookup_eq_miss_of_no_match
      rw [Bool.eq_false_iff, ne_eq, match_iff, hslot, request_tag_stored]
      have hk := request_tag_key alloc_mem s primID c neededBlocks
      rw [hk.1, hk.2]
      rintro ⟨h1, h2⟩
      rcases hother with h | h
      · exact h h1.symm
      · exact h h2.symm
    · exact lookup_reset_slot _ primID' c' (s.tags (addrToCacheIndex primID'))
        (request_tags_exhausted alloc_mem s primID c neededBlocks hre hex _ hslot) hkey

theorem lookup_misses_after_clear_witness :
    ¬ (CacheTag.toTag 0 = UINT - 1 ∧ 7 = UINT - 1) ∧
    (blankCache.init (fun _ => 4096)).lookup 0 7 = CACHE_MISS ∧
    ((history (fun _ => 4096) blankCache [Request.mk 0 7 4]).1.reuses 64 16384 = false →
      (history (fun _ => 4096) blankCache [Request.mk 0 7 4]).1.exhausted 16384 = true →
      (CacheTag.toTag 0 ≠ CacheTag.toTag 64 ∨ 7 ≠ 8) →
      ((history (fun _ => 4096) blankCache [Request.mk 0 7 4]).1.request
        (fun _ => 4096) 64 8 16384).1.lookup 0 7 = CACHE_MISS) ∧
    (history (fun _ => 4096) blankCache [Request.mk 0 7 4]).1.lookup 0 7 = 4096 :=
  ⟨by decide,
    (lookup_misses_after_clear (fun _ => 4096) blankCache
      (history (fun _ => 4096) blankCache [Request.mk 0 7 4]).1 64 8 16384 0 7
      (by decide)).1,
    (lookup_misses_after_clear (fun _ => 4096) blankCache
      (history (fun _ => 4096) blankCache [Request.mk 0 7 4]).1 64 8 16384 0 7
      (by decide)).2,
    by decide⟩

/-- Claim C12 fails as stated.  Right after `init` the lookup of
`primID = (2^33-1)*64` with commit counter `2^32-1` is not a miss: the
key matches the reset pattern of its slot.  And after the growing request
`request(64, 9, 16384)` the lookup of `(64 + 2^38, 9)`, a key other than the one
just requested, is a hit: the two `primID`s have the same 32-bit tag. -/
theorem lookup_hits_after_clear :
    (blankCache.init (fun _ => 4096)).lookup 549755813824 4294967295 = 4294971391 ∧
    (4294971391 : Nat) ≠ CACHE_MISS ∧
    (blankCache.init (fun _ => 4096)).grows 16384 = true ∧
    (blankCache.init (fun _ => 4096)).exhausted 16384 = true ∧
    (blankCache.init (fun _ => 4096)).reuses 64 16384 = false ∧
    ((blankCache.init (fun _ => 4096)).request (fun _ => 4096) 64 9 16384).1.lookup
      274877907008 9 = 4096 ∧
    (4096 : Nat) ≠ CACHE_MISS ∧ (274877907008 : Nat) ≠ 64 := by
  refine ⟨by decide, by decide, by decide, by decide, by decide, by decide, by decide,
    by decide⟩

/-- Claim C13: the cache is direct-mapped with one live entry per slot.  The
slot of `primID` is `(primID >> 6) mod 4096`; `lookup` reads no other slot
(its result is the same in two caches that agree on that slot and on the arena
address); `request` writes no other slot unless it clears the cache, and what
it returns and does to the cursor, the capacity and its own slot depends on no
other slot; and if two keys with different tags map to the same slot, then
after a request for the second key a lookup of the first key misses. -/
theorem cache_is_direct_mapped (alloc_mem : Nat → Nat) (s s' : TessellationCache)
    (primID c neededBlocks primID1 c1 : Nat) :
    (addrToCacheIndex primID).val = (primID / 64) % 4096 ∧
    (s.tags (addrToCacheIndex primID) = s'.tags (addrToCacheIndex primID) →
      s.lazymem = s'.lazymem → s.lookup primID c = s'.lookup primID c) ∧
    (s.reuses primID neededBlocks = true ∨ s.exhausted neededBlocks = false →
      ∀ j, j ≠ addrToCacheIndex primID →
        (s.request alloc_mem primID c neededBlocks).1.tags j = s.tags j) ∧
    (s.tags (addrToCacheIndex primID) = s'.tags (addrToCacheIndex primID) →
      s.lazymem = s'.lazymem → s.allocated64BytesBlocks = s'.allocated64BytesBlocks →
      s.blockCounter = s'.blockCounter →
      (s.request alloc_mem primID c neededBlocks).2
        = (s'.request alloc_mem primID c neededBlocks).2 ∧
      (s.request alloc_mem primID c neededBlocks).1.tags (addrToCacheIndex primID)
        = (s'.request alloc_mem primID c neededBlocks).1.tags (addrToCacheIndex primID) ∧
      (s.request alloc_mem primID c neededBlocks).1.blockCounter
        = (s'.request alloc_mem primID c neededBlocks).1.blockCounter ∧
      (s.request alloc_mem primID c neededBlocks).1.allocated64BytesBlocks
        = (s'.request alloc_mem primID c neededBlocks).1.allocated64BytesBlocks ∧
      (s.request alloc_mem primID c neededBlocks).1.lazymem
        = (s'.request alloc_mem primID c neededBlocks).1.lazymem) ∧
    (addrToCacheIndex primID1 = addrToCacheIndex primID →
      CacheTag.toTag primID1 ≠ CacheTag.toTag primID →
      (s.request alloc_mem primID c neededBlocks).1.lookup primID1 c1 = CACHE_MISS) := by
  refine ⟨?_, ?_, ?_, ?_, ?_⟩
  · show (primID >>> 6) % CACHE_ENTRIES = (primID / 64) % 4096
    rw [Nat.shiftRight_eq_div_pow]
    rfl
  · intro ht hl
    unfold TessellationCache.lookup TessellationCache.getPtr
    simp only [ht, hl]
  · intro h j hj
    exact request_tags_no_clear alloc_mem s primID c neededBlocks h j hj
  · intro ht hl hc hb
    have hre : s.reuses primID neededBlocks = s'.reuses primID neededBlocks := by
      unfold TessellationCache.reuses
      rw [ht]
    have hex : s.exhausted neededBlocks = s'.exhausted neededBlocks := by
      unfold TessellationCache.exhausted
      rw [hb, hc]
    have hgr : s.grows neededBlocks = s'.grows neededBlocks := by
      unfold TessellationCache.grows
      rw [hc]
    have hroom : (s.makeRoom alloc_mem neededBlocks).blockCounter
          = (s'.makeRoom alloc_mem neededBlocks).blockCounter ∧
        (s.makeRoom alloc_mem neededBlocks).allocated64BytesBlocks
          = (s'.makeRoom alloc_mem neededBlocks).allocated64BytesBlocks ∧
        (s.makeRoom alloc_mem neededBlocks).lazymem
          = (s'.makeRoom alloc_mem neededBlocks).lazymem := by
      cases hx : s.exhausted neededBlocks
      · rw [makeRoom_room alloc_mem s neededBlocks hx,
          makeRoom_room alloc_mem s' neededBlocks (hex ▸ hx)]
        exact ⟨hb, hc, hl⟩
      · obtain ⟨a1, _, a3, a4⟩ := makeRoom_exhausted alloc_mem s neededBlocks hx
        obtain ⟨b1, _, b3, b4⟩ := makeRoom_exhausted alloc_mem s' neededBlocks (hex ▸ hx)
        rw [a1, b1, a3, b3, a4, b4, hgr, hc, hl]
        exact ⟨rfl, rfl, rfl⟩
    have h2 : (s.request alloc_mem primID c neededBlocks).2
        = (s'.request alloc_mem primID c neededBlocks).2 := by
      cases hr : s.reuses primID neededBlocks
      · rw [request_fresh_eq alloc_mem s primID c neededBlocks hr,
          request_fresh_eq alloc_mem s' primID c neededBlocks (hre ▸ hr), hroom.1]
      · rw [request_reuse_eq alloc_mem s primID c neededBlocks hr,
          request_reuse_eq alloc_mem s' primID c neededBlocks (hre ▸ hr), ht]
    refine ⟨h2, by rw [request_tag_stored, request_tag_stored, h2], ?_, ?_, ?_⟩
    · cases hr : s.reuses primID neededBlocks
      · rw [request_fresh_eq alloc_mem s primID c neededBlocks hr,
          request_fresh_eq alloc_mem s' primID c neededBlocks (hre ▸ hr)]
        show addS _ _ = addS _ _
        rw [hroom.1]
      · rw [request_reuse_eq alloc_mem s primID c neededBlocks hr,
          request_reuse_eq alloc_mem s' primID c neededBlocks (hre ▸ hr)]
        exact hb
    · cases hr : s.reuses primID neededBlocks
      · rw [request_fresh_eq alloc_mem s primID c neededBlocks hr,
          request_fresh_eq alloc_mem s' primID c neededBlocks (hre ▸ hr)]
        exact hroom.2.1
      · rw [request_reuse_eq alloc_mem s primID c neededBlocks hr,
          request_reuse_eq alloc_mem s' primID c neededBlocks (hre ▸ hr)]
        exact hc
    · cases hr : s.reuses primID neededBlocks
      · rw [request_fresh_eq alloc_mem s primID c neededBlocks hr,
          request_fresh_eq alloc_mem s' primID c neededBlocks (hre ▸ hr)]
        exact hroom.2.2
      · rw [request_reuse_eq alloc_mem s primID c neededBlocks hr,
          request_reuse_eq alloc_mem s' primID c neededBlocks (hre ▸ hr)]
        exact hl
  · intro hslot htag
    apply lookup_eq_miss_of_no_match
    rw [Bool.eq_false_iff, ne_eq, match_iff, hslot, request_tag_stored]
    rw [(request_tag_key alloc_mem s primID c neededBlocks).1]
    rintro ⟨h1, _⟩
    exact htag h1.symm

/-! ## Proofs: bits of Morton codes -/

theorem addU_exact {a b : Nat} (h : a + b < UINT) : addU a b = a + b :=
  Nat.mod_eq_of_lt h

theorem subU_exact {a b : Nat} (hb : b ≤ a) (ha : a < UINT) : subU a b = a - b := by
  unfold subU
  rw [UINT_val] at *
  omega

theorem bitLength_le : ∀ (fuel x : Nat), bitLength fuel x ≤ fuel := by
  intro fuel
  induction fuel with
  | zero => intro x; simp [bitLength]
  | succ f ih =>
    intro x
    unfold bitLength
    split
    · omega
    · have := ih (x / 2)
      omega

theorem bitLength_bounds : ∀ (fuel x : Nat), x < 2 ^ fuel → x ≠ 0 →
    2 ^ (bitLength fuel x - 1) ≤ x ∧ x < 2 ^ bitLength fuel x ∧ 1 ≤ bitLength fuel x := by
  intro fuel
  induction fuel with
  | zero => intro x hx h0; simp at hx; omega
  | succ f ih =>
    intro x hx h0
    unfold bitLength
    rw [if_neg h0]
    by_cases h2 : x / 2 = 0
    · have hx1 : x = 1 := by omega
      subst hx1
      cases f <;> simp [bitLength]
    · have hlt : x / 2 < 2 ^ f := by
        rw [Nat.pow_succ] at hx
        omega
      obtain ⟨h1, h3, h4⟩ := ih (x / 2) hlt h2
      refine ⟨?_, ?_, by omega⟩
      · rw [show bitLength f (x / 2) + 1 - 1 = (bitLength f (x / 2) - 1) + 1 by omega,
          Nat.pow_succ]
        omega
      · rw [Nat.pow_succ]
        omega

theorem clz_eq_32_iff (x : Nat) : clz x = 32 ↔ x = 0 := by
  unfold clz
  constructor
  · intro h
    by_contra h0
    have : bitLength 32 x = bitLength 31 (x / 2) + 1 := by
      conv_lhs => unfold bitLength
      rw [if_neg h0]
    omega
  · intro h
    subst h
    rfl

/-- For a non-zero 32-bit word, `31 - clz` is the position of its top bit. -/
theorem clz_top_bit (x : Nat) (hx : x < UINT) (h0 : x ≠ 0) :
    clz x ≤ 31 ∧ 2 ^ (31 - clz x) ≤ x ∧ x < 2 ^ (31 - clz x + 1) := by
  have hx32 : x < 2 ^ 32 := by rw [UINT] at hx; exact hx
  obtain ⟨h1, h2, h3⟩ := bitLength_bounds 32 x hx32 h0
  have h4 := bitLength_le 32 x
  unfold clz
  have e : 31 - (32 - bitLength 32 x) = bitLength 32 x - 1 := by omega
  rw [e]
  refine ⟨by omega, h1, ?_⟩
  rw [show bitLength 32 x - 1 + 1 = bitLength 32 x by omega]
  exact h2

theorem land_two_pow_eq_zero_iff (c d : Nat) : c &&& 2 ^ d = 0 ↔ c.testBit d = false := by
  constructor
  · intro h
    have := Nat.testBit_and c (2 ^ d) d
    rw [h, Nat.zero_testBit, Nat.testBit_two_pow_self, Bool.and_true] at this
    exact this.symm
  · intro h
    apply Nat.eq_of_testBit_eq
    intro i
    rw [Nat.testBit_and, Nat.zero_testBit, Nat.testBit_two_pow]
    by_cases hi : d = i
    · subst hi
      simp [h]
    · simp [hi]

/-- The top differing bit `d` of two codes `a < b`: above it they agree, and
at `d` the smaller code has 0 and the larger has 1. -/
theorem top_differing_bit (a b d : Nat) (hab : a < b)
    (hlo : 2 ^ d ≤ a ^^^ b) (hhi : a ^^^ b < 2 ^ (d + 1)) :
    a / 2 ^ (d + 1) = b / 2 ^ (d + 1) ∧ a.testBit d = false ∧ b.testBit d = true := by
  have hhigh : a / 2 ^ (d + 1) = b / 2 ^ (d + 1) := by
    rw [← Nat.shiftRight_eq_div_pow, ← Nat.shiftRight_eq_div_pow]
    apply Nat.eq_of_testBit_eq
    intro i
    rw [Nat.testBit_shiftRight, Nat.testBit_shiftRight]
    have hx : (a ^^^ b).testBit (d + 1 + i) = false :=
      Nat.testBit_lt_two_pow (lt_of_lt_of_le hhi (Nat.pow_le_pow_right (by decide) (by omega)))
    rw [Nat.testBit_xor] at hx
    revert hx
    cases a.testBit (d + 1 + i) <;> cases b.testBit (d + 1 + i) <;> simp
  have hxd : (a ^^^ b).testBit d = true := by
    rw [Nat.testBit_to_div_mod]
    have : (a ^^^ b) / 2 ^ d = 1 := by
      apply Nat.div_eq_of_lt_le
      · rw [Nat.one_mul]; exact hlo
      · rw [Nat.pow_succ] at hhi
        omega
    simp [this]
  rw [Nat.testBit_xor] at hxd
  have hdiv : a / 2 ^ d ≤ b / 2 ^ d := Nat.div_le_div_right (le_of_lt hab)
  have ha2 : a / 2 ^ d = 2 * (a / 2 ^ (d + 1)) + a / 2 ^ d % 2 := by
    rw [Nat.pow_succ, ← Nat.div_div_eq_div_mul]
    omega
  have hb2 : b / 2 ^ d = 2 * (b / 2 ^ (d + 1)) + b / 2 ^ d % 2 := by
    rw [Nat.pow_succ, ← Nat.div_div_eq_div_mul]
    omega
  have hta := @Nat.testBit_to_div_mod d a
  have htb := @Nat.testBit_to_div_mod d b
  refine ⟨hhigh, ?_, ?_⟩
  · cases hA : a.testBit d
    · rfl
    · exfalso
      cases hB : b.testBit d
      · rw [hA] at hta
        rw [hB] at htb
        simp at hta htb
        omega
      · rw [hA, hB] at hxd
        simp at hxd
  · cases hB : b.testBit d
    · exfalso
      cases hA : a.testBit d
      · rw [hA, hB] at hxd
        simp at hxd
      · rw [hA] at hta
        rw [hB] at htb
        simp at hta htb
        omega
    · rfl

/-- Between two codes that agree above bit `d`, every code agrees with them
above `d`, and bit `d` can only go from 0 to 1 as the codes grow. -/
theorem bit_monotone_between (a b c c' d : Nat) (hhigh : a / 2 ^ (d + 1) = b / 2 ^ (d + 1))
    (hac : a ≤ c) (hcc : c ≤ c') (hcb : c' ≤ b) :
    c / 2 ^ (d + 1) = a / 2 ^ (d + 1) ∧ c' / 2 ^ (d + 1) = a / 2 ^ (d + 1) ∧
    (c.testBit d = true → c'.testBit d = true) := by
  have h1 : a / 2 ^ (d + 1) ≤ c / 2 ^ (d + 1) := Nat.div_le_div_right hac
  have h2 : c / 2 ^ (d + 1) ≤ c' / 2 ^ (d + 1) := Nat.div_le_div_right hcc
  have h3 : c' / 2 ^ (d + 1) ≤ b / 2 ^ (d + 1) := Nat.div_le_div_right hcb
  refine ⟨by omega, by omega, ?_⟩
  have hdiv : c / 2 ^ d ≤ c' / 2 ^ d := Nat.div_le_div_right hcc
  have hc2 : c / 2 ^ d = 2 * (c / 2 ^ (d + 1)) + c / 2 ^ d % 2 := by
    rw [Nat.pow_succ, ← Nat.div_div_eq_div_mul]
    omega
  have hc2' : c' / 2 ^ d = 2 * (c' / 2 ^ (d + 1)) + c' / 2 ^ d % 2 := by
    rw [Nat.pow_succ, ← Nat.div_div_eq_div_mul]
    omega
  rw [@Nat.testBit_to_div_mod d c, @Nat.testBit_to_div_mod d c']
  simp only [decide_eq_true_eq]
  omega

theorem testBit_above_of_div_eq (c a d j : Nat) (h : c / 2 ^ (d + 1) = a / 2 ^ (d + 1))
    (hj : d < j) : c.testBit j = a.testBit j := by
  have e : j = (d + 1) + (j - (d + 1)) := by omega
  rw [e, ← Nat.testBit_shiftRight, ← Nat.testBit_shiftRight, Nat.shiftRight_eq_div_pow,
    Nat.shiftRight_eq_div_pow, h]

/-! ## Proofs: `BuildRecord`, `splitFallback` and the search loop of `split` -/

theorem BuildRecord.size_exact (r : BuildRecord) (h : r.begin ≤ r.end_) (he : r.end_ < UINT) :
    r.size = r.end_ - r.begin :=
  subU_exact h he

theorem BuildRecord.positions_split (b c e d0 d1 d2 : Nat) (h1 : b ≤ c) (h2 : c ≤ e) :
    BuildRecord.positions ⟨b, c, d1⟩ ++ BuildRecord.positions ⟨c, e, d2⟩ =
      BuildRecord.positions ⟨b, e, d0⟩ := by
  unfold BuildRecord.positions
  simp only
  have e1 : c = b + (c - b) := by omega
  conv_lhs => rw [e1]
  rw [show b + (c - b) - b = c - b by omega, show e - (b + (c - b)) = e - c by omega]
  rw [List.range'_append_1]
  congr 1
  omega

theorem splitFallback_exact (r : BuildRecord) (hsum : r.begin + r.end_ < UINT) :
    splitFallback r =
      (⟨r.begin, (r.begin + r.end_) / 2, 1⟩, ⟨(r.begin + r.end_) / 2, r.end_, 1⟩) := by
  unfold splitFallback BuildRecord.init
  rw [addU_exact hsum]
  rw [UINT_val] at hsum
  have h1 : r.begin % UINT = r.begin := Nat.mod_eq_of_lt (by rw [UINT_val]; omega)
  have h2 : r.end_ % UINT = r.end_ := Nat.mod_eq_of_lt (by rw [UINT_val]; omega)
  have h3 : (r.begin + r.end_) / 2 % UINT = (r.begin + r.end_) / 2 :=
    Nat.mod_eq_of_lt (by rw [UINT_val]; omega)
  rw [h1, h2, h3]

/-- The search loop of `split` ends after at most `end - begin` iterations with
two neighbouring indices inside the range; the lower one is `begin` or an index
whose code has the bit clear, the upper one is `end` or an index whose code has
the bit set. -/
theorem splitSearch_spec (morton : Nat → Nat) (bitmask : Nat) :
    ∀ (fuel begin end_ : Nat), begin < end_ → end_ - begin ≤ fuel + 1 →
      ∃ lo hi, splitSearch morton bitmask fuel begin end_ = some (lo, hi) ∧
        lo + 1 = hi ∧ begin ≤ lo ∧ hi ≤ end_ ∧
        (lo = begin ∨ morton lo &&& bitmask = 0) ∧
        (hi = end_ ∨ morton hi &&& bitmask ≠ 0) := by
  intro fuel
  induction fuel with
  | zero =>
    intro begin end_ hlt hfuel
    have : begin + 1 = end_ := by omega
    refine ⟨begin, end_, ?_, this, le_refl _, le_refl _, Or.inl rfl, Or.inl rfl⟩
    simp [splitSearch, this]
  | succ f ih =>
    intro begin end_ hlt hfuel
    unfold splitSearch
    by_cases h1 : begin + 1 = end_
    · refine ⟨begin, end_, ?_, h1, le_refl _, le_refl _, Or.inl rfl, Or.inl rfl⟩
      simp [h1]
    · rw [if_pos h1]
      have hm1 : begin < (begin + end_) / 2 := by omega
      have hm2 : (begin + end_) / 2 < end_ := by omega
      by_cases hbit : morton ((begin + end_) / 2) &&& bitmask = 0
      · rw [if_pos hbit]
        obtain ⟨lo, hi, h, hn, hlo, hhi, hl, hr⟩ := ih ((begin + end_) / 2) end_ hm2 (by omega)
        refine ⟨lo, hi, h, hn, by omega, hhi, ?_, hr⟩
        rcases hl with hl | hl
        · right
          rw [hl]
          exact hbit
        · exact Or.inr hl
      · rw [if_neg hbit]
        obtain ⟨lo, hi, h, hn, hlo, hhi, hl, hr⟩ := ih begin ((begin + end_) / 2) hm1 (by omega)
        refine ⟨lo, hi, h, hn, hlo, by omega, hl, ?_⟩
        rcases hr with hr | hr
        · right
          rw [hr]
          exact hbit
        · exact Or.inr hr

/-- The second half of `split` returns for every non-empty record, whatever
the codes: `begin < center <= end`. -/
theorem splitAtBit_returns (morton : Nat → Nat) (fuel bitpos : Nat) (current : BuildRecord)
    (hlt : current.begin < current.end_) (hend : current.end_ < UINT)
    (hfuel : current.end_ - current.begin ≤ fuel + 1) :
    ∃ center, splitAtBit morton fuel bitpos current =
        some (⟨current.begin, center, 1⟩, ⟨center, current.end_, 1⟩) ∧
      current.begin < center ∧ center ≤ current.end_ ∧
      (center - 1 = current.begin ∨ morton (center - 1) &&& (1 <<< subU 31 bitpos) = 0) ∧
      (center = current.end_ ∨ morton center &&& (1 <<< subU 31 bitpos) ≠ 0) := by
  obtain ⟨lo, hi, h, hn, hlo, hhi, hl, hr⟩ :=
    splitSearch_spec morton (1 <<< subU 31 bitpos) fuel current.begin current.end_ hlt hfuel
  refine ⟨hi, ?_, by omega, hhi, ?_, hr⟩
  · unfold splitAtBit
    simp only [h]
    unfold BuildRecord.init
    rw [UINT_val] at hend
    have h1 : current.begin % UINT = current.begin := Nat.mod_eq_of_lt (by rw [UINT_val]; omega)
    have h2 : current.end_ % UINT = current.end_ := Nat.mod_eq_of_lt (by rw [UINT_val]; omega)
    have h3 : hi % UINT = hi := Nat.mod_eq_of_lt (by rw [UINT_val]; omega)
    rw [h1, h2, h3]
  · have : hi - 1 = lo := by omega
    rw [this]
    exact hl

theorem subU_31_clz (x : Nat) (h : clz x ≤ 31) : subU 31 (clz x) = 31 - clz x :=
  subU_exact h (by rw [UINT_val]; omega)

/-- The bit-flip path of `split` on sorted codes with different endpoint
codes: with `d` the top bit of the XOR of the endpoint codes, the codes left of
`center` have bit `d` clear, the codes from `center` on have it set, and all
codes of the range agree above `d`. -/
theorem splitAtBit_sorted (morton : Nat → Nat) (fuel : Nat) (current : BuildRecord)
    (hlt : current.begin < current.end_) (hend : current.end_ < UINT)
    (hcode : ∀ i, current.begin ≤ i → i < current.end_ → morton i < UINT)
    (hsorted : ∀ i j, current.begin ≤ i → i ≤ j → j < current.end_ → morton i ≤ morton j)
    (hdiff : morton current.begin ≠ morton (current.end_ - 1))
    (hfuel : current.end_ - current.begin ≤ fuel + 1) :
    ∃ center,
      splitAtBit morton fuel (clz (morton current.begin ^^^ morton (current.end_ - 1))) current =
        some (⟨current.begin, center, 1⟩, ⟨center, current.end_, 1⟩) ∧
      current.begin < center ∧ center < current.end_ ∧
      clz (morton current.begin ^^^ morton (current.end_ - 1)) ≤ 31 ∧
      (∀ i, current.begin ≤ i → i < center →
        (morton i).testBit (31 - clz (morton current.begin ^^^ morton (current.end_ - 1))) =
          false) ∧
      (∀ i, center ≤ i → i < current.end_ →
        (morton i).testBit (31 - clz (morton current.begin ^^^ morton (current.end_ - 1))) =
          true) ∧
      (∀ i, current.begin ≤ i → i < current.end_ →
        morton i / 2 ^ (31 - clz (morton current.begin ^^^ morton (current.end_ - 1)) + 1) =
          morton current.begin /
            2 ^ (31 - clz (morton current.begin ^^^ morton (current.end_ - 1)) + 1)) := by
  have hle : morton current.begin ≤ morton (current.end_ - 1) :=
    hsorted _ _ (le_refl _) (by omega) (by omega)
  have hab : morton current.begin < morton (current.end_ - 1) := lt_of_le_of_ne hle hdiff
  have hx : morton current.begin ^^^ morton (current.end_ - 1) < UINT := by
    rw [UINT]
    apply Nat.xor_lt_two_pow
    · have := hcode current.begin (le_refl _) hlt
      rwa [UINT] at this
    · have := hcode (current.end_ - 1) (by omega) (by omega)
      rwa [UINT] at this
  have hx0 : morton current.begin ^^^ morton (current.end_ - 1) ≠ 0 := by
    intro h
    exact hdiff (Nat.xor_eq_zero.mp h)
  obtain ⟨hc31, hlo, hhi⟩ := clz_top_bit _ hx hx0
  obtain ⟨hhigh, hbA, hbB⟩ := top_differing_bit _ _ _ hab hlo hhi
  obtain ⟨center, hsplit, hc1, hc2, hl, hr⟩ :=
    splitAtBit_returns morton fuel (clz (morton current.begin ^^^ morton (current.end_ - 1)))
      current hlt hend hfuel
  rw [subU_31_clz _ hc31, Nat.one_shiftLeft] at hl hr
  have hbl : (morton (center - 1)).testBit
      (31 - clz (morton current.begin ^^^ morton (current.end_ - 1))) = false := by
    rcases hl with hl | hl
    · rw [hl]
      exact hbA
    · exact (land_two_pow_eq_zero_iff _ _).mp hl
  have hcend : center ≠ current.end_ := by
    intro h
    rw [h, hbB] at hbl
    exact Bool.noConfusion hbl
  have hbr : (morton center).testBit
      (31 - clz (morton current.begin ^^^ morton (current.end_ - 1))) = true := by
    rcases hr with hr | hr
    · exact absurd hr hcend
    · cases hb : (morton center).testBit
        (31 - clz (morton current.begin ^^^ morton (current.end_ - 1)))
      · exact absurd ((land_two_pow_eq_zero_iff _ _).mpr hb) hr
      · rfl
  refine ⟨center, hsplit, hc1, by omega, hc31, ?_, ?_, ?_⟩
  · intro i hi1 hi2
    cases hb : (morton i).testBit
      (31 - clz (morton current.begin ^^^ morton (current.end_ - 1)))
    · rfl
    · have := (bit_monotone_between _ _ (morton i) (morton (center - 1)) _ hhigh
        (hsorted _ _ (le_refl _) hi1 (by omega))
        (hsorted _ _ hi1 (by omega) (by omega))
        (hsorted _ _ (by omega) (by omega) (by omega))).2.2 hb
      rw [this] at hbl
      exact Bool.noConfusion hbl
  · intro i hi1 hi2
    exact (bit_monotone_between _ _ (morton center) (morton i) _ hhigh
      (hsorted _ _ (le_refl _) (by omega) (by omega))
      (hsorted _ _ (by omega) hi1 hi2)
      (hsorted _ _ (by omega) (by omega) (by omega))).2.2 hbr
  · intro i hi1 hi2
    exact (bit_monotone_between _ _ (morton i) (morton i) _ hhigh
      (hsorted _ _ (le_refl _) hi1 hi2) (le_refl _)
      (hsorted _ _ hi1 (by omega) (by omega))).1

theorem subU_one (e : Nat) (h0 : 0 < e) (he : e < UINT) : subU e 1 = e - 1 :=
  subU_exact h0 he

theorem init_exact (b e : Nat) (hb : b < UINT) (he : e < UINT) :
    BuildRecord.init b e = ⟨b, e, 1⟩ := by
  unfold BuildRecord.init
  rw [Nat.mod_eq_of_lt hb, Nat.mod_eq_of_lt he]

/-- The three ways through `split`, for a record with `0 < end < 2^32`. -/
theorem split_cases {B : Type} (b : BVH4BuilderMortonGeneral B) (fuel : Nat)
    (morton : Nat → Nat) (current : BuildRecord) (h0 : 0 < current.end_)
    (hend : current.end_ < UINT) :
    (morton current.begin ≠ morton (current.end_ - 1) →
      b.split fuel morton current =
        (splitAtBit morton fuel (clz (morton current.begin ^^^ morton (current.end_ - 1)))
          current).map
          (fun lr => { morton := morton, recreated := [], left := lr.1, right := lr.2 })) ∧
    (morton current.begin = morton (current.end_ - 1) →
      b.recreateMortonCodes morton current current.begin ≠
        b.recreateMortonCodes morton current (current.end_ - 1) →
      b.split fuel morton current =
        (splitAtBit (b.recreateMortonCodes morton current) fuel
          (clz (b.recreateMortonCodes morton current current.begin ^^^
            b.recreateMortonCodes morton current (current.end_ - 1))) current).map
          (fun lr =>
            { morton := b.recreateMortonCodes morton current, recreated := [current],
              left := lr.1, right := lr.2 })) ∧
    (morton current.begin = morton (current.end_ - 1) →
      b.recreateMortonCodes morton current current.begin =
        b.recreateMortonCodes morton current (current.end_ - 1) →
      b.split fuel morton current =
        some
          { morton := b.recreateMortonCodes morton current
            recreated := [current]
            left := BuildRecord.init current.begin (addU current.begin current.end_ / 2)
            right := BuildRecord.init (addU current.begin current.end_ / 2) current.end_ }) := by
  have hs := subU_one current.end_ h0 hend
  refine ⟨?_, ?_, ?_⟩
  · intro hd
    have hne : ¬ clz (morton current.begin ^^^ morton (current.end_ - 1)) = 32 := by
      rw [clz_eq_32_iff, Nat.xor_eq_zero]
      exact hd
    unfold BVH4BuilderMortonGeneral.split
    simp only [hs, if_neg hne]
    cases splitAtBit morton fuel (clz (morton current.begin ^^^ morton (current.end_ - 1)))
      current <;> rfl
  · intro he hd
    have heq : clz (morton current.begin ^^^ morton (current.end_ - 1)) = 32 := by
      rw [clz_eq_32_iff, Nat.xor_eq_zero]
      exact he
    have hne : ¬ clz (b.recreateMortonCodes morton current current.begin ^^^
        b.recreateMortonCodes morton current (current.end_ - 1)) = 32 := by
      rw [clz_eq_32_iff, Nat.xor_eq_zero]
      exact hd
    unfold BVH4BuilderMortonGeneral.split
    simp only [hs, if_pos heq, if_neg hne]
    cases splitAtBit (b.recreateMortonCodes morton current) fuel
      (clz (b.recreateMortonCodes morton current current.begin ^^^
        b.recreateMortonCodes morton current (current.end_ - 1))) current <;> rfl
  · intro he hd
    have heq : clz (morton current.begin ^^^ morton (current.end_ - 1)) = 32 := by
      rw [clz_eq_32_iff, Nat.xor_eq_zero]
      exact he
    have heq1 : clz (b.recreateMortonCodes morton current current.begin ^^^
        b.recreateMortonCodes morton current (current.end_ - 1)) = 32 := by
      rw [clz_eq_32_iff, Nat.xor_eq_zero]
      exact hd
    unfold BVH4BuilderMortonGeneral.split
    simp only [hs, if_pos heq, if_pos heq1]

/-- `split` returns for every non-empty record whose index midpoint does not
overflow, whatever the codes, and cuts the range in two at a `center` with
`begin <= center <= end`. -/
theorem split_returns {B : Type} (b : BVH4BuilderMortonGeneral B) (fuel : Nat)
    (morton : Nat → Nat) (current : BuildRecord)
    (hlt : current.begin < current.end_) (hsum : current.begin + current.end_ < UINT)
    (hfuel : current.end_ - current.begin ≤ fuel + 1) :
    ∃ r center, b.split fuel morton current = some r ∧
      r.left = ⟨current.begin, center, 1⟩ ∧ r.right = ⟨center, current.end_, 1⟩ ∧
      current.begin ≤ center ∧ center ≤ current.end_ := by
  have hU := UINT_val
  have hend : current.end_ < UINT := by omega
  obtain ⟨h1, h2, h3⟩ := split_cases b fuel morton current (by omega) hend
  by_cases hd : morton current.begin = morton (current.end_ - 1)
  · by_cases hd1 : b.recreateMortonCodes morton current current.begin =
        b.recreateMortonCodes morton current (current.end_ - 1)
    · refine ⟨_, (current.begin + current.end_) / 2, h3 hd hd1, ?_, ?_, by omega, by omega⟩
      · simp only [addU_exact hsum]
        exact init_exact _ _ (by omega) (by omega)
      · simp only [addU_exact hsum]
        exact init_exact _ _ (by omega) (by omega)
    · obtain ⟨center, hs, hc1, hc2, _⟩ :=
        splitAtBit_returns (b.recreateMortonCodes morton current) fuel
          (clz (b.recreateMortonCodes morton current current.begin ^^^
            b.recreateMortonCodes morton current (current.end_ - 1))) current hlt hend hfuel
      refine ⟨⟨b.recreateMortonCodes morton current, [current],
          ⟨current.begin, center, 1⟩, ⟨center, current.end_, 1⟩⟩,
        center, ?_, rfl, rfl, by omega, hc2⟩
      rw [h2 hd hd1, hs]
      rfl
  · obtain ⟨center, hs, hc1, hc2, _⟩ :=
      splitAtBit_returns morton fuel (clz (morton current.begin ^^^ morton (current.end_ - 1)))
        current hlt hend hfuel
    refine ⟨⟨morton, [], ⟨current.begin, center, 1⟩, ⟨center, current.end_, 1⟩⟩,
      center, ?_, rfl, rfl, by omega, hc2⟩
    rw [h1 hd, hs]
    rfl

/-! ## The claims about `split` -/

/-- Claim C14: for a record `[begin,end)` whose codes are sorted ascending and
whose two endpoint codes differ, `split` returns, without recomputing codes,
`left = [begin,center)` and `right = [center,end)` where, with `d` the most
significant bit in which the endpoint codes differ (`d = 31 - clz(xor)`: the
endpoint codes differ in bit `d` and agree in every bit above), every code in
`left` has bit `d` clear, every code in `right` has bit `d` set, and all codes
of the range agree on every bit above `d`. -/
theorem split_at_top_differing_bit {B : Type} (b : BVH4BuilderMortonGeneral B) (fuel : Nat)
    (morton : Nat → Nat) (current : BuildRecord)
    (hlt : current.begin < current.end_) (hend : current.end_ < UINT)
    (hcode : ∀ i, current.begin ≤ i → i < current.end_ → morton i < UINT)
    (hsorted : ∀ i j, current.begin ≤ i → i ≤ j → j < current.end_ → morton i ≤ morton j)
    (hdiff : morton current.begin ≠ morton (current.end_ - 1))
    (hfuel : current.end_ - current.begin ≤ fuel) :
    ∃ center d,
      d = 31 - clz (morton current.begin ^^^ morton (current.end_ - 1)) ∧
      b.split fuel morton current =
        some
          { morton := morton
            recreated := []
            left := ⟨current.begin, center, 1⟩
            right := ⟨center, current.end_, 1⟩ } ∧
      current.begin < center ∧ center < current.end_ ∧
      (morton current.begin).testBit d = false ∧
      (morton (current.end_ - 1)).testBit d = true ∧
      (∀ j, d < j → (morton current.begin).testBit j = (morton (current.end_ - 1)).testBit j) ∧
      (∀ i, current.begin ≤ i → i < center → (morton i).testBit d = false) ∧
      (∀ i, center ≤ i → i < current.end_ → (morton i).testBit d = true) ∧
      (∀ i j, current.begin ≤ i → i < current.end_ → d < j →
        (morton i).testBit j = (morton current.begin).testBit j) := by
  obtain ⟨center, hs, hc1, hc2, _, hl, hr, hhigh⟩ :=
    splitAtBit_sorted morton fuel current hlt hend hcode hsorted hdiff (by omega)
  refine ⟨center, _, rfl, ?_, hc1, hc2, hl _ (le_refl _) hc1, hr _ (by omega) (by omega),
    ?_, hl, hr, ?_⟩
  · rw [(split_cases b fuel morton current (by omega) hend).1 hdiff, hs]
    rfl
  · intro j hj
    exact (testBit_above_of_div_eq _ _ _ j (hhigh (current.end_ - 1) (by omega) (by omega))
      hj).symm
  · intro i j hi1 hi2 hj
    exact testBit_above_of_div_eq _ _ _ j (hhigh i hi1 hi2) hj

theorem split_at_top_differing_bit_witness :
    ∃ center d,
      d = 31 - clz ((fun i => i) 0 ^^^ (fun i => i) (5 - 1)) ∧
      (exampleBuilder 1 2 32).split 5 (fun i => i) ⟨0, 5, 1⟩ =
        some
          { morton := fun i => i
            recreated := []
            left := ⟨0, center, 1⟩
            right := ⟨center, 5, 1⟩ } ∧
      0 < center ∧ center < 5 ∧
      ((fun i => i) 0).testBit d = false ∧
      ((fun i => i) (5 - 1)).testBit d = true ∧
      (∀ j, d < j → ((fun i => i) 0).testBit j = ((fun i => i) (5 - 1)).testBit j) ∧
      (∀ i, 0 ≤ i → i < center → ((fun i => i) i).testBit d = false) ∧
      (∀ i, center ≤ i → i < 5 → ((fun i => i) i).testBit d = true) ∧
      (∀ i j, 0 ≤ i → i < 5 → d < j →
        ((fun i => i) i).testBit j = ((fun i => i) 0).testBit j) :=
  split_at_top_differing_bit (exampleBuilder 1 2 32) 5 (fun i => i) ⟨0, 5, 1⟩
    (by decide) (by decide)
    (fun i _ h => lt_trans h (by decide))
    (fun _ _ _ h _ => h)
    (by decide) (by decide)

/-- Claim C15 (as amended): for a record with at least 2 items whose index sum
`begin + end` is below `2^32`, with codes sorted ascending in its range (before
and after `recreateMortonCodes`), `split` terminates and returns
`left = [begin,center)` and `right = [center,end)` with `begin < center < end`,
on the bit-flip path and on the midpoint fallback path alike. -/
theorem split_children_nonempty {B : Type} (b : BVH4BuilderMortonGeneral B) (fuel : Nat)
    (morton : Nat → Nat) (current : BuildRecord)
    (hsize : current.begin + 2 ≤ current.end_)
    (hsum : current.begin + current.end_ < UINT)
    (hcode : ∀ i, current.begin ≤ i → i < current.end_ → morton i < UINT)
    (hsorted : ∀ i j, current.begin ≤ i → i ≤ j → j < current.end_ → morton i ≤ morton j)
    (hcode1 : ∀ i, current.begin ≤ i → i < current.end_ →
      b.recreateMortonCodes morton current i < UINT)
    (hsorted1 : ∀ i j, current.begin ≤ i → i ≤ j → j < current.end_ →
      b.recreateMortonCodes morton current i ≤ b.recreateMortonCodes morton current j)
    (hfuel : current.end_ - current.begin ≤ fuel) :
    ∃ r center, b.split fuel morton current = some r ∧
      r.left = ⟨current.begin, center, 1⟩ ∧ r.right = ⟨center, current.end_, 1⟩ ∧
      current.begin < center ∧ center < current.end_ := by
  have hU := UINT_val
  have hend : current.end_ < UINT := by omega
  obtain ⟨h1, h2, h3⟩ := split_cases b fuel morton current (by omega) hend
  by_cases hd : morton current.begin = morton (current.end_ - 1)
  · by_cases hd1 : b.recreateMortonCodes morton current current.begin =
        b.recreateMortonCodes morton current (current.end_ - 1)
    · refine ⟨_, (current.begin + current.end_) / 2, h3 hd hd1, ?_, ?_, by omega, by omega⟩
      · simp only [addU_exact hsum]
        exact init_exact _ _ (by omega) (by omega)
      · simp only [addU_exact hsum]
        exact init_exact _ _ (by omega) (by omega)
    · obtain ⟨center, hs, hc1, hc2, _⟩ :=
        splitAtBit_sorted (b.recreateMortonCodes morton current) fuel current (by omega) hend
          hcode1 hsorted1 hd1 (by omega)
      refine ⟨⟨b.recreateMortonCodes morton current, [current],
          ⟨current.begin, center, 1⟩, ⟨center, current.end_, 1⟩⟩,
        center, ?_, rfl, rfl, hc1, hc2⟩
      rw [h2 hd hd1, hs]
      rfl
  · obtain ⟨center, hs, hc1, hc2, _⟩ :=
      splitAtBit_sorted morton fuel current (by omega) hend hcode hsorted hd (by omega)
    refine ⟨⟨morton, [], ⟨current.begin, center, 1⟩, ⟨center, current.end_, 1⟩⟩,
      center, ?_, rfl, rfl, hc1, hc2⟩
    rw [h1 hd, hs]
    rfl

theorem split_children_nonempty_witness :
    ∃ r center, (exampleBuilder 1 2 32).split 5 (fun _ => 7) ⟨0, 5, 1⟩ = some r ∧
      r.left = ⟨0, center, 1⟩ ∧ r.right = ⟨center, 5, 1⟩ ∧ 0 < center ∧ center < 5 :=
  split_children_nonempty (exampleBuilder 1 2 32) 5 (fun _ => 7) ⟨0, 5, 1⟩
    (by decide) (by decide)
    (fun _ _ _ => show 7 < UINT by decide) (fun _ _ _ _ _ => le_refl _)
    (fun _ _ _ => show 7 < UINT by decide) (fun _ _ _ _ _ => le_refl _)
    (by decide)

/-- Claim C15 fails as stated.  The record `[2^31, 2^31 + 2)` has 2 items; with
all codes equal (sorted) `split` takes the midpoint fallback, where
`(begin + end)/2` is computed in 32-bit `unsigned int` and wraps to 1: the
result is `left = [2^31, 1)` and `right = [1, 2^31 + 2)`, so `center = 1` is
not above `begin`. -/
theorem split_midpoint_wraps :
    (2147483648 + 2 ≤ (2147483650 : Nat)) ∧ 2147483650 < UINT ∧
    (((exampleBuilder 1 2 32).split 2 (fun _ => 0) ⟨2147483648, 2147483650, 1⟩).map
      (fun r => (r.left, r.right))) =
      some (⟨2147483648, 1, 1⟩, ⟨1, 2147483650, 1⟩) := by
  refine ⟨by decide, by decide, by decide⟩

/-- Claim C16 (as amended): `split` calls `recreateMortonCodes` exactly once,
on the record itself, when the two endpoint codes are identical, and not at all
when they differ; if the endpoint codes are identical also afterwards it
returns, whatever the codes and without a second retry,
`left = [begin,center)` and `right = [center,end)` with
`center = ((begin + end) mod 2^32) / 2`, which is `floor((begin+end)/2)` when
`begin + end < 2^32`. -/
theorem split_recreates_once {B : Type} (b : BVH4BuilderMortonGeneral B) (fuel : Nat)
    (morton : Nat → Nat) (current : BuildRecord)
    (h0 : 0 < current.end_) (hend : current.end_ < UINT) (hbegin : current.begin < UINT) :
    (morton current.begin ≠ morton (current.end_ - 1) →
      ∀ r, b.split fuel morton current = some r → r.recreated = [] ∧ r.morton = morton) ∧
    (morton current.begin = morton (current.end_ - 1) →
      ∀ r, b.split fuel morton current = some r →
        r.recreated = [current] ∧ r.morton = b.recreateMortonCodes morton current) ∧
    (morton current.begin = morton (current.end_ - 1) →
      b.recreateMortonCodes morton current current.begin =
        b.recreateMortonCodes morton current (current.end_ - 1) →
      b.split fuel morton current =
        some
          { morton := b.recreateMortonCodes morton current
            recreated := [current]
            left := ⟨current.begin, (current.begin + current.end_) % UINT / 2, 1⟩
            right := ⟨(current.begin + current.end_) % UINT / 2, current.end_, 1⟩ } ∧
      (current.begin + current.end_ < UINT →
        (current.begin + current.end_) % UINT / 2 = (current.begin + current.end_) / 2)) := by
  have hU := UINT_val
  obtain ⟨h1, h2, h3⟩ := split_cases b fuel morton current h0 hend
  refine ⟨?_, ?_, ?_⟩
  · intro hd r hr
    rw [h1 hd] at hr
    cases hs : splitAtBit morton fuel (clz (morton current.begin ^^^ morton (current.end_ - 1)))
      current with
    | none => rw [hs] at hr; exact Option.noConfusion hr
    | some lr =>
      rw [hs] at hr
      have := Option.some.inj hr
      subst this
      exact ⟨rfl, rfl⟩
  · intro hd r hr
    by_cases hd1 : b.recreateMortonCodes morton current current.begin =
        b.recreateMortonCodes morton current (current.end_ - 1)
    · rw [h3 hd hd1] at hr
      have := Option.some.inj hr
      subst this
      exact ⟨rfl, rfl⟩
    · rw [h2 hd hd1] at hr
      cases hs : splitAtBit (b.recreateMortonCodes morton current) fuel
        (clz (b.recreateMortonCodes morton current current.begin ^^^
          b.recreateMortonCodes morton current (current.end_ - 1))) current with
      | none => rw [hs] at hr; exact Option.noConfusion hr
      | some lr =>
        rw [hs] at hr
        have := Option.some.inj hr
        subst this
        exact ⟨rfl, rfl⟩
  · intro hd hd1
    refine ⟨?_, fun h => by rw [Nat.mod_eq_of_lt h]⟩
    rw [h3 hd hd1]
    have hc : (current.begin + current.end_) % UINT / 2 < UINT := by
      have := Nat.mod_lt (current.begin + current.end_) (show 0 < UINT by omega)
      omega
    unfold addU
    rw [init_exact _ _ hbegin hc, init_exact _ _ hc hend]

theorem split_recreates_once_witness :
    (exampleBuilder 1 2 32).split 0 (fun _ => 7) ⟨0, 5, 1⟩ =
      some
        { morton := (exampleBuilder 1 2 32).recreateMortonCodes (fun _ => 7) ⟨0, 5, 1⟩
          recreated := [⟨0, 5, 1⟩]
          left := ⟨0, (0 + 5) % UINT / 2, 1⟩
          right := ⟨(0 + 5) % UINT / 2, 5, 1⟩ } ∧
    (0 + 5 < UINT → (0 + 5) % UINT / 2 = (0 + 5) / 2) :=
  (split_recreates_once (exampleBuilder 1 2 32) 0 (fun _ => 7) ⟨0, 5, 1⟩
    (by decide) (by decide) (by decide)).2.2 rfl rfl

/-- Claim C16 fails as stated.  For the record `[2^31, 2^31 + 2)` with all
codes equal, also after the one call of `recreateMortonCodes`, the fallback
centre is 1 and not `floor((begin + end)/2) = 2^31 + 1`: the sum is computed in
32-bit `unsigned int`. -/
theorem split_fallback_center_wraps :
    (2147483648 + 2147483650) / 2 = 2147483649 ∧
    (((exampleBuilder 1 2 32).split 0 (fun _ => 0) ⟨2147483648, 2147483650, 1⟩).map
      (fun r => (r.recreated, r.left.end_, r.right.begin))) =
      some ([⟨2147483648, 2147483650, 1⟩], 1, 1) := by
  refine ⟨by decide, by decide⟩

/-! ## Proofs: the growth loop of `recurse` -/

theorem findBestChild_spec (minLeafSize : Nat) :
    ∀ (rest pre : List BuildRecord) (bestChild : Option Nat) (bestItems : Nat),
      (bestChild = none → bestItems = 0) →
      (∀ k c, bestChild = some k → pre[k]? = some c → c.size = bestItems) →
      IsBestChild minLeafSize pre bestChild →
      IsBestChild minLeafSize (pre ++ rest)
        (findBestChild minLeafSize rest pre.length bestChild bestItems) := by
  intro rest
  induction rest with
  | nil =>
    intro pre bestChild bestItems _ _ h
    simpa [findBestChild] using h
  | cons child rest ih =>
    intro pre bestChild bestItems h0 hitems h
    have hlen : (pre ++ [child]).length = pre.length + 1 := by simp
    have happ : pre ++ child :: rest = (pre ++ [child]) ++ rest := by simp
    unfold findBestChild
    rw [happ, ← hlen]
    by_cases hsmall : child.size ≤ minLeafSize
    · rw [if_pos hsmall]
      apply ih _ _ _ h0
      · intro k c hk hc
        cases bestChild with
        | none => exact Option.noConfusion hk
        | some k0 =>
          obtain ⟨c0, hc0, _⟩ := h
          have hk0 : k0 = k := Option.some.inj hk
          subst hk0
          have hlt : k0 < pre.length := by
            by_contra hge
            rw [List.getElem?_eq_none (by omega)] at hc0
            exact Option.noConfusion hc0
          rw [List.getElem?_append_left hlt] at hc
          exact hitems k0 c rfl hc
      · cases bestChild with
        | none =>
          intro c hc
          rcases List.mem_append.mp hc with hc | hc
          · exact h c hc
          · rw [List.mem_singleton] at hc
            rw [hc]
            exact hsmall
        | some k0 =>
          obtain ⟨c0, hc0, hmin, hbest⟩ := h
          have hlt : k0 < pre.length := by
            by_contra hge
            rw [List.getElem?_eq_none (by omega)] at hc0
            exact Option.noConfusion hc0
          refine ⟨c0, ?_, hmin, ?_⟩
          · rw [List.getElem?_append_left hlt]
            exact hc0
          · intro j c' hj hc'
            by_cases hjl : j < pre.length
            · rw [List.getElem?_append_left hjl] at hj
              exact hbest j c' hj hc'
            · exfalso
              rw [List.getElem?_append_right (by omega)] at hj
              have hj0 : j - pre.length = 0 := by
                by_contra hne
                rw [List.getElem?_eq_none (by simp; omega)] at hj
                exact Option.noConfusion hj
              rw [hj0] at hj
              simp at hj
              rw [← hj] at hc'
              omega
    · rw [if_neg hsmall]
      by_cases hbig : child.size > bestItems
      · rw [if_pos hbig]
        apply ih
        · intro h1
          exact Option.noConfusion h1
        · intro k c hk hc
          have hk0 : pre.length = k := Option.some.inj hk
          subst hk0
          rw [List.getElem?_append_right (le_refl _)] at hc
          simp at hc
          rw [hc]
        · refine ⟨child, ?_, by omega, ?_⟩
          · rw [List.getElem?_append_right (le_refl _)]
            simp
          · intro j c' hj hc'
            by_cases hjl : j < pre.length
            · rw [List.getElem?_append_left hjl] at hj
              cases bestChild with
              | none =>
                have := h c' (List.getElem?_mem hj)
                omega
              | some k0 =>
                obtain ⟨c0, hc0, hmin, hbest⟩ := h
                have h1 := (hbest j c' hj hc').1
                have h2 := hitems k0 c0 rfl hc0
                omega
            · rw [List.getElem?_append_right (by omega)] at hj
              have hj0 : j - pre.length = 0 := by
                by_contra hne
                rw [List.getElem?_eq_none (by simp; omega)] at hj
                exact Option.noConfusion hj
              rw [hj0] at hj
              simp at hj
              rw [← hj]
              exact ⟨le_refl _, fun _ => by omega⟩
      · rw [if_neg hbig]
        apply ih _ _ _ h0
        · intro k c hk hc
          cases bestChild with
          | none => exact Option.noConfusion hk
          | some k0 =>
            obtain ⟨c0, hc0, _⟩ := h
            have hk0 : k0 = k := Option.some.inj hk
            subst hk0
            have hlt : k0 < pre.length := by
              by_contra hge
              rw [List.getElem?_eq_none (by omega)] at hc0
              exact Option.noConfusion hc0
            rw [List.getElem?_append_left hlt] at hc
            exact hitems k0 c rfl hc
        · cases bestChild with
          | none =>
            exfalso
            have := h0 rfl
            omega
          | some k0 =>
            obtain ⟨c0, hc0, hmin, hbest⟩ := h
            have hlt : k0 < pre.length := by
              by_contra hge
              rw [List.getElem?_eq_none (by omega)] at hc0
              exact Option.noConfusion hc0
            have h2 := hitems k0 c0 rfl hc0
            refine ⟨c0, ?_, hmin, ?_⟩
            · rw [List.getElem?_append_left hlt]
              exact hc0
            · intro j c' hj hc'
              by_cases hjl : j < pre.length
              · rw [List.getElem?_append_left hjl] at hj
                exact hbest j c' hj hc'
              · rw [List.getElem?_append_right (by omega)] at hj
                have hj0 : j - pre.length = 0 := by
                  by_contra hne
                  rw [List.getElem?_eq_none (by simp; omega)] at hj
                  exact Option.noConfusion hj
                rw [hj0] at hj
                simp at hj
                rw [← hj]
                exact ⟨by omega, fun _ => by omega⟩

/-- The loop that finds `bestChild` returns the child the specification
names. -/
theorem findBestChild_isBestChild (minLeafSize : Nat) (children : List BuildRecord) :
    IsBestChild minLeafSize children (findBestChild minLeafSize children 0 none 0) := by
  have := findBestChild_spec minLeafSize children [] none 0 (fun _ => rfl)
    (fun k c h _ => Option.noConfusion h) (fun c hc => absurd hc (List.not_mem_nil c))
  simpa using this

theorem perm_set_swap {α : Type} :
    ∀ (L : List α) (i : Nat) (x c : α), L[i]? = some c → (L.set i x ++ [c]).Perm (L ++ [x]) := by
  intro L
  induction L with
  | nil => intro i x c h; simp at h
  | cons a t ih =>
    intro i x c h
    cases i with
    | zero =>
      simp at h
      subst h
      simp only [List.set_cons_zero, List.cons_append]
      exact ((@List.perm_middle α a t []).cons x).trans
        ((List.Perm.swap a x _).trans ((@List.perm_middle α x t []).symm.cons a))
    | succ i =>
      simp at h
      simp only [List.set_cons_succ, List.cons_append]
      exact (ih i x c h).cons a

theorem perm_swap_tail {α : Type} (A : List α) (x y : α) :
    (A ++ [x] ++ [y]).Perm (A ++ [y] ++ [x]) := by
  simp only [List.append_assoc, List.singleton_append]
  exact (List.Perm.swap y x []).append_left A

/-- The array update of the growth loop, `children[bestChild] =
children[numChildren-1]; children[numChildren-1] = left`, trades the best child
for `left`. -/
theorem grow_perm {α : Type} (L : List α) (i : Nat) (best last left : α)
    (hbest : L[i]? = some best) (hlast : L[L.length - 1]? = some last) :
    ((L.set i last).set (L.length - 1) left ++ [best]).Perm (L ++ [left]) := by
  have h1 := perm_set_swap L i last best hbest
  have hL1 : (L.set i last)[L.length - 1]? = some last := by
    rw [List.getElem?_set]
    by_cases hi : i = L.length - 1
    · rw [if_pos hi]
      have : i < L.length := by
        by_contra hge
        rw [List.getElem?_eq_none (by omega)] at hbest
        exact Option.noConfusion hbest
      rw [if_pos this]
    · rw [if_neg hi]
      exact hlast
  have h2 := perm_set_swap (L.set i last) (L.length - 1) left last hL1
  apply (List.perm_append_right_iff [last]).mp
  exact (perm_swap_tail _ best last).trans ((h2.append_right [best]).trans
    ((perm_swap_tail _ left best).trans ((h1.append_right [left]).trans
      (perm_swap_tail _ last left))))

theorem mem_set_last_of_length_one {α : Type} (L : List α) (x c : α) (h : L.length = 1)
    (hc : c ∈ L.set (L.length - 1) x) : c = x := by
  match L, h with
  | [y], _ => simpa using hc

/-- One iteration of the growth loop: the best child `[begin,end)` is replaced
by `[begin,center)` and `[center,end)`. -/
theorem grow_step (lo hi d : Nat) (children : List BuildRecord) (k : Nat)
    (best last : BuildRecord) (center : Nat)
    (hbest : children[k]? = some best) (hlast : children[children.length - 1]? = some last)
    (hvalid : ∀ c ∈ children, lo ≤ c.begin ∧ c.begin ≤ c.end_ ∧ c.end_ ≤ hi)
    (hdepth : children.length = 1 ∨ ∀ c ∈ children, c.depth = d)
    (hc1 : best.begin ≤ center) (hc2 : center ≤ best.end_) :
    (((children.set k last).set (children.length - 1) (BuildRecord.mk best.begin center d)) ++
        [(BuildRecord.mk center best.end_ d)]).length = children.length + 1 ∧
    (∀ c ∈ ((children.set k last).set (children.length - 1) (BuildRecord.mk best.begin center d)) ++
        [(BuildRecord.mk center best.end_ d)], lo ≤ c.begin ∧ c.begin ≤ c.end_ ∧ c.end_ ≤ hi) ∧
    ((((children.set k last).set (children.length - 1) (BuildRecord.mk best.begin center d)) ++
        [(BuildRecord.mk center best.end_ d)]).flatMap BuildRecord.positions).Perm
      (children.flatMap BuildRecord.positions) ∧
    (∀ c ∈ ((children.set k last).set (children.length - 1) (BuildRecord.mk best.begin center d)) ++
        [(BuildRecord.mk center best.end_ d)], c.depth = d) := by
  have hbm := List.getElem?_mem hbest
  have hlm := List.getElem?_mem hlast
  have hvb := hvalid best hbm
  refine ⟨by simp, ?_, ?_, ?_⟩
  · intro c hc
    rcases List.mem_append.mp hc with hc | hc
    · rcases List.mem_or_eq_of_mem_set hc with hc | hc
      · rcases List.mem_or_eq_of_mem_set hc with hc | hc
        · exact hvalid c hc
        · rw [hc]
          exact hvalid last hlm
      · rw [hc]
        exact ⟨hvb.1, hc1, le_trans hc2 hvb.2.2⟩
    · rw [List.mem_singleton] at hc
      rw [hc]
      exact ⟨le_trans hvb.1 hc1, hc2, hvb.2.2⟩
  · have hp := (grow_perm children k best last (BuildRecord.mk best.begin center d) hbest hlast).flatMap_right
      BuildRecord.positions
    simp only [List.flatMap_append, List.flatMap_singleton] at hp ⊢
    rw [← BuildRecord.positions_split best.begin center best.end_ best.depth d d hc1 hc2] at hp
    apply (List.perm_append_right_iff (BuildRecord.positions (BuildRecord.mk best.begin center d))).mp
    refine List.Perm.trans ?_ hp
    rw [List.append_assoc]
    exact List.Perm.append_left _ List.perm_append_comm
  · intro c hc
    rcases List.mem_append.mp hc with hc | hc
    · rcases hdepth with h1 | hall
      · have hlen : (children.set k last).length = 1 := by simpa using h1
        have := mem_set_last_of_length_one (children.set k last) (BuildRecord.mk best.begin center d) c hlen
          (by rw [hlen]; rw [h1] at hc; exact hc)
        rw [this]
      · rcases List.mem_or_eq_of_mem_set hc with hc | hc
        · rcases List.mem_or_eq_of_mem_set hc with hc | hc
          · exact hall c hc
          · rw [hc]
            exact hall last hlm
        · rw [hc]
    · rw [List.mem_singleton] at hc
      rw [hc]

/-- The growth loop of `recurse` on children inside `[lo,hi)`, `hi <= 2^31`:
it ends, with at most `BVH4::N` children, all of them inside `[lo,hi)` and
covering what the children covered before. -/
theorem growChildren_spec {B : Type} (b : BVH4BuilderMortonGeneral B) (fuel depth lo hi : Nat)
    (hhi : hi ≤ 2147483648) (hfuel : hi - lo ≤ fuel + 1) :
    ∀ (n : Nat) (morton : Nat → Nat) (children : List BuildRecord),
      1 ≤ children.length → children.length < BVH4.N → BVH4.N ≤ n + children.length →
      (∀ c ∈ children, lo ≤ c.begin ∧ c.begin ≤ c.end_ ∧ c.end_ ≤ hi) →
      (children.length = 1 ∨ ∀ c ∈ children, c.depth = addU depth 1) →
      ∃ morton1 children1,
        b.growChildren fuel depth n morton children = some (morton1, children1) ∧
        children.length ≤ children1.length ∧ children1.length ≤ BVH4.N ∧
        (children1.length = BVH4.N ∨ ∀ c ∈ children1, c.size ≤ b.minLeafSize) ∧
        (∀ c ∈ children1, lo ≤ c.begin ∧ c.begin ≤ c.end_ ∧ c.end_ ≤ hi) ∧
        (children1.flatMap BuildRecord.positions).Perm
          (children.flatMap BuildRecord.positions) ∧
        ((children1 = children ∧ findBestChild b.minLeafSize children 0 none 0 = none) ∨
          (children.length < children1.length ∧ ∀ c ∈ children1, c.depth = addU depth 1)) := by
  have hU := UINT_val
  intro n
  induction n with
  | zero =>
    intro morton children _ h2 h3 _ _
    omega
  | succ n ih =>
    intro morton children h1 h2 h3 hvalid hdepth
    have hspec := findBestChild_isBestChild b.minLeafSize children
    unfold BVH4BuilderMortonGeneral.growChildren
    cases hfb : findBestChild b.minLeafSize children 0 none 0 with
    | none =>
      rw [hfb] at hspec
      exact ⟨morton, children, rfl, le_refl _, le_of_lt h2, Or.inr hspec, hvalid,
        List.Perm.refl _, Or.inl ⟨rfl, rfl⟩⟩
    | some k =>
      rw [hfb] at hspec
      obtain ⟨best, hbest, hmin, _⟩ := hspec
      obtain ⟨last, hlast⟩ : ∃ last, children[children.length - 1]? = some last := by
        cases h : children[children.length - 1]? with
        | none =>
          rw [List.getElem?_eq_none_iff] at h
          omega
        | some last => exact ⟨last, rfl⟩
      have hvb := hvalid best (List.getElem?_mem hbest)
      have hsz := BuildRecord.size_exact best hvb.2.1 (by omega)
      obtain ⟨r, center, hsplit, hl, hr, hc1, hc2⟩ :=
        split_returns b fuel morton best (by omega) (by omega) (by omega)
      obtain ⟨glen, gvalid, gperm, gdepth⟩ :=
        grow_step lo hi (addU depth 1) children k best last center hbest hlast hvalid hdepth hc1 hc2
      simp only [hbest, hlast, hsplit, hl, hr]
      by_cases hlt : (((children.set k last).set
          (children.length - 1) (BuildRecord.mk best.begin center (addU depth 1))) ++
          [BuildRecord.mk center best.end_ (addU depth 1)]).length < BVH4.N
      · rw [if_pos hlt]
        obtain ⟨m1, c1, hg, hlen1, hlen2, hstop, hv1, hp1, hd1⟩ :=
          ih r.morton _ (by omega) hlt (by omega) gvalid (Or.inr gdepth)
        refine ⟨m1, c1, hg, by omega, hlen2, hstop, hv1, hp1.trans gperm, Or.inr ⟨by omega, ?_⟩⟩
        rcases hd1 with ⟨he, _⟩ | ⟨_, hd⟩
        · rw [he]
          exact gdepth
        · exact hd
      · rw [if_neg hlt]
        exact ⟨r.morton, _, rfl, by omega, by omega, Or.inl (by omega), gvalid, gperm,
          Or.inr ⟨by omega, gdepth⟩⟩

/-! ## Proofs: the trees built by `createLeaf` and `recurse` -/

theorem BuildForest.leaves_eq {B : Type} :
    ∀ (forest : BuildForest B),
      forest.leaves = forest.toList.flatMap (fun tb => tb.1.leaves)
  | .nil => rfl
  | .cons child bounds rest => by
    simp only [BuildForest.leaves, BuildForest.toList, List.flatMap_cons,
      BuildForest.leaves_eq rest]

theorem BuildForest.queuedRecords_eq {B : Type} :
    ∀ (forest : BuildForest B),
      forest.queuedRecords = forest.toList.flatMap (fun tb => tb.1.queuedRecords)
  | .nil => rfl
  | .cons child bounds rest => by
    simp only [BuildForest.queuedRecords, BuildForest.toList, List.flatMap_cons,
      BuildForest.queuedRecords_eq rest]

theorem BuildForest.nodeCount_eq {B : Type} :
    ∀ (forest : BuildForest B),
      forest.nodeCount = (forest.toList.map (fun tb => tb.1.nodeCount)).sum
  | .nil => rfl
  | .cons child bounds rest => by
    simp only [BuildForest.nodeCount, BuildForest.toList, List.map_cons, List.sum_cons,
      BuildForest.nodeCount_eq rest]

theorem BuildForest.length_eq {B : Type} :
    ∀ (forest : BuildForest B), forest.length = forest.toList.length
  | .nil => rfl
  | .cons child bounds rest => by
    simp only [BuildForest.length, BuildForest.toList, List.length_cons,
      BuildForest.length_eq rest]

/-- The loop over the children: when the call for every child returns and
keeps `Q`, so does the loop; the trees built are those of the calls, in the
order of the children, and the bounds returned are `bounds0` extended by the
bounds of the children in turn. -/
theorem forChildren_spec {B σ : Type} (extend : B → B → B)
    (f : σ → BuildRecord → Option (σ × BuildTree B × B)) (Q : σ → Prop)
    (R : BuildRecord → BuildTree B → B → Prop) :
    ∀ (children : List BuildRecord) (st : σ) (bounds0 : B), Q st →
      (∀ st child, child ∈ children → Q st →
        ∃ st1 tree bounds, f st child = some (st1, tree, bounds) ∧ Q st1 ∧ R child tree bounds) →
      ∃ st1 forest bounds1,
        forChildren extend f st children bounds0 = some (st1, forest, bounds1) ∧ Q st1 ∧
        List.Forall₂ (fun c tb => R c tb.1 tb.2) children forest.toList ∧
        bounds1 = (forest.toList.map Prod.snd).foldl extend bounds0 := by
  intro children
  induction children with
  | nil =>
    intro st bounds0 hQ _
    exact ⟨st, BuildForest.nil, bounds0, rfl, hQ, List.Forall₂.nil, rfl⟩
  | cons child rest ih =>
    intro st bounds0 hQ hf
    obtain ⟨st1, tree, bounds, h1, hQ1, hR⟩ := hf st child (List.mem_cons_self _ _) hQ
    obtain ⟨st2, forest, bounds1, h2, hQ2, hall, hb⟩ :=
      ih st1 (extend bounds0 bounds) hQ1
        (fun s c hc hq => hf s c (List.mem_cons_of_mem _ hc) hq)
    refine ⟨st2, BuildForest.cons tree bounds forest, bounds1, ?_, hQ2, ?_, ?_⟩
    · simp only [forChildren, h1, h2]
    · exact List.Forall₂.cons hR hall
    · rw [hb]
      rfl

theorem forall2_covers {B : Type} (children : List BuildRecord) (ts : List (BuildTree B × B))
    (h : List.Forall₂
      (fun (c : BuildRecord) (tb : BuildTree B × B) =>
        (tb.1.leaves.flatMap BuildRecord.positions ++
          tb.1.queuedRecords.flatMap BuildRecord.positions).Perm c.positions) children ts) :
    ((ts.flatMap (fun tb => tb.1.leaves)).flatMap BuildRecord.positions ++
      (ts.flatMap (fun tb => tb.1.queuedRecords)).flatMap BuildRecord.positions).Perm
      (children.flatMap BuildRecord.positions) := by
  induction h with
  | nil => exact List.Perm.refl _
  | @cons c tb cs ts hc _ ih =>
    simp only [List.flatMap_cons, List.flatMap_append]
    refine List.Perm.trans ?_ (hc.append ih)
    simp only [List.append_assoc]
    apply List.Perm.append_left
    simp only [← List.append_assoc]
    apply List.Perm.append_right
    exact List.perm_append_comm

theorem forall2_right {α β : Type} (R : α → β → Prop) (T : β → Prop) (as : List α)
    (bs : List β) (h : List.Forall₂ R as bs) (hT : ∀ a b, a ∈ as → R a b → T b) :
    ∀ b ∈ bs, T b := by
  induction h with
  | nil => intro b hb; exact absurd hb (List.not_mem_nil b)
  | @cons a b as bs hab _ ih =>
    intro x hx
    rcases List.mem_cons.mp hx with hx | hx
    · rw [hx]
      exact hT a b (List.mem_cons_self _ _) hab
    · exact ih (fun a b ha => hT a b (List.mem_cons_of_mem _ ha)) x hx

/-- What the loop over the children builds, when every child's tree covers
the child's range: the leaves and queued records of the forest cover the
ranges of the children. -/
theorem forest_covers {B : Type} (children : List BuildRecord) (forest : BuildForest B)
    (h : List.Forall₂
      (fun (c : BuildRecord) (tb : BuildTree B × B) =>
        (tb.1.leaves.flatMap BuildRecord.positions ++
          tb.1.queuedRecords.flatMap BuildRecord.positions).Perm c.positions)
      children forest.toList) :
    (forest.leaves.flatMap BuildRecord.positions ++
      forest.queuedRecords.flatMap BuildRecord.positions).Perm
      (children.flatMap BuildRecord.positions) := by
  rw [BuildForest.leaves_eq, BuildForest.queuedRecords_eq]
  exact forall2_covers children forest.toList h

theorem forest_no_queued {B : Type} (forest : BuildForest B)
    (h : ∀ tb ∈ forest.toList, tb.1.queuedRecords = []) : forest.queuedRecords = [] := by
  rw [BuildForest.queuedRecords_eq]
  apply List.flatMap_eq_nil_iff.mpr
  exact h

theorem forest_leaves_all {B : Type} (forest : BuildForest B) (p : BuildRecord → Prop)
    (h : ∀ tb ∈ forest.toList, ∀ l ∈ tb.1.leaves, p l) : ∀ l ∈ forest.leaves, p l := by
  rw [BuildForest.leaves_eq]
  intro l hl
  obtain ⟨tb, htb, hl⟩ := List.mem_flatMap.mp hl
  exact h tb htb l hl

/-- `createLeaf` for `minLeafSize >= 1` on a record `[begin,end)` with
`end <= 2^31`: it returns; a record of at most `minLeafSize` items becomes one
small leaf, a larger one a node with four children; the leaves cover the range,
hold at most `minLeafSize` items each, and nothing is queued. -/
theorem createLeaf_spec {B : Type} (b : BVH4BuilderMortonGeneral B) (morton : Nat → Nat)
    (hmin : 1 ≤ b.minLeafSize) :
    ∀ (fuel : Nat) (current : BuildRecord), current.begin ≤ current.end_ →
      current.end_ ≤ 2147483648 → current.end_ - current.begin < fuel →
      ∃ tree bounds, b.createLeaf morton fuel current = some (tree, bounds) ∧
        (current.size ≤ b.minLeafSize →
          tree = BuildTree.smallLeaf current (b.createSmallLeaf morton current)) ∧
        (b.minLeafSize < current.size →
          ∃ forest, tree = BuildTree.node forest ∧ forest.toList.length = 4) ∧
        (tree.leaves.flatMap BuildRecord.positions).Perm current.positions ∧
        tree.queuedRecords = [] ∧
        (∀ l ∈ tree.leaves, l.size ≤ b.minLeafSize) := by
  have hU := UINT_val
  intro fuel
  induction fuel with
  | zero => intro current _ _ h; omega
  | succ fuel ih =>
    intro current hbe hend hfuel
    have hsz := BuildRecord.size_exact current hbe (by omega)
    unfold BVH4BuilderMortonGeneral.createLeaf
    by_cases hsmall : current.size ≤ b.minLeafSize
    · rw [if_pos hsmall]
      refine ⟨_, _, rfl, fun _ => rfl, fun h => by omega, ?_, rfl, ?_⟩
      · simp [BuildTree.leaves]
      · intro l hl
        simp only [BuildTree.leaves, List.mem_singleton] at hl
        rw [hl]
        exact hsmall
    · rw [if_neg hsmall]
      have h0 := splitFallback_exact current (by omega)
      have h1 := splitFallback_exact ⟨current.begin, (current.begin + current.end_) / 2, 1⟩
        (show current.begin + (current.begin + current.end_) / 2 < UINT by omega)
      have h2 := splitFallback_exact ⟨(current.begin + current.end_) / 2, current.end_, 1⟩
        (show (current.begin + current.end_) / 2 + current.end_ < UINT by omega)
      simp only [h0, h1, h2]
      obtain ⟨st1, forest, bounds1, hfc, _, hall, _⟩ :=
        forChildren_spec b.extend
          (fun (_ : Unit) child =>
            match b.createLeaf morton fuel { child with depth := addU current.depth 1 } with
            | none => none
            | some r => some ((), r))
          (fun _ => True)
          (fun c tree _ =>
            (tree.leaves.flatMap BuildRecord.positions).Perm c.positions ∧
            tree.queuedRecords = [] ∧ (∀ l ∈ tree.leaves, l.size ≤ b.minLeafSize))
          [⟨current.begin, (current.begin + (current.begin + current.end_) / 2) / 2, 1⟩,
            ⟨(current.begin + (current.begin + current.end_) / 2) / 2,
              (current.begin + current.end_) / 2, 1⟩,
            ⟨(current.begin + current.end_) / 2,
              ((current.begin + current.end_) / 2 + current.end_) / 2, 1⟩,
            ⟨((current.begin + current.end_) / 2 + current.end_) / 2, current.end_, 1⟩]
          () b.empty trivial
          (by
            intro st child hchild _
            have hv : child.begin ≤ child.end_ ∧ child.end_ ≤ 2147483648 ∧
                child.end_ - child.begin < fuel := by
              simp only [List.mem_cons, List.mem_singleton, List.not_mem_nil, or_false] at hchild
              rcases hchild with h | h | h | h <;> rw [h] <;> dsimp only <;>
                exact ⟨by omega, by omega, by omega⟩
            obtain ⟨tree, bounds, hc, _, _, hp, hq, hl⟩ :=
              ih { child with depth := addU current.depth 1 } hv.1 hv.2.1 hv.2.2
            exact ⟨(), tree, bounds, by simp only [hc], trivial, hp, hq, hl⟩)
      rw [hfc]
      refine ⟨_, _, rfl, fun h => absurd h hsmall, fun _ => ⟨forest, rfl, ?_⟩, ?_, ?_, ?_⟩
      · have := hall.length_eq
        simpa using this.symm
      · have hcov := forest_covers _ forest
          (hall.imp (fun c tb h => by
            rw [h.2.1, List.flatMap_nil, List.append_nil]
            exact h.1))
        have hq := forest_no_queued forest
          (forall2_right _ (fun tb => tb.1.queuedRecords = []) _ _ hall
            (fun _ _ _ h => h.2.1))
        rw [hq, List.flatMap_nil, List.append_nil] at hcov
        simp only [BuildTree.leaves]
        refine hcov.trans ?_
        simp only [List.flatMap_cons, List.flatMap_nil, List.append_nil]
        rw [BuildRecord.positions_split _ _ _ 1 1 1 (by omega) (by omega),
          BuildRecord.positions_split _ _ _ 1 1 1 (by omega) (by omega),
          BuildRecord.positions_split _ _ _ current.depth 1 1 (by omega) (by omega)]
      · simp only [BuildTree.queuedRecords]
        exact forest_no_queued forest
          (forall2_right _ (fun tb => tb.1.queuedRecords = []) _ _ hall
            (fun _ _ _ h => h.2.1))
      · simp only [BuildTree.leaves]
        exact forest_leaves_all forest _
          (forall2_right _ (fun tb => ∀ l ∈ tb.1.leaves, l.size ≤ b.minLeafSize) _ _ hall
            (fun _ _ _ h => h.2.2))

theorem BVH4.N_val : BVH4.N = 4 := rfl

/-- `recurse` in either mode, for `minLeafSize >= 1`, on a record
`[begin,end)` with `end <= 2^31`: it returns, and the leaves it creates
together with the records it queues cover the range, each index once; outside
the top-level mode nothing is queued. -/
theorem recurse_spec {B : Type} (b : BVH4BuilderMortonGeneral B) (hmin : 1 ≤ b.minLeafSize)
    (hmax : b.maxBuildDepth < UINT) (mode : Nat) :
    ∀ (fuel : Nat) (morton : Nat → Nat) (current : BuildRecord),
      current.begin ≤ current.end_ → current.end_ ≤ 2147483648 →
      (b.maxBuildDepth - current.depth) + (current.end_ - current.begin) + 2 ≤ fuel →
      ∃ morton1 tree bounds, b.recurse fuel morton current mode = some (morton1, tree, bounds) ∧
        (tree.leaves.flatMap BuildRecord.positions ++
          tree.queuedRecords.flatMap BuildRecord.positions).Perm current.positions ∧
        (mode ≠ CREATE_TOP_LEVEL → tree.queuedRecords = []) := by
  have hU := UINT_val
  intro fuel
  induction fuel with
  | zero => intro morton current _ _ h; omega
  | succ fuel ih =>
    intro morton current hbe hend hfuel
    have hsz := BuildRecord.size_exact current hbe (by omega)
    unfold BVH4BuilderMortonGeneral.recurse
    by_cases hq : mode = CREATE_TOP_LEVEL ∧ current.size ≤ b.topLevelItemThreshold
    · rw [if_pos hq]
      refine ⟨_, _, _, rfl, ?_, fun h => absurd hq.1 h⟩
      simp [BuildTree.leaves, BuildTree.queuedRecords]
    · rw [if_neg hq]
      by_cases hleaf : current.depth ≥ b.maxBuildDepth ∨ current.size ≤ b.minLeafSize
      · rw [if_pos hleaf]
        obtain ⟨tree, bounds, hc, _, _, hp, hnq, _⟩ :=
          createLeaf_spec b morton hmin fuel current hbe hend (by omega)
        refine ⟨morton, tree, bounds, by simp only [hc], ?_, fun _ => hnq⟩
        rw [hnq, List.flatMap_nil, List.append_nil]
        exact hp
      · rw [if_neg hleaf]
        have hd : current.depth < b.maxBuildDepth := by omega
        have hbig : b.minLeafSize < current.size := by omega
        have hadd : addU current.depth 1 = current.depth + 1 := addU_exact (by omega)
        obtain ⟨morton1, children, hg, hlen1, hlen2, _, hvalid, hperm, hdep⟩ :=
          growChildren_spec b fuel current.depth current.begin current.end_ hend (by omega)
            BVH4.N morton [current] (by simp) (by simp [BVH4.N_val]) (by simp)
            (by
              intro c hc
              rw [List.mem_singleton] at hc
              rw [hc]
              exact ⟨le_refl _, hbe, le_refl _⟩)
            (Or.inl rfl)
        have hdep1 : 1 < children.length ∧ ∀ c ∈ children, c.depth = current.depth + 1 := by
          rcases hdep with ⟨_, hnone⟩ | ⟨h1, h2⟩
          · exfalso
            have := findBestChild_isBestChild b.minLeafSize [current]
            rw [hnone] at this
            have := this current (List.mem_singleton.mpr rfl)
            omega
          · rw [hadd] at h2
            exact ⟨by simpa using h1, h2⟩
        simp only [hg]
        rw [if_neg (by omega)]
        obtain ⟨morton2, forest, bounds1, hfc, _, hall, _⟩ :=
          forChildren_spec b.extend
            (fun m child =>
              if child.size ≤ b.minLeafSize then
                match b.createLeaf m fuel child with
                | none => none
                | some r => some (m, r)
              else b.recurse fuel m child mode)
            (fun _ => True)
            (fun c tree _ =>
              (tree.leaves.flatMap BuildRecord.positions ++
                tree.queuedRecords.flatMap BuildRecord.positions).Perm c.positions ∧
              (mode ≠ CREATE_TOP_LEVEL → tree.queuedRecords = []))
            children morton1 b.empty trivial
            (by
              intro m child hchild _
              obtain ⟨hv1, hv2, hv3⟩ := hvalid child hchild
              by_cases hs : child.size ≤ b.minLeafSize
              · obtain ⟨tree, bounds, hc, _, _, hp, hnq, _⟩ :=
                  createLeaf_spec b m hmin fuel child hv2 (by omega) (by omega)
                refine ⟨m, tree, bounds, by simp only [if_pos hs, hc], trivial, ?_, fun _ => hnq⟩
                rw [hnq, List.flatMap_nil, List.append_nil]
                exact hp
              · have hcd := hdep1.2 child hchild
                obtain ⟨m1, tree, bounds, hc, hp, hnq⟩ :=
                  ih m child hv2 (by omega) (by rw [hcd]; omega)
                exact ⟨m1, tree, bounds, by simp only [if_neg hs, hc], trivial, hp, hnq⟩)
        rw [hfc]
        refine ⟨morton2, _, bounds1, rfl, ?_, ?_⟩
        · simp only [BuildTree.leaves, BuildTree.queuedRecords]
          have hcov := forest_covers children forest (hall.imp (fun c tb h => h.1))
          refine hcov.trans (hperm.trans ?_)
          simp
        · intro hm
          simp only [BuildTree.queuedRecords]
          exact forest_no_queued forest
            (forall2_right _ (fun tb => tb.1.queuedRecords = []) _ _ hall
              (fun _ _ _ h => h.2 hm))

/-! ## The claims about `recurse` -/

/-- Claim C17 (as amended): node growth in `recurse`, for a record
`[begin,end)` with more than `minLeafSize` items, `end <= 2^31` (so that no
index midpoint overflows) and `depth + 1 < 2^32`.  The child found by the loop
over the children is one with the largest item count among the children
holding more than `minLeafSize` items, the lowest index on ties; the growth loop
stops when there is none and otherwise splits exactly that child, stopping
once there are `BVH4::N = 4` children.  Started on the record it ends with
between 2 and 4 children, 4 of them unless no child holds more than
`minLeafSize` items; every child has depth `current.depth + 1` and a range
inside the record's, and the ranges of the children are pairwise disjoint with
union the record's range. -/
theorem recurse_growth_loop {B : Type} (b : BVH4BuilderMortonGeneral B) (fuel : Nat)
    (morton : Nat → Nat) (current : BuildRecord)
    (hbe : current.begin ≤ current.end_) (hend : current.end_ ≤ 2147483648)
    (hsize : b.minLeafSize < current.size) (hdepth : current.depth + 1 < UINT)
    (hfuel : current.end_ - current.begin ≤ fuel) :
    (∀ children,
      IsBestChild b.minLeafSize children (findBestChild b.minLeafSize children 0 none 0)) ∧
    (∀ n m children, findBestChild b.minLeafSize children 0 none 0 = none →
      b.growChildren fuel current.depth (n + 1) m children = some (m, children)) ∧
    (∀ n m children k best last r,
      findBestChild b.minLeafSize children 0 none 0 = some k →
      children[k]? = some best → children[children.length - 1]? = some last →
      b.split fuel m best = some r →
      b.growChildren fuel current.depth (n + 1) m children =
        if children.length + 1 < BVH4.N then
          b.growChildren fuel current.depth n r.morton
            (((children.set k last).set (children.length - 1)
              { r.left with depth := addU current.depth 1 }) ++
              [{ r.right with depth := addU current.depth 1 }])
        else
          some (r.morton,
            ((children.set k last).set (children.length - 1)
              { r.left with depth := addU current.depth 1 }) ++
              [{ r.right with depth := addU current.depth 1 }])) ∧
    ∃ morton1 children,
      b.growChildren fuel current.depth BVH4.N morton [current] = some (morton1, children) ∧
      2 ≤ children.length ∧ children.length ≤ 4 ∧
      (children.length = 4 ∨ ∀ c ∈ children, c.size ≤ b.minLeafSize) ∧
      (∀ c ∈ children, c.depth = current.depth + 1 ∧
        current.begin ≤ c.begin ∧ c.begin ≤ c.end_ ∧ c.end_ ≤ current.end_) ∧
      (children.flatMap BuildRecord.positions).Perm current.positions := by
  refine ⟨findBestChild_isBestChild b.minLeafSize, ?_, ?_, ?_⟩
  · intro n m children h
    unfold BVH4BuilderMortonGeneral.growChildren
    simp only [h]
  · intro n m children k best last r h hbest hlast hsplit
    conv_lhs => unfold BVH4BuilderMortonGeneral.growChildren
    simp only [h, hbest, hlast, hsplit, List.length_append, List.length_set, List.length_singleton]
  · obtain ⟨morton1, children, hg, _, hlen2, hstop, hvalid, hperm, hdep⟩ :=
      growChildren_spec b fuel current.depth current.begin current.end_ hend (by omega)
        BVH4.N morton [current] (by simp) (by simp [BVH4.N_val]) (by simp)
        (by
          intro c hc
          rw [List.mem_singleton] at hc
          rw [hc]
          exact ⟨le_refl _, hbe, le_refl _⟩)
        (Or.inl rfl)
    rw [BVH4.N_val] at hlen2 hstop
    have hdep1 : 1 < children.length ∧ ∀ c ∈ children, c.depth = current.depth + 1 := by
      rcases hdep with ⟨_, hnone⟩ | ⟨h1, h2⟩
      · exfalso
        have := findBestChild_isBestChild b.minLeafSize [current]
        rw [hnone] at this
        have := this current (List.mem_singleton.mpr rfl)
        omega
      · rw [addU_exact hdepth] at h2
        exact ⟨by simpa using h1, h2⟩
    refine ⟨morton1, children, hg, by omega, hlen2, hstop,
      fun c hc => ⟨hdep1.2 c hc, hvalid c hc⟩, ?_⟩
    simpa using hperm

theorem recurse_growth_loop_witness :
    ∃ morton1 children,
      (exampleBuilder 1 2 32).growChildren 5 1 BVH4.N (fun i => i) [⟨0, 5, 1⟩] =
        some (morton1, children) ∧
      2 ≤ children.length ∧ children.length ≤ 4 ∧
      (children.length = 4 ∨ ∀ c ∈ children, c.size ≤ (exampleBuilder 1 2 32).minLeafSize) ∧
      (∀ c ∈ children, c.depth = 1 + 1 ∧ 0 ≤ c.begin ∧ c.begin ≤ c.end_ ∧ c.end_ ≤ 5) ∧
      (children.flatMap BuildRecord.positions).Perm (BuildRecord.positions ⟨0, 5, 1⟩) :=
  (recurse_growth_loop (exampleBuilder 1 2 32) 5 (fun i => i) ⟨0, 5, 1⟩
    (by decide) (by decide) (by decide) (by decide) (by decide)).2.2.2

/-- Claim C17 fails as stated.  The record `[2^31, 2^31 + 2)` with all codes
equal and `minLeafSize = 1` is split at the 32-bit midpoint
`(2^31 + 2^31 + 2) mod 2^32 / 2 = 1`; the growth loop ends with the four
children `[1, 2^31+2)`, `[2^31, 2^30)`, `[2^30, 2^29)`, `[2^29, 1)`, which do
not partition the record's range: the first one holds the index 1. -/
theorem growth_loop_midpoint_wraps :
    (exampleBuilder 1 2 32).minLeafSize < BuildRecord.size ⟨2147483648, 2147483650, 1⟩ ∧
    (((exampleBuilder 1 2 32).growChildren 2 1 BVH4.N (fun _ => 0)
        [⟨2147483648, 2147483650, 1⟩]).map Prod.snd) =
      some [⟨1, 2147483650, 2⟩, ⟨2147483648, 1073741824, 2⟩, ⟨1073741824, 536870912, 2⟩,
        ⟨536870912, 1, 2⟩] := by
  refine ⟨by decide, by decide⟩

/-- `createLeaf` does not return when the call for its first fallback child
does not. -/
theorem createLeaf_first_child {B : Type} (b : BVH4BuilderMortonGeneral B)
    (morton : Nat → Nat) (fuel : Nat) (current : BuildRecord)
    (hbig : ¬ current.size ≤ b.minLeafSize)
    (hchild : b.createLeaf morton fuel
      { (splitFallback (splitFallback current).1).1 with depth := addU current.depth 1 } =
        none) :
    b.createLeaf morton (fuel + 1) current = none := by
  unfold BVH4BuilderMortonGeneral.createLeaf
  rw [if_neg hbig]
  simp only [forChildren, hchild]

/-- A record `[2^31, end)` with `1 <= end < 2^31`, as the wrapped midpoint
leaves behind, has `end + 2^31` items in 32-bit arithmetic, and so has its
first fallback child: `createLeaf` runs out of every fuel on it. -/
theorem createLeaf_diverges {B : Type} (b : BVH4BuilderMortonGeneral B) (morton : Nat → Nat)
    (hmin : b.minLeafSize ≤ 2147483648) :
    ∀ (fuel : Nat) (current : BuildRecord), current.begin = 2147483648 →
      1 ≤ current.end_ → current.end_ < 2147483648 →
      b.createLeaf morton fuel current = none := by
  have hU := UINT_val
  intro fuel
  induction fuel with
  | zero => intro current _ _ _; rfl
  | succ fuel ih =>
    intro current hb h1 h2
    have hsz : current.size = current.end_ + 2147483648 := by
      unfold BuildRecord.size subU
      rw [hb, hU]
      omega
    apply createLeaf_first_child b morton fuel current (by omega)
    have hs1 : (splitFallback current).1 =
        ⟨2147483648, (2147483648 + current.end_) / 2, 1⟩ := by
      rw [splitFallback_exact current (by omega), hb]
    have hs2 : (splitFallback (splitFallback current).1).1 =
        ⟨2147483648, (2147483648 + (2147483648 + current.end_) / 2) / 2, 1⟩ := by
      rw [hs1, splitFallback_exact _ (by dsimp only; omega)]
    rw [hs2]
    exact ih _ rfl (by dsimp only; omega) (by dsimp only; omega)

/-- Claim C18 (as amended): for `minLeafSize >= 1` and every record
`[begin,end)` with `begin <= end <= 2^31` (sizes 0 and 1 included, codes sorted
or not), `recurse` in `RECURSE` mode terminates, queues nothing, and the ranges
it hands to `createSmallLeaf` are pairwise disjoint with union exactly
`[begin,end)`: listed one after the other, their indices are a permutation of
`begin, ..., end-1`. -/
theorem recurse_leaves_partition {B : Type} (b : BVH4BuilderMortonGeneral B) (fuel : Nat)
    (morton : Nat → Nat) (current : BuildRecord)
    (hmin : 1 ≤ b.minLeafSize) (hmax : b.maxBuildDepth < UINT)
    (hbe : current.begin ≤ current.end_) (hend : current.end_ ≤ 2147483648)
    (hfuel : (b.maxBuildDepth - current.depth) + (current.end_ - current.begin) + 2 ≤ fuel) :
    ∃ morton1 tree bounds, b.recurse fuel morton current RECURSE = some (morton1, tree, bounds) ∧
      (tree.leaves.flatMap BuildRecord.positions).Perm
        (List.range' current.begin (current.end_ - current.begin)) ∧
      tree.queuedRecords = [] := by
  obtain ⟨morton1, tree, bounds, h, hp, hq⟩ :=
    recurse_spec b hmin hmax RECURSE fuel morton current hbe hend hfuel
  have hq1 := hq (by decide)
  rw [hq1, List.flatMap_nil, List.append_nil] at hp
  exact ⟨morton1, tree, bounds, h, hp, hq1⟩

theorem recurse_leaves_partition_witness :
    ∃ morton1 tree bounds,
      (exampleBuilder 1 2 32).recurse 38 (fun i => i) ⟨0, 5, 1⟩ RECURSE =
        some (morton1, tree, bounds) ∧
      (tree.leaves.flatMap BuildRecord.positions).Perm (List.range' 0 (5 - 0)) ∧
      tree.queuedRecords = [] :=
  recurse_leaves_partition (exampleBuilder 1 2 32) 38 (fun i => i) ⟨0, 5, 1⟩
    (by decide) (by decide) (by decide) (by decide) (by decide)

/-- Claim C18 fails as stated.  The record `[2^31, 2^31 + 2)` at the depth
limit, with `minLeafSize = 1` and all codes equal (sorted), goes to
`createLeaf`, whose 32-bit midpoint `(2^31 + 2^31 + 2) mod 2^32 / 2 = 1` makes
the first child `[2^31, 2^30)`, a record of `2^30 - 2^31 mod 2^32` items whose
first child is again of this kind: `recurse` does not return, whatever the
fuel. -/
theorem recurse_diverges_when_midpoint_wraps :
    1 ≤ (exampleBuilder 1 0 1).minLeafSize ∧
    (∀ fuel, (exampleBuilder 1 0 1).recurse fuel (fun _ => 0) ⟨2147483648, 2147483650, 1⟩
      RECURSE = none) := by
  refine ⟨by decide, ?_⟩
  intro fuel
  cases fuel with
  | zero => rfl
  | succ fuel =>
    have hleaf : (exampleBuilder 1 0 1).createLeaf (fun _ => 0) fuel
        ⟨2147483648, 2147483650, 1⟩ = none := by
      cases fuel with
      | zero => rfl
      | succ fuel =>
        apply createLeaf_first_child _ _ _ _ (by decide)
        exact createLeaf_diverges _ _ (by decide) fuel _ (by decide) (by decide) (by decide)
    unfold BVH4BuilderMortonGeneral.recurse
    rw [if_neg (by decide), if_pos (by decide), hleaf]

/-- Claim C19 (as amended): in `CREATE_TOP_LEVEL` mode `recurse` called on a
record of at most `topLevelItemThreshold` items queues it: the record is
appended unchanged to `buildRecords`, no node and no leaf is created for it,
the codes are not touched and empty bounds are returned.  Children of at most
`minLeafSize` items and records at the depth limit do become leaves in the
top-level phase; for `minLeafSize >= 1` and `begin <= end <= 2^31` the phase
terminates and the queued records together with the leaves created are
pairwise disjoint and cover the input range. -/
theorem recurse_top_level_queues {B : Type} (b : BVH4BuilderMortonGeneral B) (fuel : Nat)
    (morton : Nat → Nat) (current : BuildRecord)
    (hmin : 1 ≤ b.minLeafSize) (hmax : b.maxBuildDepth < UINT)
    (hbe : current.begin ≤ current.end_) (hend : current.end_ ≤ 2147483648)
    (hfuel : (b.maxBuildDepth - current.depth) + (current.end_ - current.begin) + 2 ≤ fuel) :
    (∀ (m : Nat → Nat) (r : BuildRecord) (n : Nat), r.size ≤ b.topLevelItemThreshold →
      b.recurse (n + 1) m r CREATE_TOP_LEVEL = some (m, BuildTree.queued r, b.empty) ∧
      (BuildTree.queued r : BuildTree B).queuedRecords = [r] ∧
      (BuildTree.queued r : BuildTree B).leaves = [] ∧
      (BuildTree.queued r : BuildTree B).nodeCount = 0) ∧
    ∃ morton1 tree bounds,
      b.recurse fuel morton current CREATE_TOP_LEVEL = some (morton1, tree, bounds) ∧
      (tree.queuedRecords.flatMap BuildRecord.positions ++
        tree.leaves.flatMap BuildRecord.positions).Perm
        (List.range' current.begin (current.end_ - current.begin)) := by
  refine ⟨?_, ?_⟩
  · intro m r n hr
    refine ⟨?_, rfl, rfl, rfl⟩
    unfold BVH4BuilderMortonGeneral.recurse
    rw [if_pos ⟨rfl, hr⟩]
  · obtain ⟨morton1, tree, bounds, h, hp, _⟩ :=
      recurse_spec b hmin hmax CREATE_TOP_LEVEL fuel morton current hbe hend hfuel
    exact ⟨morton1, tree, bounds, h, List.perm_append_comm.trans hp⟩

theorem recurse_top_level_queues_witness :
    ∃ morton1 tree bounds,
      (exampleBuilder 1 2 32).recurse 38 (fun i => i) ⟨0, 5, 1⟩ CREATE_TOP_LEVEL =
        some (morton1, tree, bounds) ∧
      (tree.queuedRecords.flatMap BuildRecord.positions ++
        tree.leaves.flatMap BuildRecord.positions).Perm (List.range' 0 (5 - 0)) :=
  (recurse_top_level_queues (exampleBuilder 1 2 32) 38 (fun i => i) ⟨0, 5, 1⟩
    (by decide) (by decide) (by decide) (by decide) (by decide)).2

/-- Claim C19 fails as stated.  With `minLeafSize = 1` and
`topLevelItemThreshold = 2`, the top-level phase on the record `[0,5)` with the
codes `0,1,2,3,4` grows the node with the children `[4,5)`, `[2,4)`, `[0,1)`,
`[1,2)`: the three children of one item go to `createLeaf` and become leaves
in the top-level phase, and the only record queued is `[2,4)`, which does not
cover `[0,5)`. -/
theorem top_level_phase_creates_leaves :
    ((exampleBuilder 1 2 32).recurse 4 (fun i => i) ⟨0, 5, 1⟩ CREATE_TOP_LEVEL).map
      (fun r => (r.2.1.leaves, r.2.1.queuedRecords, r.2.1.nodeCount)) =
      some ([⟨4, 5, 2⟩, ⟨0, 1, 2⟩, ⟨1, 2, 2⟩], [⟨2, 4, 2⟩], 1) := by
  decide!

/-- Claim C20 (as amended): when `recurse` is called on a record whose depth
has reached the maximum build depth (and that is not queued by the top-level
phase), it returns what `createLeaf` builds, without error in the build
without `DEBUG`.  The whole range becomes one leaf, by one call of
`createSmallLeaf` with the full range and without a node, when the record holds
at most `minLeafSize` items.  A larger record becomes a node with four
children; for `minLeafSize >= 1` and `begin <= end <= 2^31` the leaves below it
hold at most `minLeafSize` items each and partition the range. -/
theorem recurse_at_depth_limit {B : Type} (b : BVH4BuilderMortonGeneral B) (fuel : Nat)
    (morton : Nat → Nat) (current : BuildRecord) (mode : Nat)
    (hdepth : b.maxBuildDepth ≤ current.depth)
    (hq : mode = CREATE_TOP_LEVEL → b.topLevelItemThreshold < current.size)
    (hmin : 1 ≤ b.minLeafSize)
    (hbe : current.begin ≤ current.end_) (hend : current.end_ ≤ 2147483648)
    (hfuel : current.end_ - current.begin < fuel) :
    ∃ tree bounds,
      b.recurse (fuel + 1) morton current mode = some (morton, tree, bounds) ∧
      b.createLeaf morton fuel current = some (tree, bounds) ∧
      (current.size ≤ b.minLeafSize →
        tree = BuildTree.smallLeaf current (b.createSmallLeaf morton current) ∧
        tree.leaves = [current] ∧ tree.nodeCount = 0) ∧
      (b.minLeafSize < current.size →
        ∃ forest, tree = BuildTree.node forest ∧ forest.length = 4 ∧ 1 ≤ tree.nodeCount) ∧
      (tree.leaves.flatMap BuildRecord.positions).Perm
        (List.range' current.begin (current.end_ - current.begin)) ∧
      (∀ l ∈ tree.leaves, l.size ≤ b.minLeafSize) := by
  obtain ⟨tree, bounds, hc, hsmall, hbig, hp, _, hl⟩ :=
    createLeaf_spec b morton hmin fuel current hbe hend hfuel
  refine ⟨tree, bounds, ?_, hc, ?_, ?_, hp, hl⟩
  · unfold BVH4BuilderMortonGeneral.recurse
    have hnq : ¬ (mode = CREATE_TOP_LEVEL ∧ current.size ≤ b.topLevelItemThreshold) := by
      rintro ⟨h1, h2⟩
      have := hq h1
      omega
    rw [if_neg hnq, if_pos (Or.inl hdepth), hc]
  · intro h
    have := hsmall h
    subst this
    exact ⟨rfl, rfl, rfl⟩
  · intro h
    obtain ⟨forest, hf, hlen⟩ := hbig h
    subst hf
    refine ⟨forest, rfl, ?_, ?_⟩
    · rw [BuildForest.length_eq, hlen]
    · simp [BuildTree.nodeCount]

theorem recurse_at_depth_limit_witness :
    ∃ tree bounds,
      (exampleBuilder 1 2 1).recurse (3 + 1) (fun i => i) ⟨0, 2, 1⟩ RECURSE =
        some (fun i => i, tree, bounds) ∧
      (exampleBuilder 1 2 1).createLeaf (fun i => i) 3 ⟨0, 2, 1⟩ = some (tree, bounds) ∧
      (BuildRecord.size ⟨0, 2, 1⟩ ≤ (exampleBuilder 1 2 1).minLeafSize →
        tree = BuildTree.smallLeaf ⟨0, 2, 1⟩
          ((exampleBuilder 1 2 1).createSmallLeaf (fun i => i) ⟨0, 2, 1⟩) ∧
        tree.leaves = [⟨0, 2, 1⟩] ∧ tree.nodeCount = 0) ∧
      ((exampleBuilder 1 2 1).minLeafSize < BuildRecord.size ⟨0, 2, 1⟩ →
        ∃ forest, tree = BuildTree.node forest ∧ forest.length = 4 ∧ 1 ≤ tree.nodeCount) ∧
      (tree.leaves.flatMap BuildRecord.positions).Perm (List.range' 0 (2 - 0)) ∧
      (∀ l ∈ tree.leaves, l.size ≤ (exampleBuilder 1 2 1).minLeafSize) :=
  recurse_at_depth_limit (exampleBuilder 1 2 1) 3 (fun i => i) ⟨0, 2, 1⟩ RECURSE
    (by decide) (by decide) (by decide) (by decide) (by decide) (by decide)

/-- Claim C20 fails as stated.  With maximum build depth 1 and
`minLeafSize = 1`, `recurse` on the record `[0,2)` of depth 1 allocates a node
and calls `createSmallLeaf` four times, for `[0,0)`, `[0,1)`, `[1,1)` and
`[1,2)`: the range is not forced into one leaf. -/
theorem depth_limit_still_splits :
    (exampleBuilder 1 2 1).maxBuildDepth ≤ (⟨0, 2, 1⟩ : BuildRecord).depth ∧
    ((exampleBuilder 1 2 1).recurse 3 (fun i => i) ⟨0, 2, 1⟩ RECURSE).map
      (fun r => (r.2.1.leaves, r.2.1.nodeCount)) =
      some ([⟨0, 0, 2⟩, ⟨0, 1, 2⟩, ⟨1, 1, 2⟩, ⟨1, 2, 2⟩], 1) := by
  refine ⟨by decide, by decide⟩

/-! ## The claims about `createLeaf` -/

/-- The four fallback children of `createLeaf` for a record `[begin,end)` of
`n` items with `begin <= end <= 2^31`: consecutive ranges from `begin` to
`end`, each of `floor(n/4)` to `ceil(n/4)` items. -/
theorem fallback_children_spec (current : BuildRecord)
    (hend : current.end_ ≤ 2147483648) (hne : current.begin < current.end_) :
    ∃ c0 c1 c2,
      (splitFallback (splitFallback current).1).1 = ⟨current.begin, c0, 1⟩ ∧
      (splitFallback (splitFallback current).1).2 = ⟨c0, c1, 1⟩ ∧
      (splitFallback (splitFallback current).2).1 = ⟨c1, c2, 1⟩ ∧
      (splitFallback (splitFallback current).2).2 = ⟨c2, current.end_, 1⟩ ∧
      current.begin ≤ c0 ∧ c0 ≤ c1 ∧ c1 ≤ c2 ∧ c2 ≤ current.end_ ∧
      (current.end_ - current.begin) / 4 ≤ c0 - current.begin ∧
      c0 - current.begin ≤ (current.end_ - current.begin + 3) / 4 ∧
      (current.end_ - current.begin) / 4 ≤ c1 - c0 ∧
      c1 - c0 ≤ (current.end_ - current.begin + 3) / 4 ∧
      (current.end_ - current.begin) / 4 ≤ c2 - c1 ∧
      c2 - c1 ≤ (current.end_ - current.begin + 3) / 4 ∧
      (current.end_ - current.begin) / 4 ≤ current.end_ - c2 ∧
      current.end_ - c2 ≤ (current.end_ - current.begin + 3) / 4 := by
  have hU := UINT_val
  have h0 := splitFallback_exact current (by omega)
  have h1 := splitFallback_exact ⟨current.begin, (current.begin + current.end_) / 2, 1⟩
    (show current.begin + (current.begin + current.end_) / 2 < UINT by omega)
  have h2 := splitFallback_exact ⟨(current.begin + current.end_) / 2, current.end_, 1⟩
    (show (current.begin + current.end_) / 2 + current.end_ < UINT by omega)
  refine ⟨(current.begin + (current.begin + current.end_) / 2) / 2,
    (current.begin + current.end_) / 2,
    ((current.begin + current.end_) / 2 + current.end_) / 2, ?_, ?_, ?_, ?_, ?_⟩
  · rw [h0, h1]
  · rw [h0, h1]
  · rw [h0, h2]
  · rw [h0, h2]
  · omega

/-- Claim C29 (as amended): for `minLeafSize >= 1` and every record
`[begin,end)` with `begin <= end <= 2^31`, `createLeaf` terminates, the ranges
it hands to `createSmallLeaf` hold at most `minLeafSize` items each and
partition the range, and a record of `n > minLeafSize` items becomes a node
whose four children are what `createLeaf` builds for four consecutive ranges
`[begin,c0)`, `[c0,c1)`, `[c1,c2)`, `[c2,end)`, each of `floor(n/4)` to
`ceil(n/4)` items and each again with `begin <= end <= 2^31`, so that the same
holds at every level. -/
theorem createLeaf_terminates_balanced {B : Type} (b : BVH4BuilderMortonGeneral B)
    (morton : Nat → Nat) (fuel : Nat) (current : BuildRecord)
    (hmin : 1 ≤ b.minLeafSize) (hbe : current.begin ≤ current.end_)
    (hend : current.end_ ≤ 2147483648) (hfuel : current.end_ - current.begin ≤ fuel) :
    ∃ tree bounds, b.createLeaf morton (fuel + 1) current = some (tree, bounds) ∧
      (∀ l ∈ tree.leaves, l.size ≤ b.minLeafSize) ∧
      (tree.leaves.flatMap BuildRecord.positions).Perm
        (List.range' current.begin (current.end_ - current.begin)) ∧
      (b.minLeafSize < current.size →
        ∃ c0 c1 c2 forest,
          (splitFallback (splitFallback current).1).1 = ⟨current.begin, c0, 1⟩ ∧
          (splitFallback (splitFallback current).1).2 = ⟨c0, c1, 1⟩ ∧
          (splitFallback (splitFallback current).2).1 = ⟨c1, c2, 1⟩ ∧
          (splitFallback (splitFallback current).2).2 = ⟨c2, current.end_, 1⟩ ∧
          current.begin ≤ c0 ∧ c0 ≤ c1 ∧ c1 ≤ c2 ∧ c2 ≤ current.end_ ∧
          (∀ c ∈ [BuildRecord.mk current.begin c0 1, BuildRecord.mk c0 c1 1,
              BuildRecord.mk c1 c2 1, BuildRecord.mk c2 current.end_ 1],
            current.size / 4 ≤ c.size ∧ c.size ≤ (current.size + 3) / 4) ∧
          tree = BuildTree.node forest ∧
          List.Forall₂
            (fun (c : BuildRecord) (tb : BuildTree B × B) =>
              b.createLeaf morton fuel { c with depth := addU current.depth 1 } = some tb)
            [BuildRecord.mk current.begin c0 1, BuildRecord.mk c0 c1 1,
              BuildRecord.mk c1 c2 1, BuildRecord.mk c2 current.end_ 1]
            forest.toList) := by
  have hU := UINT_val
  obtain ⟨tree, bounds, hc, _, _, hp, _, hl⟩ :=
    createLeaf_spec b morton hmin (fuel + 1) current hbe hend (by omega)
  refine ⟨tree, bounds, hc, hl, hp, ?_⟩
  intro hbig
  have hsz := BuildRecord.size_exact current hbe (by omega)
  obtain ⟨c0, c1, c2, e0, e1, e2, e3, h0, h1, h2, h3, hs⟩ :=
    fallback_children_spec current hend (by omega)
  obtain ⟨st1, forest, bounds1, hfc, _, hall, _⟩ :=
    forChildren_spec b.extend
      (fun (_ : Unit) child =>
        match b.createLeaf morton fuel { child with depth := addU current.depth 1 } with
        | none => none
        | some r => some ((), r))
      (fun _ => True)
      (fun c tree bounds =>
        b.createLeaf morton fuel { c with depth := addU current.depth 1 } = some (tree, bounds))
      [BuildRecord.mk current.begin c0 1, BuildRecord.mk c0 c1 1,
        BuildRecord.mk c1 c2 1, BuildRecord.mk c2 current.end_ 1]
      () b.empty trivial
      (by
        intro st child hchild _
        have hv : child.begin ≤ child.end_ ∧ child.end_ ≤ 2147483648 ∧
            child.end_ - child.begin < fuel := by
          simp only [List.mem_cons, List.mem_singleton, List.not_mem_nil, or_false] at hchild
          rcases hchild with h | h | h | h <;> rw [h] <;> dsimp only <;>
            exact ⟨by omega, by omega, by omega⟩
        obtain ⟨t, bd, hct, _⟩ :=
          createLeaf_spec b morton hmin fuel { child with depth := addU current.depth 1 }
            hv.1 hv.2.1 hv.2.2
        exact ⟨(), t, bd, by simp only [hct], trivial, hct⟩)
  have hunf : b.createLeaf morton (fuel + 1) current = some (BuildTree.node forest, bounds1) := by
    conv_lhs => unfold BVH4BuilderMortonGeneral.createLeaf
    rw [if_neg (by omega)]
    simp only [e0, e1, e2, e3]
    rw [hfc]
  rw [hunf] at hc
  have htree : tree = BuildTree.node forest := by
    have := Option.some.inj hc
    exact (congrArg Prod.fst this).symm
  refine ⟨c0, c1, c2, forest, e0, e1, e2, e3, h0, h1, h2, h3, ?_, htree, ?_⟩
  · intro c hcm
    simp only [List.mem_cons, List.mem_singleton, List.not_mem_nil, or_false] at hcm
    rcases hcm with h | h | h | h <;> rw [h, hsz] <;>
      rw [BuildRecord.size_exact _ (by dsimp only; omega) (by dsimp only; omega)] <;>
      dsimp only <;> omega
  · exact hall.imp (fun c tb h => h)

theorem createLeaf_terminates_balanced_witness :
    ∃ tree bounds,
      (exampleBuilder 1 2 32).createLeaf (fun i => i) (5 + 1) ⟨0, 5, 1⟩ = some (tree, bounds) ∧
      (∀ l ∈ tree.leaves, l.size ≤ (exampleBuilder 1 2 32).minLeafSize) ∧
      (tree.leaves.flatMap BuildRecord.positions).Perm (List.range' 0 (5 - 0)) ∧
      ((exampleBuilder 1 2 32).minLeafSize < BuildRecord.size ⟨0, 5, 1⟩ →
        ∃ c0 c1 c2 forest,
          (splitFallback (splitFallback ⟨0, 5, 1⟩).1).1 = ⟨0, c0, 1⟩ ∧
          (splitFallback (splitFallback ⟨0, 5, 1⟩).1).2 = ⟨c0, c1, 1⟩ ∧
          (splitFallback (splitFallback ⟨0, 5, 1⟩).2).1 = ⟨c1, c2, 1⟩ ∧
          (splitFallback (splitFallback ⟨0, 5, 1⟩).2).2 = ⟨c2, 5, 1⟩ ∧
          0 ≤ c0 ∧ c0 ≤ c1 ∧ c1 ≤ c2 ∧ c2 ≤ 5 ∧
          (∀ c ∈ [BuildRecord.mk 0 c0 1, BuildRecord.mk c0 c1 1,
              BuildRecord.mk c1 c2 1, BuildRecord.mk c2 5 1],
            BuildRecord.size ⟨0, 5, 1⟩ / 4 ≤ c.size ∧
            c.size ≤ (BuildRecord.size ⟨0, 5, 1⟩ + 3) / 4) ∧
          tree = BuildTree.node forest ∧
          List.Forall₂
            (fun (c : BuildRecord) (tb : BuildTree Unit × Unit) =>
              (exampleBuilder 1 2 32).createLeaf (fun i => i) 5
                { c with depth := addU 1 1 } = some tb)
            [BuildRecord.mk 0 c0 1, BuildRecord.mk c0 c1 1,
              BuildRecord.mk c1 c2 1, BuildRecord.mk c2 5 1]
            forest.toList) :=
  createLeaf_terminates_balanced (exampleBuilder 1 2 32) (fun i => i) 5 ⟨0, 5, 1⟩
    (by decide) (by decide) (by decide) (by decide)

/-- Claim C29 fails as stated.  For the record `[2^31, 2^31 + 2)` and
`minLeafSize = 1` the first fallback split computes the midpoint
`(2^31 + 2^31 + 2) mod 2^32 / 2 = 1` in 32-bit `unsigned int`: the halves are
`[2^31, 1)` and `[1, 2^31 + 2)`, not consecutive parts of the range, the first
of `2^31 + 1` items in 32-bit arithmetic, and `createLeaf` does not return,
whatever the fuel. -/
theorem createLeaf_midpoint_wraps :
    1 ≤ (exampleBuilder 1 0 1).minLeafSize ∧
    splitFallback ⟨2147483648, 2147483650, 1⟩ =
      (⟨2147483648, 1, 1⟩, ⟨1, 2147483650, 1⟩) ∧
    BuildRecord.size ⟨2147483648, 1, 1⟩ = 2147483649 ∧
    (∀ fuel, (exampleBuilder 1 0 1).createLeaf (fun _ => 0) fuel
      ⟨2147483648, 2147483650, 1⟩ = none) := by
  refine ⟨by decide, by decide, by decide, ?_⟩
  intro fuel
  cases fuel with
  | zero => rfl
  | succ fuel =>
    apply createLeaf_first_child _ _ _ _ (by decide)
    exact createLeaf_diverges _ _ (by decide) fuel _ (by decide) (by decide) (by decide)

/-! ## Proofs: the bounds of the trees -/

theorem Box.extend_assoc (a b c : Box) :
    Box.extend (Box.extend a b) c = Box.extend a (Box.extend b c) := by
  unfold Box.extend
  simp only [min_assoc, max_assoc]

theorem Box.empty_extend (a : Box) : Box.extend Box.empty a = a := by
  unfold Box.extend Box.empty
  simp

theorem Box.extend_empty (a : Box) : Box.extend a Box.empty = a := by
  unfold Box.extend Box.empty
  simp

theorem foldl_extend_eq {B : Type} (extend : B → B → B) (empty : B)
    (hassoc : ∀ x y z, extend (extend x y) z = extend x (extend y z))
    (hleft : ∀ x, extend empty x = x) (hright : ∀ x, extend x empty = x) :
    ∀ (boxes : List B) (a : B),
      boxes.foldl extend a = extend a (unionAll extend empty boxes) := by
  intro boxes
  induction boxes with
  | nil => intro a; simp [unionAll, hright]
  | cons y ys ih =>
    intro a
    simp only [List.foldl_cons, unionAll]
    rw [ih (extend a y), hleft y, ih y, hassoc]

theorem unionAll_append {B : Type} (extend : B → B → B) (empty : B)
    (hassoc : ∀ x y z, extend (extend x y) z = extend x (extend y z))
    (hleft : ∀ x, extend empty x = x) (hright : ∀ x, extend x empty = x)
    (xs ys : List B) :
    unionAll extend empty (xs ++ ys) =
      extend (unionAll extend empty xs) (unionAll extend empty ys) := by
  unfold unionAll
  rw [List.foldl_append, foldl_extend_eq extend empty hassoc hleft hright ys]
  rfl

theorem BuildForest.leafBounds_eq {B : Type} :
    ∀ (forest : BuildForest B),
      forest.leafBounds = forest.toList.flatMap (fun tb => tb.1.leafBounds)
  | .nil => rfl
  | .cons child bounds rest => by
    simp only [BuildForest.leafBounds, BuildForest.toList, List.flatMap_cons,
      BuildForest.leafBounds_eq rest]

theorem BuildForest.boundsExact_iff {B : Type} (extend : B → B → B) (empty : B) :
    ∀ (forest : BuildForest B),
      forest.BoundsExact extend empty ↔
        ∀ tb ∈ forest.toList,
          tb.2 = unionAll extend empty tb.1.leafBounds ∧ tb.1.BoundsExact extend empty
  | .nil => by simp [BuildForest.BoundsExact, BuildForest.toList]
  | .cons child bounds rest => by
    simp only [BuildForest.BoundsExact, BuildForest.toList, List.mem_cons, forall_eq_or_imp,
      BuildForest.boundsExact_iff extend empty rest, and_assoc]

/-- Extending `bounds0` by the bounds stored for the children, each the union
of the leaf bounds below it, gives `bounds0` extended by the union of all leaf
bounds of the forest. -/
theorem foldl_stored_bounds {B : Type} (extend : B → B → B) (empty : B)
    (hassoc : ∀ x y z, extend (extend x y) z = extend x (extend y z))
    (hleft : ∀ x, extend empty x = x) (hright : ∀ x, extend x empty = x) :
    ∀ (ts : List (BuildTree B × B)) (bounds0 : B),
      (∀ tb ∈ ts, tb.2 = unionAll extend empty tb.1.leafBounds) →
      (ts.map Prod.snd).foldl extend bounds0 =
        extend bounds0 (unionAll extend empty (ts.flatMap (fun tb => tb.1.leafBounds))) := by
  intro ts
  induction ts with
  | nil => intro bounds0 _; simp [unionAll, hright]
  | cons tb ts ih =>
    intro bounds0 h
    simp only [List.map_cons, List.foldl_cons, List.flatMap_cons]
    rw [ih (extend bounds0 tb.2) (fun x hx => h x (List.mem_cons_of_mem _ hx)),
      unionAll_append extend empty hassoc hleft hright, h tb (List.mem_cons_self _ _), hassoc]

/-- The loop over the children, when it returns: every tree it built comes
from a call for a child, and the bounds returned are `bounds0` extended by
the bounds of the children in turn. -/
theorem forChildren_sound {B σ : Type} (extend : B → B → B)
    (f : σ → BuildRecord → Option (σ × BuildTree B × B)) (R : BuildTree B → B → Prop) :
    ∀ (children : List BuildRecord) (st : σ) (bounds0 : B) (st1 : σ) (forest : BuildForest B)
      (bounds1 : B),
      (∀ st child st1 tree bounds, child ∈ children →
        f st child = some (st1, tree, bounds) → R tree bounds) →
      forChildren extend f st children bounds0 = some (st1, forest, bounds1) →
      (∀ tb ∈ forest.toList, R tb.1 tb.2) ∧
        bounds1 = (forest.toList.map Prod.snd).foldl extend bounds0 := by
  intro children
  induction children with
  | nil =>
    intro st bounds0 st1 forest bounds1 _ h
    simp only [forChildren, Option.some.injEq, Prod.mk.injEq] at h
    obtain ⟨_, h2, h3⟩ := h
    subst h2 h3
    simp [BuildForest.toList]
  | cons child rest ih =>
    intro st bounds0 st1 forest bounds1 hf h
    unfold forChildren at h
    cases hc : f st child with
    | none => rw [hc] at h; exact Option.noConfusion h
    | some r =>
      obtain ⟨s1, tree, bounds⟩ := r
      rw [hc] at h
      simp only at h
      cases hr : forChildren extend f s1 rest (extend bounds0 bounds) with
      | none => rw [hr] at h; exact Option.noConfusion h
      | some r2 =>
        obtain ⟨s2, forest2, b2⟩ := r2
        rw [hr] at h
        simp only [Option.some.injEq, Prod.mk.injEq] at h
        obtain ⟨_, h2, h3⟩ := h
        subst h2 h3
        obtain ⟨ih1, ih2⟩ := ih s1 (extend bounds0 bounds) s2 forest2 b2
          (fun s c s' t bd hcm => hf s c s' t bd (List.mem_cons_of_mem _ hcm)) hr
        refine ⟨?_, ?_⟩
        · intro tb htb
          simp only [BuildForest.toList, List.mem_cons] at htb
          rcases htb with htb | htb
          · rw [htb]
            exact hf st child s1 tree bounds (List.mem_cons_self _ _) hc
          · exact ih1 tb htb
        · rw [ih2]
          rfl

/-- A node whose children each carry the union of their leaf bounds: the
node's bounds are exact and the bounds returned for it are the union of all
its leaf bounds. -/
theorem node_bounds_exact {B : Type} (extend : B → B → B) (empty : B)
    (hassoc : ∀ x y z, extend (extend x y) z = extend x (extend y z))
    (hleft : ∀ x, extend empty x = x) (hright : ∀ x, extend x empty = x)
    (forest : BuildForest B) (bounds1 : B)
    (hall : ∀ tb ∈ forest.toList,
      tb.2 = unionAll extend empty tb.1.leafBounds ∧ tb.1.BoundsExact extend empty)
    (hb : bounds1 = (forest.toList.map Prod.snd).foldl extend empty) :
    bounds1 = unionAll extend empty (BuildTree.node forest).leafBounds ∧
      (BuildTree.node forest).BoundsExact extend empty := by
  refine ⟨?_, ?_⟩
  · rw [hb, foldl_stored_bounds extend empty hassoc hleft hright _ _ (fun tb h => (hall tb h).1),
      hleft]
    simp only [BuildTree.leafBounds, BuildForest.leafBounds_eq]
  · simp only [BuildTree.BoundsExact]
    exact (BuildForest.boundsExact_iff extend empty forest).mpr hall

/-- Whatever `createLeaf` returns has exact bounds. -/
theorem createLeaf_bounds {B : Type} (b : BVH4BuilderMortonGeneral B) (morton : Nat → Nat)
    (hassoc : ∀ x y z, b.extend (b.extend x y) z = b.extend x (b.extend y z))
    (hleft : ∀ x, b.extend b.empty x = x) (hright : ∀ x, b.extend x b.empty = x) :
    ∀ (fuel : Nat) (current : BuildRecord) (tree : BuildTree B) (bounds : B),
      b.createLeaf morton fuel current = some (tree, bounds) →
      bounds = unionAll b.extend b.empty tree.leafBounds ∧
        tree.BoundsExact b.extend b.empty := by
  intro fuel
  induction fuel with
  | zero =>
    intro current tree bounds h
    exact Option.noConfusion h
  | succ fuel ih =>
    intro current tree bounds h
    unfold BVH4BuilderMortonGeneral.createLeaf at h
    by_cases hsmall : current.size ≤ b.minLeafSize
    · rw [if_pos hsmall] at h
      simp only [Option.some.injEq, Prod.mk.injEq] at h
      obtain ⟨h1, h2⟩ := h
      subst h1 h2
      simp [BuildTree.leafBounds, BuildTree.BoundsExact, unionAll, hleft]
    · rw [if_neg hsmall] at h
      simp only at h
      cases hfc : forChildren b.extend
          (fun (_ : Unit) child =>
            match b.createLeaf morton fuel { child with depth := addU current.depth 1 } with
            | none => none
            | some r => some ((), r))
          ()
          [(splitFallback (splitFallback current).1).1, (splitFallback (splitFallback current).1).2,
            (splitFallback (splitFallback current).2).1,
            (splitFallback (splitFallback current).2).2]
          b.empty with
      | none => rw [hfc] at h; exact Option.noConfusion h
      | some r =>
        obtain ⟨u, forest, bounds1⟩ := r
        rw [hfc] at h
        simp only [Option.some.injEq, Prod.mk.injEq] at h
        obtain ⟨h1, h2⟩ := h
        subst h1 h2
        obtain ⟨hall, hb⟩ := forChildren_sound b.extend _
          (fun t bd => bd = unionAll b.extend b.empty t.leafBounds ∧
            t.BoundsExact b.extend b.empty) _ _ _ _ _ _
          (by
            intro st child st1 t bd _ hf
            cases hcl : b.createLeaf morton fuel { child with depth := addU current.depth 1 } with
            | none => rw [hcl] at hf; exact Option.noConfusion hf
            | some r =>
              rw [hcl] at hf
              simp only [Option.some.injEq, Prod.mk.injEq] at hf
              obtain ⟨_, hr⟩ := hf
              subst hr
              exact ih _ _ _ hcl)
          hfc
        exact node_bounds_exact b.extend b.empty hassoc hleft hright forest bounds1 hall hb

/-- Whatever `recurse` returns has exact bounds. -/
theorem recurse_bounds {B : Type} (b : BVH4BuilderMortonGeneral B)
    (hassoc : ∀ x y z, b.extend (b.extend x y) z = b.extend x (b.extend y z))
    (hleft : ∀ x, b.extend b.empty x = x) (hright : ∀ x, b.extend x b.empty = x)
    (mode : Nat) :
    ∀ (fuel : Nat) (morton : Nat → Nat) (current : BuildRecord) (morton1 : Nat → Nat)
      (tree : BuildTree B) (bounds : B),
      b.recurse fuel morton current mode = some (morton1, tree, bounds) →
      bounds = unionAll b.extend b.empty tree.leafBounds ∧
        tree.BoundsExact b.extend b.empty := by
  intro fuel
  induction fuel with
  | zero =>
    intro morton current morton1 tree bounds h
    exact Option.noConfusion h
  | succ fuel ih =>
    intro morton current morton1 tree bounds h
    unfold BVH4BuilderMortonGeneral.recurse at h
    by_cases hq : mode = CREATE_TOP_LEVEL ∧ current.size ≤ b.topLevelItemThreshold
    · rw [if_pos hq] at h
      simp only [Option.some.injEq, Prod.mk.injEq] at h
      obtain ⟨_, h1, h2⟩ := h
      subst h1 h2
      simp [BuildTree.leafBounds, BuildTree.BoundsExact, unionAll]
    · rw [if_neg hq] at h
      by_cases hleaf : current.depth ≥ b.maxBuildDepth ∨ current.size ≤ b.minLeafSize
      · rw [if_pos hleaf] at h
        cases hcl : b.createLeaf morton fuel current with
        | none => rw [hcl] at h; exact Option.noConfusion h
        | some r =>
          rw [hcl] at h
          simp only [Option.some.injEq, Prod.mk.injEq] at h
          obtain ⟨_, hr⟩ := h
          subst hr
          exact createLeaf_bounds b morton hassoc hleft hright fuel current _ _ hcl
      · rw [if_neg hleaf] at h
        cases hg : b.growChildren fuel current.depth BVH4.N morton [current] with
        | none => rw [hg] at h; exact Option.noConfusion h
        | some r =>
          obtain ⟨m1, children⟩ := r
          rw [hg] at h
          simp only at h
          by_cases hone : children.length = 1
          · rw [if_pos hone] at h
            simp only [Option.some.injEq, Prod.mk.injEq] at h
            obtain ⟨_, h1, h2⟩ := h
            subst h1 h2
            simp [BuildTree.leafBounds, BuildTree.BoundsExact, unionAll, hleft]
          · rw [if_neg hone] at h
            cases hfc : forChildren b.extend
                (fun m child =>
                  if child.size ≤ b.minLeafSize then
                    match b.createLeaf m fuel child with
                    | none => none
                    | some r => some (m, r)
                  else b.recurse fuel m child mode)
                m1 children b.empty with
            | none => rw [hfc] at h; exact Option.noConfusion h
            | some r =>
              obtain ⟨m2, forest, bounds1⟩ := r
              rw [hfc] at h
              simp only [Option.some.injEq, Prod.mk.injEq] at h
              obtain ⟨_, h1, h2⟩ := h
              subst h1 h2
              obtain ⟨hall, hb⟩ := forChildren_sound b.extend _
                (fun t bd => bd = unionAll b.extend b.empty t.leafBounds ∧
                  t.BoundsExact b.extend b.empty) _ _ _ _ _ _
                (by
                  intro m child m' t bd _ hf
                  by_cases hs : child.size ≤ b.minLeafSize
                  · simp only [if_pos hs] at hf
                    cases hcl : b.createLeaf m fuel child with
                    | none => rw [hcl] at hf; exact Option.noConfusion hf
                    | some r =>
                      rw [hcl] at hf
                      simp only [Option.some.injEq, Prod.mk.injEq] at hf
                      obtain ⟨_, hr⟩ := hf
                      subst hr
                      exact createLeaf_bounds b m hassoc hleft hright fuel child _ _ hcl
                  · simp only [if_neg hs] at hf
                    exact ih m child m' t bd hf)
                hfc
              exact node_bounds_exact b.extend b.empty hassoc hleft hright forest bounds1 hall hb

/-! ## The claim about the bounds -/

/-- Claim C21: bounds are exact unions, for boxes under a union `extend` that
is associative and has the empty box as neutral element.  Whatever `recurse`
(in `RECURSE` mode) and `createLeaf` return for a record, the bound stored for
each child of each created node is the union of the bounds that
`createSmallLeaf` reported for the leaves of that child's subtree, and the
value returned is the union over all leaves of the tree; and for
`minLeafSize >= 1` and `begin <= end <= 2^31` `recurse` does return. -/
theorem recurse_bounds_exact {B : Type} (b : BVH4BuilderMortonGeneral B) (fuel : Nat)
    (morton : Nat → Nat) (current : BuildRecord)
    (hassoc : ∀ x y z, b.extend (b.extend x y) z = b.extend x (b.extend y z))
    (hleft : ∀ x, b.extend b.empty x = x) (hright : ∀ x, b.extend x b.empty = x)
    (hmin : 1 ≤ b.minLeafSize) (hmax : b.maxBuildDepth < UINT)
    (hbe : current.begin ≤ current.end_) (hend : current.end_ ≤ 2147483648)
    (hfuel : (b.maxBuildDepth - current.depth) + (current.end_ - current.begin) + 2 ≤ fuel) :
    (∀ (n : Nat) (m : Nat → Nat) (r : BuildRecord) (m1 : Nat → Nat) (tree : BuildTree B)
        (bounds : B),
      b.recurse n m r RECURSE = some (m1, tree, bounds) →
      bounds = unionAll b.extend b.empty tree.leafBounds ∧
        tree.BoundsExact b.extend b.empty) ∧
    (∀ (n : Nat) (m : Nat → Nat) (r : BuildRecord) (tree : BuildTree B) (bounds : B),
      b.createLeaf m n r = some (tree, bounds) →
      bounds = unionAll b.extend b.empty tree.leafBounds ∧
        tree.BoundsExact b.extend b.empty) ∧
    ∃ morton1 tree bounds,
      b.recurse fuel morton current RECURSE = some (morton1, tree, bounds) ∧
      bounds = unionAll b.extend b.empty tree.leafBounds ∧
      tree.BoundsExact b.extend b.empty := by
  refine ⟨recurse_bounds b hassoc hleft hright RECURSE,
    fun n m => createLeaf_bounds b m hassoc hleft hright n, ?_⟩
  obtain ⟨morton1, tree, bounds, h, _⟩ :=
    recurse_spec b hmin hmax RECURSE fuel morton current hbe hend hfuel
  obtain ⟨h1, h2⟩ := recurse_bounds b hassoc hleft hright RECURSE _ _ _ _ _ _ h
  exact ⟨morton1, tree, bounds, h, h1, h2⟩

theorem recurse_bounds_exact_witness :
    ∃ morton1 tree bounds,
      (boxBuilder 1 2 32).recurse 38 (fun i => i) ⟨0, 5, 1⟩ RECURSE =
        some (morton1, tree, bounds) ∧
      bounds = unionAll Box.extend Box.empty tree.leafBounds ∧
      tree.BoundsExact Box.extend Box.empty :=
  (recurse_bounds_exact (boxBuilder 1 2 32) 38 (fun i => i) ⟨0, 5, 1⟩
    Box.extend_assoc Box.empty_extend Box.extend_empty
    (by decide) (by decide) (by decide) (by decide) (by decide)).2.2

/-! ## The claim about the chunk size of `parallel_for_for` -/

/-- With `q = ceil(K/m)` tasks or fewer, `K >= m >= 1`, every task gets at
least half of `m`: `m <= 2 * floor(K/T)`. -/
theorem min_chunk_bound (K m T : Nat) (hm : 1 ≤ m) (hKm : m ≤ K) (hT : 1 ≤ T)
    (hTq : T ≤ (K + m - 1) / m) : m ≤ 2 * (K / T) ∧ (K % m = 0 → m ≤ K / T) := by
  have hq1 : (K + m - 1) / m * m ≤ K + m - 1 := Nat.div_mul_le_self _ _
  have hTm : T * m ≤ K + m - 1 := le_trans (Nat.mul_le_mul_right m hTq) hq1
  have hd : K < T * (K / T + 1) := Nat.lt_mul_div_succ K (by omega)
  constructor
  · by_contra hlt
    have h2 : 2 * (K / T) + 1 ≤ m := by omega
    have h3 : T * (2 * (K / T) + 1) ≤ T * m := Nat.mul_le_mul_left T h2
    have h4 : T * (2 * (K / T) + 1) = 2 * (T * (K / T)) + T := by ring
    have h5 : T * (K / T + 1) = T * (K / T) + T := by ring
    rcases Nat.lt_or_ge T 2 with hT1 | hT2
    · have hT1' : T = 1 := by omega
      subst hT1'
      simp only [Nat.div_one] at hlt
      omega
    · obtain ⟨n, rfl⟩ : ∃ n, m = n + 1 := ⟨m - 1, by omega⟩
      have h6 : T * (n + 1) = T * n + T := by ring
      have h7 : 2 * n ≤ T * n := Nat.mul_le_mul_right n hT2
      omega
  · intro hdiv
    obtain ⟨c, hc⟩ : ∃ c, K = m * c := ⟨K / m, (Nat.mul_div_cancel' (Nat.dvd_of_mod_eq_zero hdiv)).symm⟩
    have hq : (K + m - 1) / m = c := by
      rw [hc]
      apply Nat.div_eq_of_lt_le
      · rw [Nat.mul_comm]
        omega
      · have : (c + 1) * m = m * c + m := by ring
        omega
    rw [hq] at hTq
    rw [Nat.le_div_iff_mul_le (by omega)]
    calc m * T ≤ m * c := Nat.mul_le_mul_left m hTq
      _ = K := hc.symm

/-- Claim C26 (as amended): for every input with `K >= minStepSize >= 1` and
every worker count `>= 1` on the parallel path (no overflow of
`K + minStepSize - 1` and `taskCount * K`), each of the
`taskCount = min(ceil(K/minStepSize), workers)` tasks is given a global range
of at least `floor(K/taskCount)` elements, which is at least half of
`minStepSize`, and at least `minStepSize` when `minStepSize` divides `K`. -/
theorem parallel_for_for_min_chunk (sizes : List Nat) (minStepSize numThreads K T : Nat)
    (hKdef : K = sizes.sum)
    (hTdef : T = min ((K + minStepSize - 1) / minStepSize) numThreads)
    (hm : 1 ≤ minStepSize) (hKm : minStepSize ≤ K) (hth : 1 ≤ numThreads)
    (hceil : K + minStepSize ≤ SIZE_T)
    (hne : (K + minStepSize - 1) / minStepSize ≠ 1)
    (hmul : T * K < SIZE_T) :
    (∃ run, parallel_for_for sizes minStepSize numThreads = some run ∧ run.length = T ∧
      ∀ t, t < T → (run.getD t []).flatMap Call.pairs =
        ((allPairs 0 sizes).drop (taskRange K T t).1).take
          ((taskRange K T t).2 - (taskRange K T t).1)) ∧
    ∀ t, t < T →
      K / T ≤ (taskRange K T t).2 - (taskRange K T t).1 ∧
      minStepSize ≤ 2 * ((taskRange K T t).2 - (taskRange K T t).1) ∧
      (K % minStepSize = 0 → minStepSize ≤ (taskRange K T t).2 - (taskRange K T t).1) := by
  subst hKdef
  rw [eq_comm] at hTdef
  have hK : sizes.sum < SIZE_T := by omega
  have hitc := initialTaskCount_exact sizes.sum minStepSize hm hceil
  have hq1 : 1 ≤ (sizes.sum + minStepSize - 1) / minStepSize := by
    rw [Nat.le_div_iff_mul_le (by omega)]
    omega
  have hT1 : 1 ≤ T := by omega
  have hTq : T ≤ (sizes.sum + minStepSize - 1) / minStepSize := by omega
  have hTS : T < SIZE_T := by
    have := initialTaskCount_lt sizes.sum minStepSize
    rw [hitc] at this
    omega
  have hrange : ∀ t, t < T →
      taskRange sizes.sum T t = (t * sizes.sum / T, (t + 1) * sizes.sum / T) := by
    intro t ht
    have hle : (t + 1) * sizes.sum ≤ T * sizes.sum := Nat.mul_le_mul_right _ ht
    exact taskRange_exact sizes.sum T t (by omega) (by omega)
  have hbound := min_chunk_bound sizes.sum minStepSize T hm hKm hT1 hTq
  refine ⟨?_, ?_⟩
  · rw [parallel_for_for_unfold sizes minStepSize numThreads hK hm, hitc, if_neg hne, hTdef]
    obtain ⟨run, hrun, hlen, hslice, _, _⟩ :=
      parallel_path_spec sizes hK T (Or.inl (by omega))
    exact ⟨run, hrun, hlen, hslice⟩
  · intro t ht
    rw [hrange t ht]
    have hstep := (boundary_step sizes.sum T t (by omega)).1
    have hsz : sizes.sum / T ≤ (t + 1) * sizes.sum / T - t * sizes.sum / T := by omega
    exact ⟨hsz, by omega, fun h => le_trans (hbound.2 h) hsz⟩

theorem parallel_for_for_min_chunk_witness :
    (∃ run, parallel_for_for [3, 0, 5, 2] 2 3 = some run ∧ run.length = 3 ∧
      ∀ t, t < 3 → (run.getD t []).flatMap Call.pairs =
        ((allPairs 0 [3, 0, 5, 2]).drop (taskRange 10 3 t).1).take
          ((taskRange 10 3 t).2 - (taskRange 10 3 t).1)) ∧
    ∀ t, t < 3 →
      10 / 3 ≤ (taskRange 10 3 t).2 - (taskRange 10 3 t).1 ∧
      2 ≤ 2 * ((taskRange 10 3 t).2 - (taskRange 10 3 t).1) ∧
      (10 % 2 = 0 → 2 ≤ (taskRange 10 3 t).2 - (taskRange 10 3 t).1) :=
  parallel_for_for_min_chunk [3, 0, 5, 2] 2 3 10 3 (by decide) (by decide) (by decide)
    (by decide) (by decide) (by decide) (by decide) (by decide)

/-- Claim C26 fails as stated.  For one group of 3 elements, `minStepSize = 2`
and 2 workers the task count is `min(ceil(3/2), 2) = 2` and the two tasks get
the global ranges `[0,1)` and `[1,3)`: the first holds 1 element, fewer than
`minStepSize`. -/
theorem parallel_for_for_chunk_below_minStepSize :
    2 ≤ [3].sum ∧
    min (initialTaskCount (ParallelForForState.init [3]).size 2) 2 = 2 ∧
    taskRange 3 2 0 = (0, 1) ∧
    parallel_for_for [3] 2 2 = some [[Call.mk 0 0 1 0], [Call.mk 0 1 3 1]] := by
  refine ⟨by decide, by decide, by decide, by decide⟩

/-! ## Proofs: the arena cursor and the regions of the cache entries -/

theorem history_append (alloc_mem : Nat → Nat) (s0 : TessellationCache) (reqs : List Request)
    (r : Request) :
    (history alloc_mem s0 (reqs ++ [r])).1 =
      ((history alloc_mem s0 reqs).1.request alloc_mem r.primID r.commitCounter
        r.neededBlocks).1 := by
  unfold history
  rw [List.foldl_append]
  rfl

/-- One request keeps the cursor below the capacity and does not lower the
capacity. -/
theorem request_cursor_step (alloc_mem : Nat → Nat) (s : TessellationCache)
    (primID c n : Nat) (hinv : s.blockCounter < s.allocated64BytesBlocks)
    (hn : 1 ≤ n) (hbig : 16 * n < UINT) :
    (s.request alloc_mem primID c n).1.blockCounter <
      (s.request alloc_mem primID c n).1.allocated64BytesBlocks ∧
    s.allocated64BytesBlocks ≤ (s.request alloc_mem primID c n).1.allocated64BytesBlocks := by
  have hU := UINT_val
  have hS := SIZE_T_val
  cases hre : s.reuses primID n
  · rw [request_fresh_eq alloc_mem s primID c n hre]
    cases hex : s.exhausted n
    · rw [makeRoom_room alloc_mem s n hex]
      refine ⟨?_, le_refl _⟩
      unfold TessellationCache.exhausted at hex
      simpa using hex
    · obtain ⟨h0, _, hcap, _⟩ := makeRoom_exhausted alloc_mem s n hex
      have hmul : mulS BIG_CACHE_ENTRIES n = 16 * n := by
        unfold mulS BIG_CACHE_ENTRIES
        exact Nat.mod_eq_of_lt (by omega)
      have hadd : addS 0 n = n := by
        unfold addS
        rw [Nat.zero_add]
        exact Nat.mod_eq_of_lt (by omega)
      show addS (s.makeRoom alloc_mem n).blockCounter n <
          (s.makeRoom alloc_mem n).allocated64BytesBlocks ∧
        s.allocated64BytesBlocks ≤ (s.makeRoom alloc_mem n).allocated64BytesBlocks
      rw [h0, hcap, hadd]
      cases hg : s.grows n
      · have : ¬ (mulS BIG_CACHE_ENTRIES n > s.allocated64BytesBlocks) := by
          unfold TessellationCache.grows at hg
          simpa using hg
        rw [hmul] at this
        simp only [Bool.false_eq_true, if_false]
        omega
      · have : mulS BIG_CACHE_ENTRIES n > s.allocated64BytesBlocks := by
          unfold TessellationCache.grows at hg
          simpa using hg
        rw [hmul] at this
        simp only [if_true, hmul]
        rw [Nat.mod_eq_of_lt hbig]
        omega
  · rw [request_reuse_eq alloc_mem s primID c n hre]
    exact ⟨hinv, le_refl _⟩

theorem history_cursor (alloc_mem : Nat → Nat) (s0 : TessellationCache) (reqs : List Request)
    (hreqs : ∀ r ∈ reqs, 1 ≤ r.neededBlocks ∧ 16 * r.neededBlocks < UINT) :
    (history alloc_mem s0 reqs).1.blockCounter <
      (history alloc_mem s0 reqs).1.allocated64BytesBlocks ∧
    DEFAULT_64B_BLOCKS ≤ (history alloc_mem s0 reqs).1.allocated64BytesBlocks := by
  induction reqs using List.reverseRecOn with
  | nil =>
    refine ⟨?_, ?_⟩
    · show 0 < DEFAULT_64B_BLOCKS
      decide
    · show DEFAULT_64B_BLOCKS ≤ DEFAULT_64B_BLOCKS
      exact le_refl _
  | append_singleton l r ih =>
    obtain ⟨h1, h2⟩ := ih (fun x hx => hreqs x (List.mem_append_left _ hx))
    obtain ⟨hn, hbig⟩ := hreqs r (List.mem_append_right _ (List.mem_singleton.mpr rfl))
    rw [history_append]
    obtain ⟨h3, h4⟩ := request_cursor_step alloc_mem _ r.primID r.commitCounter
      r.neededBlocks h1 hn hbig
    exact ⟨h3, le_trans h2 h4⟩

/-! ## The claims about the arena of the cache -/

/-- Claim C27: in every cache state reached from `init` by requests with
`neededBlocks >= 1` and `16 * neededBlocks < 2^32`, the cursor `blockCounter`
is strictly below the capacity `allocated64BytesBlocks`; a further such request
ends with the cursor below the capacity again, which is what the assertion
after the bump allocation tests, and with a capacity that is not smaller than
before. -/
theorem cursor_below_capacity (alloc_mem : Nat → Nat) (s0 : TessellationCache)
    (reqs : List Request)
    (hreqs : ∀ r ∈ reqs, 1 ≤ r.neededBlocks ∧ 16 * r.neededBlocks < UINT) :
    (history alloc_mem s0 reqs).1.blockCounter <
      (history alloc_mem s0 reqs).1.allocated64BytesBlocks ∧
    (s0.init alloc_mem).allocated64BytesBlocks ≤
      (history alloc_mem s0 reqs).1.allocated64BytesBlocks ∧
    ∀ (primID c n : Nat), 1 ≤ n → 16 * n < UINT →
      ((history alloc_mem s0 reqs).1.request alloc_mem primID c n).1.blockCounter <
        ((history alloc_mem s0 reqs).1.request alloc_mem primID c n).1.allocated64BytesBlocks ∧
      (history alloc_mem s0 reqs).1.allocated64BytesBlocks ≤
        ((history alloc_mem s0 reqs).1.request alloc_mem primID c n).1.allocated64BytesBlocks := by
  obtain ⟨h1, h2⟩ := history_cursor alloc_mem s0 reqs hreqs
  exact ⟨h1, h2, fun primID c n hn hbig =>
    request_cursor_step alloc_mem _ primID c n h1 hn hbig⟩

theorem cursor_below_capacity_witness :
    (history (fun _ => 4096) blankCache [⟨64, 3, 16384⟩, ⟨128, 3, 5⟩]).1.blockCounter <
      (history (fun _ => 4096) blankCache
        [⟨64, 3, 16384⟩, ⟨128, 3, 5⟩]).1.allocated64BytesBlocks ∧
    (blankCache.init (fun _ => 4096)).allocated64BytesBlocks ≤
      (history (fun _ => 4096) blankCache
        [⟨64, 3, 16384⟩, ⟨128, 3, 5⟩]).1.allocated64BytesBlocks :=
  ⟨(cursor_below_capacity (fun _ => 4096) blankCache [⟨64, 3, 16384⟩, ⟨128, 3, 5⟩]
      (by decide)).1,
    (cursor_below_capacity (fun _ => 4096) blankCache [⟨64, 3, 16384⟩, ⟨128, 3, 5⟩]
      (by decide)).2.1⟩

theorem history_fst_eq_foldl (alloc_mem : Nat → Nat) (reqs : List Request) :
    ∀ (st : TessellationCache × (Fin CACHE_ENTRIES → Option Request)),
      (reqs.foldl (requestStep alloc_mem) st).1 =
        reqs.foldl
          (fun s r => (s.request alloc_mem r.primID r.commitCounter r.neededBlocks).1) st.1 := by
  induction reqs with
  | nil => intro st; rfl
  | cons r rest ih =>
    intro st
    simp only [List.foldl_cons]
    rw [ih]
    rfl

/-- Writing a tag with the same region into a slot changes no region. -/
theorem regions_same (s : TessellationCache) (i0 : Fin CACHE_ENTRIES) (t : CacheTag)
    (hd : RegionsDisjoint s) (ha : RegionsAligned s)
    (hroot : t.subtree_root = (s.tags i0).subtree_root)
    (hblocks : t.usedBlocks = (s.tags i0).usedBlocks) :
    RegionsDisjoint { s with tags := Function.update s.tags i0 t } ∧
      RegionsAligned { s with tags := Function.update s.tags i0 t } := by
  have hsame : ∀ i, (Function.update s.tags i0 t i).subtree_root = (s.tags i).subtree_root ∧
      (Function.update s.tags i0 t i).usedBlocks = (s.tags i).usedBlocks := by
    intro i
    rw [Function.update_apply]
    by_cases h : i = i0
    · rw [if_pos h, h]
      exact ⟨hroot, hblocks⟩
    · rw [if_neg h]
      exact ⟨rfl, rfl⟩
  obtain ⟨hd1, hd2⟩ := hd
  unfold RegionsDisjoint RegionsAligned at *
  simp only [CacheTag.getRootRef, CacheTag.blocks] at *
  refine ⟨⟨?_, ?_⟩, ?_⟩
  · intro i hi
    rw [(hsame i).1, (hsame i).2]
    rw [(hsame i).2] at hi
    exact hd1 i hi
  · intro i j hij hi hj
    rw [(hsame i).1, (hsame i).2, (hsame j).1, (hsame j).2]
    rw [(hsame i).2] at hi
    rw [(hsame j).2] at hj
    exact hd2 i j hij hi hj
  · intro i hi
    rw [(hsame i).1]
    rw [(hsame i).2] at hi
    exact ha i hi

/-- Bump allocation: a tag for the `n` blocks from the cursor on is written
to a slot and the cursor advances by `n`. -/
theorem regions_bump (m : TessellationCache) (i0 : Fin CACHE_ENTRIES) (t : CacheTag) (n : Nat)
    (hd : RegionsDisjoint m) (ha : RegionsAligned m)
    (hroot : t.subtree_root = 64 * m.blockCounter) (hblocks : t.usedBlocks = n) :
    RegionsDisjoint
        { m with blockCounter := m.blockCounter + n, tags := Function.update m.tags i0 t } ∧
      RegionsAligned
        { m with blockCounter := m.blockCounter + n, tags := Function.update m.tags i0 t } := by
  have hcase : ∀ i,
      (i = i0 ∧ (Function.update m.tags i0 t i).subtree_root / 64 = m.blockCounter ∧
        (Function.update m.tags i0 t i).usedBlocks = n ∧
        (Function.update m.tags i0 t i).subtree_root % 64 = 0) ∨
      (i ≠ i0 ∧ Function.update m.tags i0 t i = m.tags i) := by
    intro i
    rw [Function.update_apply]
    by_cases h : i = i0
    · left
      rw [if_pos h, hroot, hblocks]
      exact ⟨h, by omega, rfl, by omega⟩
    · right
      rw [if_neg h]
      exact ⟨h, rfl⟩
  obtain ⟨hd1, hd2⟩ := hd
  unfold RegionsDisjoint RegionsAligned at *
  simp only [CacheTag.getRootRef, CacheTag.blocks] at *
  refine ⟨⟨?_, ?_⟩, ?_⟩
  · intro i hi
    rcases hcase i with ⟨_, h1, h2, _⟩ | ⟨_, h⟩
    · rw [h1, h2]
    · rw [h] at hi ⊢
      have := hd1 i hi
      omega
  · intro i j hij hi hj
    rcases hcase i with ⟨hi0, h1, h2, _⟩ | ⟨hi0, h⟩
    · rcases hcase j with ⟨hj0, _⟩ | ⟨_, h'⟩
      · exact absurd (hi0.trans hj0.symm) hij
      · rw [h'] at hj
        rw [h1, h2, h']
        right
        exact hd1 j hj
    · rcases hcase j with ⟨_, h1, h2, _⟩ | ⟨_, h'⟩
      · rw [h] at hi
        rw [h1, h2, h]
        left
        exact hd1 i hi
      · rw [h] at hi
        rw [h'] at hj
        rw [h, h']
        exact hd2 i j hij hi hj
  · intro i hi
    rcases hcase i with ⟨_, _, _, h3⟩ | ⟨_, h⟩
    · exact h3
    · rw [h] at hi ⊢
      exact ha i hi

/-- One request keeps the regions disjoint, inside `[0, blockCounter)` and
aligned, when the region it allocates ends at a byte offset of at most
`2^32`. -/
theorem request_regions_step (alloc_mem : Nat → Nat) (s : TessellationCache)
    (primID c n : Nat) (hd : RegionsDisjoint s) (ha : RegionsAligned s)
    (hroot : ∀ i, (s.tags i).subtree_root < UINT) (hn : 1 ≤ n)
    (hfit : s.reuses primID n = false →
      64 * ((s.makeRoom alloc_mem n).blockCounter + n) ≤ UINT) :
    RegionsDisjoint (s.request alloc_mem primID c n).1 ∧
      RegionsAligned (s.request alloc_mem primID c n).1 := by
  have hU := UINT_val
  have hS := SIZE_T_val
  cases hre : s.reuses primID n
  · have hf := hfit hre
    have hm : RegionsDisjoint (s.makeRoom alloc_mem n) ∧
        RegionsAligned (s.makeRoom alloc_mem n) := by
      cases hex : s.exhausted n
      · rw [makeRoom_room alloc_mem s n hex]
        exact ⟨hd, ha⟩
      · obtain ⟨_, htags, _, _⟩ := makeRoom_exhausted alloc_mem s n hex
        have hz : ∀ i, ((s.makeRoom alloc_mem n).tags i).blocks = 0 := by
          intro i
          rw [htags i]
          rfl
        exact ⟨⟨fun i h => absurd (hz i) h, fun i _ _ h _ => absurd (hz i) h⟩,
          fun i h => absurd (hz i) h⟩
    rw [request_fresh_eq alloc_mem s primID c n hre]
    have hadd : addS (s.makeRoom alloc_mem n).blockCounter n =
        (s.makeRoom alloc_mem n).blockCounter + n := addS_exact (by omega)
    have hr : (64 * (s.makeRoom alloc_mem n).blockCounter) % UINT =
        64 * (s.makeRoom alloc_mem n).blockCounter := Nat.mod_eq_of_lt (by omega)
    have hb : n % UINT = n := Nat.mod_eq_of_lt (by omega)
    rw [hadd, hr, hb]
    exact regions_bump (s.makeRoom alloc_mem n) (addrToCacheIndex primID) _ n hm.1 hm.2 rfl rfl
  · rw [request_reuse_eq alloc_mem s primID c n hre]
    have hblocks : (s.tags (addrToCacheIndex primID)).blocks ≠ 0 := by
      unfold TessellationCache.reuses at hre
      have : (s.tags (addrToCacheIndex primID)).blocks ≥ n := by simpa using hre
      omega
    have hal := ha _ hblocks
    refine regions_same s (addrToCacheIndex primID) _ hd ha ?_ rfl
    simp only [CacheTag.clearRootRefBits, CacheTag.update]
    rw [land_low_bits_mask _ (hroot _)]
    simp only [CacheTag.getRootRef] at hal
    omega

/-- A run of requests keeps the regions disjoint. -/
theorem foldl_regions (alloc_mem : Nat → Nat) :
    ∀ (reqs : List Request) (s : TessellationCache),
      RegionsDisjoint s → RegionsAligned s → (∀ i, (s.tags i).subtree_root < UINT) →
      s.allocated64BytesBlocks < UINT →
      (∀ r ∈ reqs, 1 ≤ r.neededBlocks) → OffsetsFit alloc_mem s reqs →
      RegionsDisjoint (reqs.foldl
        (fun s r => (s.request alloc_mem r.primID r.commitCounter r.neededBlocks).1) s) := by
  intro reqs
  induction reqs with
  | nil => intro s hd _ _ _ _ _; exact hd
  | cons r rest ih =>
    intro s hd ha hroot hcap hreqs hfit
    obtain ⟨hfit1, hfit2⟩ := hfit
    obtain ⟨hd', ha'⟩ := request_regions_step alloc_mem s r.primID r.commitCounter
      r.neededBlocks hd ha hroot (hreqs r (List.mem_cons_self _ _)) hfit1
    obtain ⟨hroot', hcap'⟩ := request_keeps_uint_fields alloc_mem s r.primID r.commitCounter
      r.neededBlocks hroot hcap
    exact ih _ hd' ha' hroot' hcap' (fun x hx => hreqs x (List.mem_cons_of_mem _ hx)) hfit2

/-- Claim C28: regions of live cache entries never overlap.  In every state
reached from `init` by requests with `neededBlocks >= 1` whose freshly
allocated regions end at a byte offset of at most `2^32`, the block range
`[offset/64, offset/64 + blocks)` of every slot with a non-zero reserved block
count lies inside `[0, blockCounter)`, and the ranges of two distinct such
slots are disjoint. -/
theorem regions_never_overlap (alloc_mem : Nat → Nat) (s0 : TessellationCache)
    (reqs : List Request) (hreqs : ∀ r ∈ reqs, 1 ≤ r.neededBlocks)
    (hfit : OffsetsFit alloc_mem (s0.init alloc_mem) reqs) :
    (∀ i, ((history alloc_mem s0 reqs).1.tags i).blocks ≠ 0 →
      ((history alloc_mem s0 reqs).1.tags i).getRootRef / 64 +
          ((history alloc_mem s0 reqs).1.tags i).blocks ≤
        (history alloc_mem s0 reqs).1.blockCounter) ∧
    ∀ i j, i ≠ j → ((history alloc_mem s0 reqs).1.tags i).blocks ≠ 0 →
      ((history alloc_mem s0 reqs).1.tags j).blocks ≠ 0 →
      ((history alloc_mem s0 reqs).1.tags i).getRootRef / 64 +
          ((history alloc_mem s0 reqs).1.tags i).blocks ≤
        ((history alloc_mem s0 reqs).1.tags j).getRootRef / 64 ∨
      ((history alloc_mem s0 reqs).1.tags j).getRootRef / 64 +
          ((history alloc_mem s0 reqs).1.tags j).blocks ≤
        ((history alloc_mem s0 reqs).1.tags i).getRootRef / 64 := by
  have hinit : ∀ i, ((s0.init alloc_mem).tags i).blocks = 0 := fun _ => rfl
  have h := foldl_regions alloc_mem reqs (s0.init alloc_mem)
    ⟨fun i h => absurd (hinit i) h, fun i _ _ h _ => absurd (hinit i) h⟩
    (fun i h => absurd (hinit i) h)
    (fun i => by
      show (CacheTag.reset (s0.tags i)).subtree_root < UINT
      simp only [CacheTag.reset]
      rw [UINT_val]
      omega)
    (by show DEFAULT_64B_BLOCKS < UINT; decide)
    hreqs hfit
  unfold history
  rw [history_fst_eq_foldl]
  exact h

theorem regions_never_overlap_witness :
    (∀ i, ((history (fun _ => 4096) blankCache
        [⟨64, 3, 5⟩, ⟨128, 3, 7⟩]).1.tags i).blocks ≠ 0 →
      ((history (fun _ => 4096) blankCache [⟨64, 3, 5⟩, ⟨128, 3, 7⟩]).1.tags i).getRootRef / 64 +
          ((history (fun _ => 4096) blankCache [⟨64, 3, 5⟩, ⟨128, 3, 7⟩]).1.tags i).blocks ≤
        (history (fun _ => 4096) blankCache [⟨64, 3, 5⟩, ⟨128, 3, 7⟩]).1.blockCounter) ∧
    ((history (fun _ => 4096) blankCache [⟨64, 3, 5⟩, ⟨128, 3, 7⟩]).1.tags
        (addrToCacheIndex 64)).getRootRef = 0 ∧
    ((history (fun _ => 4096) blankCache [⟨64, 3, 5⟩, ⟨128, 3, 7⟩]).1.tags
        (addrToCacheIndex 128)).getRootRef = 320 ∧
    (history (fun _ => 4096) blankCache [⟨64, 3, 5⟩, ⟨128, 3, 7⟩]).1.blockCounter = 12 :=
  ⟨(regions_never_overlap (fun _ => 4096) blankCache [⟨64, 3, 5⟩, ⟨128, 3, 7⟩]
      (by decide) ⟨fun _ => by decide, fun _ => by decide, trivial⟩).1,
    by decide, by decide, by decide⟩

/-! ## Proofs: the lazy sub-tree -/

/-- The data word of the cell `(u, v)`, `u, v < 256`: `(v << 8) | u` is
`256 * v + u`, and `u` and `v` are its low byte and the rest. -/
theorem leaf_data_roundtrip (u v : Nat) (hu : u < 256) (hv : v < 256) :
    ((v <<< 8) % UINT) ||| u = (v <<< 8) ||| u ∧
    ((v <<< 8) % UINT) ||| u = 256 * v + u ∧
    (((v <<< 8) % UINT) ||| u) &&& 255 = u ∧
    (((v <<< 8) % UINT) ||| u) >>> 8 = v := by
  have hU := UINT_val
  have h1 : v <<< 8 = 2 ^ 8 * v := by rw [Nat.shiftLeft_eq, Nat.mul_comm]
  have h2 : (v <<< 8) % UINT = v <<< 8 := Nat.mod_eq_of_lt (by rw [h1]; omega)
  have h3 : (v <<< 8) ||| u = 256 * v + u := by
    rw [h1, ← Nat.mul_add_lt_is_or (show u < 2 ^ 8 by omega) v]
  rw [h2, h3]
  refine ⟨rfl, rfl, ?_, ?_⟩
  · have := Nat.and_pow_two_sub_one_eq_mod (256 * v + u) 8
    simp only [Nat.reducePow, Nat.add_one_sub_one] at this
    rw [show (255 : Nat) = 256 - 1 by rfl, this]
    omega
  · rw [Nat.shiftRight_eq_div_pow]
    omega

/-- The leaf branch of `createSubTree`, for a unit cell. -/
theorem createSubTree_leaf {B : Type} (bvh : BVH4i B) (subdiv_level fuel : Nat)
    (curNode : RefLoc) (u0 v0 : Nat) (s : LazyState B) (hu : u0 + 1 ≤ 256) :
    createSubTree bvh (fuel + 1) curNode u0 (u0 + 2 ^ 0) v0 (v0 + 2 ^ 0) subdiv_level s =
      some (s.store curNode (leafOf bvh (u0, v0)).2.2.2.2.2
          (Event.leaf curNode u0 (u0 + 1) v0 (v0 + 1) (leafOf bvh (u0, v0)).2.2.2.2.1
            (leafOf bvh (u0, v0)).2.2.2.2.2),
        Outcome.done (bvh.quadBounds subdiv_level u0 (u0 + 1) v0 (v0 + 1))) := by
  have hU := UINT_val
  have hext : subU (u0 + 2 ^ 0) u0 ≤ 1 := by
    rw [subU_exact (by omega) (by simp; omega)]
    simp
  unfold createSubTree
  rw [if_pos hext]
  rfl

theorem squareSpec_zero {B : Type} (bvh : BVH4i B) (subdiv_level : Nat) :
    SquareSpec bvh subdiv_level 0 := by
  intro fuel n i u0 v0 s hfuel hu hv _
  obtain ⟨f, rfl⟩ : ∃ f, fuel = f + 1 := ⟨fuel - 1, by omega⟩
  rw [createSubTree_leaf bvh subdiv_level f (RefLoc.child n i) u0 v0 s (by simpa using hu)]
  refine ⟨[Event.leaf (RefLoc.child n i) u0 (u0 + 1) v0 (v0 + 1) (leafOf bvh (u0, v0)).2.2.2.2.1
    (leafOf bvh (u0, v0)).2.2.2.2.2], bvh.quadBounds subdiv_level u0 (u0 + 1) v0 (v0 + 1),
    ?_, rfl, rfl, ?_⟩
  · simp [LazyState.store, quadNodes]
  · intro e he m hm
    simp only [List.mem_singleton] at he
    subst he
    simp only [Event.nodeIndices, List.mem_singleton] at hm
    exact Or.inl hm

theorem LazyState.store_used {B : Type} (s : LazyState B) (loc : RefLoc) (v : Nat)
    (e : Event B) : (s.store loc v e).used64BytesBlocks = s.used64BytesBlocks := by
  cases loc <;> rfl

theorem LazyState.store_events {B : Type} (s : LazyState B) (loc : RefLoc) (v : Nat)
    (e : Event B) : (s.store loc v e).events = s.events ++ [e] := by
  cases loc <;> rfl

theorem LazyState.store_under_construction {B : Type} (s : LazyState B) (loc : RefLoc) (v : Nat)
    (e : Event B) : (s.store loc v e).under_construction = s.under_construction := by
  cases loc <;> rfl

theorem LazyState.store_numLazyBuildPatches {B : Type} (s : LazyState B) (loc : RefLoc)
    (v : Nat) (e : Event B) :
    (s.store loc v e).numLazyBuildPatches = s.numLazyBuildPatches := by
  cases loc <;> rfl

/-- The node branch of `createSubTree` on a square of side `2^(k+1)`, when
the calls for the four children do what `SquareSpec` says. -/
theorem createSubTree_square_step {B : Type} (bvh : BVH4i B)
    (hN : bvh.numAllocated64BytesBlocks < SIZE_T) (subdiv_level k : Nat)
    (hchild : SquareSpec bvh subdiv_level k) :
    ∀ (fuel : Nat) (curNode : RefLoc) (u0 v0 : Nat) (s : LazyState B),
      k + 1 < fuel → u0 + 2 ^ (k + 1) ≤ 256 → v0 + 2 ^ (k + 1) ≤ 256 →
      s.used64BytesBlocks + 2 * quadNodes (k + 1) < bvh.numAllocated64BytesBlocks →
      ∃ rest bounds b3,
        createSubTree bvh fuel curNode u0 (u0 + 2 ^ (k + 1)) v0 (v0 + 2 ^ (k + 1))
            subdiv_level s =
          some ({ s.store curNode (bvh.createBVH4iNode s.used64BytesBlocks)
                    (Event.node curNode s.used64BytesBlocks
                      (bvh.createBVH4iNode s.used64BytesBlocks)) with
                  used64BytesBlocks := s.used64BytesBlocks + 2 * quadNodes (k + 1)
                  events := s.events ++
                    (Event.node curNode s.used64BytesBlocks
                        (bvh.createBVH4iNode s.used64BytesBlocks) ::
                      Event.setInvalid s.used64BytesBlocks :: rest) },
            Outcome.done bounds) ∧
        rest.filter Event.storesRoot = [] ∧
        rest.filterMap Event.leafCell = (quadCells (k + 1) u0 v0).map (leafOf bvh) ∧
        rest.getLast? = some (Event.setBounds s.used64BytesBlocks 3 b3) ∧
        ∀ e ∈ rest, ∀ m ∈ e.nodeIndices, s.used64BytesBlocks ≤ m := by
  have hU := UINT_val
  have hS := SIZE_T_val
  intro fuel curNode u0 v0 s hfuel hu hv hroom
  obtain ⟨f, rfl⟩ : ∃ f, fuel = f + 1 := ⟨fuel - 1, by omega⟩
  have hpow : 2 ^ (k + 1) = 2 ^ k + 2 ^ k := by rw [Nat.pow_succ]; omega
  have hk1 : 1 ≤ 2 ^ k := Nat.one_le_two_pow
  have hq : quadNodes (k + 1) = 4 * quadNodes k + 1 := rfl
  rw [hq] at hroom
  have hext : ¬ subU (u0 + 2 ^ (k + 1)) u0 ≤ 1 := by
    rw [subU_exact (by omega) (by omega)]
    omega
  have humid : addU u0 (u0 + 2 ^ (k + 1)) / 2 = u0 + 2 ^ k := by
    rw [addU_exact (by omega)]
    omega
  have hvmid : addU v0 (v0 + 2 ^ (k + 1)) / 2 = v0 + 2 ^ k := by
    rw [addU_exact (by omega)]
    omega
  have hadd : addS s.used64BytesBlocks 2 = s.used64BytesBlocks + 2 := addS_exact (by omega)
  have hcheck : ¬ s.used64BytesBlocks + 2 ≥ bvh.numAllocated64BytesBlocks := by omega
  have hue : u0 + 2 ^ (k + 1) = u0 + 2 ^ k + 2 ^ k := by omega
  have hve : v0 + 2 ^ (k + 1) = v0 + 2 ^ k + 2 ^ k := by omega
  unfold createSubTree
  rw [if_neg hext]
  simp only [hadd, humid, hvmid]
  rw [if_neg hcheck]
  -- child 0
  obtain ⟨evs0, b0, h0, hs0, hl0, hn0⟩ :=
    hchild f s.used64BytesBlocks 0 u0 v0
      ((({ s with used64BytesBlocks := s.used64BytesBlocks + 2 } : LazyState B).store curNode
          (bvh.createBVH4iNode s.used64BytesBlocks)
          (Event.node curNode s.used64BytesBlocks
            (bvh.createBVH4iNode s.used64BytesBlocks))).record
        (Event.setInvalid s.used64BytesBlocks))
      (by omega) (by omega) (by omega)
      (by simp only [LazyState.record, LazyState.store_used]; omega)
  rw [h0]
  simp only []
  -- child 1
  generalize hS1 : LazyState.record _ (Event.setBounds s.used64BytesBlocks 0 b0) = S1
  have hS1u : S1.used64BytesBlocks = s.used64BytesBlocks + 2 + 2 * quadNodes k := by
    rw [← hS1]
    simp only [LazyState.record, LazyState.store_used]
  obtain ⟨evs1, b1, h1, hs1, hl1, hn1⟩ :=
    hchild f s.used64BytesBlocks 1 (u0 + 2 ^ k) v0 S1
      (by omega) (by omega) (by omega) (by omega)
  rw [hue, h1]
  simp only []
  -- child 2
  generalize hS2 : LazyState.record _ (Event.setBounds s.used64BytesBlocks 1 b1) = S2
  have hS2u : S2.used64BytesBlocks = S1.used64BytesBlocks + 2 * quadNodes k := by
    rw [← hS2]
    simp only [LazyState.record, LazyState.store_used]
  obtain ⟨evs2, b2, h2, hs2, hl2, hn2⟩ :=
    hchild f s.used64BytesBlocks 2 (u0 + 2 ^ k) (v0 + 2 ^ k) S2
      (by omega) (by omega) (by omega) (by omega)
  rw [hve, h2]
  simp only []
  -- child 3
  generalize hS3 : LazyState.record _ (Event.setBounds s.used64BytesBlocks 2 b2) = S3
  have hS3u : S3.used64BytesBlocks = S2.used64BytesBlocks + 2 * quadNodes k := by
    rw [← hS3]
    simp only [LazyState.record, LazyState.store_used]
  obtain ⟨evs3, b3, h3, hs3, hl3, hn3⟩ :=
    hchild f s.used64BytesBlocks 3 u0 (v0 + 2 ^ k) S3
      (by omega) (by omega) (by omega) (by omega)
  rw [h3]
  simp only []
  refine ⟨evs0 ++ [Event.setBounds s.used64BytesBlocks 0 b0] ++ evs1 ++
      [Event.setBounds s.used64BytesBlocks 1 b1] ++ evs2 ++
      [Event.setBounds s.used64BytesBlocks 2 b2] ++ evs3 ++
      [Event.setBounds s.used64BytesBlocks 3 b3],
    bvh.extend (bvh.extend (bvh.extend (bvh.extend bvh.empty b0) b1) b2) b3, b3,
    ?_, ?_, ?_, ?_, ?_⟩
  · subst hS3 hS2 hS1
    congr 2
    cases curNode <;>
      simp only [LazyState.store, LazyState.record, List.append_assoc, List.cons_append,
        List.nil_append, LazyState.mk.injEq, and_true, true_and, List.singleton_append] <;>
      omega
  · simp only [List.filter_append, hs0, hs1, hs2, hs3]
    rfl
  · simp only [List.filterMap_append, hl0, hl1, hl2, hl3, quadCells, List.map_append]
    simp [Event.leafCell]
  · exact List.getLast?_concat _
  · intro e he m hm
    simp only [List.mem_append, List.mem_singleton] at he
    simp only [LazyState.record, LazyState.store_used] at hn0
    rcases he with ((((((he | he) | he) | he) | he) | he) | he) | he
    · rcases hn0 e he m hm with h | h <;> omega
    · subst he
      simp only [Event.nodeIndices, List.mem_singleton] at hm
      omega
    · rcases hn1 e he m hm with h | h <;> omega
    · subst he
      simp only [Event.nodeIndices, List.mem_singleton] at hm
      omega
    · rcases hn2 e he m hm with h | h <;> omega
    · subst he
      simp only [Event.nodeIndices, List.mem_singleton] at hm
      omega
    · rcases hn3 e he m hm with h | h <;> omega
    · subst he
      simp only [Event.nodeIndices, List.mem_singleton] at hm
      omega

theorem squareSpec_succ {B : Type} (bvh : BVH4i B)
    (hN : bvh.numAllocated64BytesBlocks < SIZE_T) (subdiv_level k : Nat)
    (hchild : SquareSpec bvh subdiv_level k) : SquareSpec bvh subdiv_level (k + 1) := by
  intro fuel n i u0 v0 s hfuel hu hv hroom
  obtain ⟨rest, bounds, b3, hrun, hroot, hleaf, _, hidx⟩ :=
    createSubTree_square_step bvh hN subdiv_level k hchild fuel (RefLoc.child n i) u0 v0 s
      hfuel hu hv hroom
  refine ⟨Event.node (RefLoc.child n i) s.used64BytesBlocks
      (bvh.createBVH4iNode s.used64BytesBlocks) ::
    Event.setInvalid s.used64BytesBlocks :: rest, bounds, ?_, ?_, ?_, ?_⟩
  · rw [hrun]
    rfl
  · simp only [List.filter_cons, Event.storesRoot, hroot]
    rfl
  · simp only [List.filterMap_cons, Event.leafCell, hleaf]
  · intro e he m hm
    simp only [List.mem_cons] at he
    rcases he with he | he | he
    · subst he
      simp only [Event.nodeIndices, List.mem_cons, List.mem_singleton, List.not_mem_nil,
        or_false] at hm
      rcases hm with h | h
      · exact Or.inl h
      · exact Or.inr (by omega)
    · subst he
      simp only [Event.nodeIndices, List.mem_singleton] at hm
      exact Or.inr (by omega)
    · exact Or.inr (hidx e he m hm)

theorem squareSpec_all {B : Type} (bvh : BVH4i B)
    (hN : bvh.numAllocated64BytesBlocks < SIZE_T) (subdiv_level : Nat) :
    ∀ k, SquareSpec bvh subdiv_level k
  | 0 => squareSpec_zero bvh subdiv_level
  | k + 1 => squareSpec_succ bvh hN subdiv_level k (squareSpec_all bvh hN subdiv_level k)

/-! ### The cells of a square -/

theorem quadCells_length : ∀ (k u0 v0 : Nat), (quadCells k u0 v0).length = 4 ^ k
  | 0, _, _ => rfl
  | k + 1, u0, v0 => by
    simp only [quadCells, List.length_append, quadCells_length k, Nat.pow_succ]
    omega

theorem mem_quadCells : ∀ (k u0 v0 : Nat) (c : Nat × Nat),
    c ∈ quadCells k u0 v0 ↔
      (u0 ≤ c.1 ∧ c.1 < u0 + 2 ^ k) ∧ (v0 ≤ c.2 ∧ c.2 < v0 + 2 ^ k)
  | 0, u0, v0, c => by
    obtain ⟨u, v⟩ := c
    simp only [quadCells, List.mem_singleton, Prod.mk.injEq, Nat.pow_zero]
    omega
  | k + 1, u0, v0, c => by
    have hpow : 2 ^ (k + 1) = 2 ^ k + 2 ^ k := by rw [Nat.pow_succ]; omega
    simp only [quadCells, List.mem_append, mem_quadCells k, hpow]
    omega

theorem quadCells_nodup : ∀ (k u0 v0 : Nat), (quadCells k u0 v0).Nodup
  | 0, _, _ => List.nodup_singleton _
  | k + 1, u0, v0 => by
    have h0 := quadCells_nodup k u0 v0
    have h1 := quadCells_nodup k (u0 + 2 ^ k) v0
    have h2 := quadCells_nodup k (u0 + 2 ^ k) (v0 + 2 ^ k)
    have h3 := quadCells_nodup k u0 (v0 + 2 ^ k)
    simp only [quadCells]
    refine List.Nodup.append (List.Nodup.append (List.Nodup.append h0 h1 ?_) h2 ?_) h3 ?_
    · intro c hc0 hc1
      rw [mem_quadCells] at hc0 hc1
      omega
    · intro c hc hc2
      simp only [List.mem_append, mem_quadCells] at hc hc2
      omega
    · intro c hc hc3
      simp only [List.mem_append, mem_quadCells] at hc hc3
      omega

/-- On a square of side `2^k` inside the grid, with room for the nodes,
`createSubTree` returns: it allocates `quadNodes k` nodes and stores the
leaves of `quadCells k u0 v0`, in order. -/
theorem createSubTree_square {B : Type} (bvh : BVH4i B)
    (hN : bvh.numAllocated64BytesBlocks < SIZE_T) (subdiv_level k fuel : Nat)
    (curNode : RefLoc) (u0 v0 : Nat) (s : LazyState B)
    (hfuel : k < fuel) (hu : u0 + 2 ^ k ≤ 256) (hv : v0 + 2 ^ k ≤ 256)
    (hroom : s.used64BytesBlocks + 2 * quadNodes k < bvh.numAllocated64BytesBlocks) :
    ∃ s1 bounds evs,
      createSubTree bvh fuel curNode u0 (u0 + 2 ^ k) v0 (v0 + 2 ^ k) subdiv_level s =
        some (s1, Outcome.done bounds) ∧
      s1.used64BytesBlocks = s.used64BytesBlocks + 2 * quadNodes k ∧
      s1.events = s.events ++ evs ∧
      s1.under_construction = s.under_construction ∧
      s1.numLazyBuildPatches = s.numLazyBuildPatches ∧
      evs.filterMap Event.leafCell = (quadCells k u0 v0).map (leafOf bvh) := by
  cases k with
  | zero =>
    obtain ⟨f, rfl⟩ : ∃ f, fuel = f + 1 := ⟨fuel - 1, by omega⟩
    rw [createSubTree_leaf bvh subdiv_level f curNode u0 v0 s (by simpa using hu)]
    refine ⟨_, _, [Event.leaf curNode u0 (u0 + 1) v0 (v0 + 1) (leafOf bvh (u0, v0)).2.2.2.2.1
      (leafOf bvh (u0, v0)).2.2.2.2.2], rfl, ?_, ?_, ?_, ?_, rfl⟩
    · rw [LazyState.store_used]
      rfl
    · rw [LazyState.store_events]
    · rw [LazyState.store_under_construction]
    · rw [LazyState.store_numLazyBuildPatches]
  | succ k =>
    obtain ⟨rest, bounds, b3, hrun, _, hleaf, _, _⟩ :=
      createSubTree_square_step bvh hN subdiv_level k (squareSpec_all bvh hN subdiv_level k)
        fuel curNode u0 v0 s hfuel hu hv hroom
    refine ⟨_, bounds, _, hrun, rfl, rfl, ?_, ?_, ?_⟩
    · exact LazyState.store_under_construction _ _ _ _
    · exact LazyState.store_numLazyBuildPatches _ _ _ _
    · simp only [List.filterMap_cons, Event.leafCell, hleaf]

/-- The reference `createSubPatchBVH4iLeaf` stores for a data word of 16 bits,
when the flags lie below `encodingBits` and the shifted word fits in 32 bits:
the data word is above the flags, and shifting right by `encodingBits` gives
it back. -/
theorem createSubPatchBVH4iLeaf_decode {B : Type} (bvh : BVH4i B) (data : Nat)
    (hdata : data < 2 ^ 16) (henc : bvh.encodingBits ≤ 16)
    (hleaf : bvh.leaf_mask < 2 ^ bvh.encodingBits)
    (haux : bvh.aux_flag_mask < 2 ^ bvh.encodingBits) :
    createSubPatchBVH4iLeaf bvh data 0 =
      2 ^ bvh.encodingBits * data + (bvh.leaf_mask ||| bvh.aux_flag_mask) ∧
    createSubPatchBVH4iLeaf bvh data 0 < UINT ∧
    createSubPatchBVH4iLeaf bvh data 0 >>> bvh.encodingBits = data := by
  have hU := UINT_val
  have hm : bvh.leaf_mask ||| bvh.aux_flag_mask < 2 ^ bvh.encodingBits :=
    Nat.or_lt_two_pow hleaf haux
  have hpe : 2 ^ bvh.encodingBits ≤ 2 ^ 16 := Nat.pow_le_pow_right (by omega) henc
  have hpos : 0 < 2 ^ bvh.encodingBits := Nat.two_pow_pos _
  have hprod : 2 ^ bvh.encodingBits * data < 2 ^ 16 * 2 ^ 16 := by
    calc 2 ^ bvh.encodingBits * data < 2 ^ bvh.encodingBits * 2 ^ 16 :=
          Nat.mul_lt_mul_of_pos_left hdata hpos
      _ ≤ 2 ^ 16 * 2 ^ 16 := Nat.mul_le_mul_right _ hpe
  have hval : createSubPatchBVH4iLeaf bvh data 0 =
      2 ^ bvh.encodingBits * data + (bvh.leaf_mask ||| bvh.aux_flag_mask) := by
    unfold createSubPatchBVH4iLeaf
    rw [Nat.or_zero, Nat.or_assoc, Nat.shiftLeft_eq, Nat.mul_comm data,
      Nat.mod_eq_of_lt (by rw [hU]; omega), ← Nat.mul_add_lt_is_or hm]
  refine ⟨hval, ?_, ?_⟩
  · rw [hval, hU]
    have : 2 ^ bvh.encodingBits * data + 2 ^ bvh.encodingBits ≤ 2 ^ 16 * 2 ^ 16 := by
      calc 2 ^ bvh.encodingBits * data + 2 ^ bvh.encodingBits
          = 2 ^ bvh.encodingBits * (data + 1) := by ring
        _ ≤ 2 ^ bvh.encodingBits * 2 ^ 16 := Nat.mul_le_mul_left _ (by omega)
        _ ≤ 2 ^ 16 * 2 ^ 16 := Nat.mul_le_mul_right _ hpe
    omega
  · rw [hval, Nat.shiftRight_eq_div_pow, Nat.mul_add_div hpos, Nat.div_eq_of_lt hm]
    rfl

/-- The leaves of `quadCells k 0 0` are the unit cells of the grid, when
`offsetIndex` is the shift right by `encodingBits`, the flags lie below
`encodingBits`, and a data word of 16 bits shifted left fits in 32 bits. -/
theorem leavesAreUnitCells_quadCells {B : Type} (bvh : BVH4i B) (k : Nat)
    (hk : 2 ^ k ≤ 256)
    (hoff : ∀ ref, bvh.offsetIndex ref = ref >>> bvh.encodingBits)
    (henc : bvh.encodingBits ≤ 16)
    (hleaf : bvh.leaf_mask < 2 ^ bvh.encodingBits)
    (haux : bvh.aux_flag_mask < 2 ^ bvh.encodingBits) :
    LeavesAreUnitCells bvh k ((quadCells k 0 0).map (leafOf bvh)) := by
  have hU := UINT_val
  have hcell : (fun c : Nat × Nat × Nat × Nat × Nat × Nat => (c.1, c.2.2.1)) ∘ leafOf bvh
      = id := by
    funext c
    rfl
  refine ⟨?_, ?_, ?_, ?_⟩
  · rw [List.length_map, quadCells_length]
  · intro c hc
    obtain ⟨⟨u, v⟩, hmem, rfl⟩ := List.mem_map.mp hc
    rw [mem_quadCells] at hmem
    simp only [Nat.zero_add] at hmem
    obtain ⟨h1, h2, h3, h4⟩ := leaf_data_roundtrip u v (by omega) (by omega)
    have hdata : ((v <<< 8) % UINT) ||| u < 2 ^ 16 := by
      rw [h2]
      omega
    obtain ⟨_, hlt, hdec⟩ :=
      createSubPatchBVH4iLeaf_decode bvh (((v <<< 8) % UINT) ||| u) hdata henc hleaf haux
    have hidx : bvh.offsetIndex (createSubPatchBVH4iLeaf bvh (((v <<< 8) % UINT) ||| u) 0) =
        ((v <<< 8) % UINT) ||| u := by
      rw [hoff, hdec]
    refine ⟨?_, ?_, rfl, ?_, ?_, ?_, rfl, hlt, hidx, ?_⟩
    · show subU (u + 1) u = 1
      rw [subU_exact (by omega) (by omega)]
      omega
    · show subU (v + 1) v = 1
      rw [subU_exact (by omega) (by omega)]
      omega
    · exact h1
    · exact h3
    · exact h4
    · show leafUV bvh (createSubPatchBVH4iLeaf bvh (((v <<< 8) % UINT) ||| u) 0) = (u, v)
      have hmod : (((v <<< 8) % UINT) ||| u) % UINT = ((v <<< 8) % UINT) ||| u :=
        Nat.mod_eq_of_lt (by omega)
      unfold leafUV
      simp only [hidx, hmod]
      rw [h3, h4]
  · rw [List.map_map, hcell, List.map_id]
    exact quadCells_nodup k 0 0
  · intro u v
    rw [List.map_map, hcell, List.map_id, mem_quadCells]
    simp only [Nat.zero_add]
    omega

/-- The path of `initLazySubdivTree` of a thread that finds the counter at
zero: `createSubTree` is called for the root reference on the grid
`[0, 2^subdiv_level] x [0, 2^subdiv_level]`. -/
theorem initLazySubdivTree_builder {B : Type} (bvh : BVH4i B) (fuel subdiv_level : Nat)
    (s : LazyState B) (h0 : s.under_construction = 0) (hk : subdiv_level < 32) :
    initLazySubdivTree bvh fuel subdiv_level s =
      match createSubTree bvh fuel RefLoc.root 0 (0 + 2 ^ subdiv_level) 0
          (0 + 2 ^ subdiv_level) subdiv_level
          { s with
            under_construction := 1
            numLazyBuildPatches := s.numLazyBuildPatches + 1
            events := s.events ++ [Event.atomicAdd 1] } with
      | none => none
      | some (s3, Outcome.fatal) => some (s3, Outcome.fatal)
      | some (s3, Outcome.done _) =>
        some ((s3.atomic_add (-1)).1, Outcome.done s3.bvh4i_subtree_root) := by
  have hU := UINT_val
  have hp : 2 ^ subdiv_level ≤ 2 ^ 31 := Nat.pow_le_pow_right (by omega) (by omega)
  have hgrid : subU (addU ((1 <<< subdiv_level) % UINT) 1) 1 = 0 + 2 ^ subdiv_level := by
    rw [Nat.one_shiftLeft]
    generalize 2 ^ subdiv_level = p at hp
    have hp1 : p ≤ 2147483648 := by simpa using hp
    rw [Nat.mod_eq_of_lt (show p < UINT by omega), addU_exact (show p + 1 < UINT by omega),
      subU_exact (show 1 ≤ p + 1 by omega) (show p + 1 < UINT by omega)]
    omega
  unfold initLazySubdivTree
  simp only [LazyState.atomic_add, h0, hgrid]
  simp only [Nat.zero_mod, ne_eq, not_true_eq_false, if_false, if_neg (Nat.not_le.mpr hk)]
  rfl

theorem level_le_of_grid {k : Nat} (hk : 2 ^ k ≤ 256) : k ≤ 8 := by
  by_contra h
  have h9 : 2 ^ 9 ≤ 2 ^ k := Nat.pow_le_pow_right (by omega) (by omega)
  omega

/-! ## The claims about the lazy sub-tree -/

/-- Claim C30: for every level `k` with `2^k ≤ 256` and room for the nodes
(`used64BytesBlocks + 2 * quadNodes k < numAllocated64BytesBlocks`),
`createSubTree` called for the root reference on `[0, 2^k] x [0, 2^k]`
returns (fuel above `k` is enough), and its leaves are the unit cells: `4^k`
leaves, both assertions hold at each, no cell twice, every cell `(u, v)` with
`u, v < 2^k` once, with data word `(v << 8) | u`.  The reference stored for
the leaf is `(data << encodingBits) | leaf_mask | aux_flag_mask | 0`, and the
traversal (`uv = curNode.offsetIndex()`, `u = uv & 0xff`, `v = uv >> 8`)
reads the cell back from it.  `initLazySubdivTree` of a thread that finds the
counter at zero makes this call at `k = subdiv_level`.  The header of `BVH4i`
is not among the source files: `offsetIndex` is taken to be the shift right
by `encodingBits`, the two flags to lie below `encodingBits`, and
`encodingBits` to be at most 16, so that the shifted data word fits in 32
bits. -/
theorem createSubTree_lazy_quadtree {B : Type} (bvh : BVH4i B) (subdiv_level k fuel : Nat)
    (s : LazyState B) (hN : bvh.numAllocated64BytesBlocks < SIZE_T) (hk : 2 ^ k ≤ 256)
    (hfuel : k < fuel)
    (hroom : s.used64BytesBlocks + 2 * quadNodes k < bvh.numAllocated64BytesBlocks)
    (hoff : ∀ ref, bvh.offsetIndex ref = ref >>> bvh.encodingBits)
    (henc : bvh.encodingBits ≤ 16)
    (hleaf : bvh.leaf_mask < 2 ^ bvh.encodingBits)
    (haux : bvh.aux_flag_mask < 2 ^ bvh.encodingBits) :
    (∃ s1 bounds evs,
      createSubTree bvh fuel RefLoc.root 0 (2 ^ k) 0 (2 ^ k) subdiv_level s =
        some (s1, Outcome.done bounds) ∧
      s1.events = s.events ++ evs ∧
      LeavesAreUnitCells bvh k (evs.filterMap Event.leafCell)) ∧
    (s.under_construction = 0 →
      ∃ s1 evs,
        initLazySubdivTree bvh fuel k s = some (s1, Outcome.done s1.bvh4i_subtree_root) ∧
        s1.events = s.events ++ Event.atomicAdd 1 :: evs ++ [Event.atomicAdd (-1)] ∧
        LeavesAreUnitCells bvh k (evs.filterMap Event.leafCell)) := by
  have hk8 := level_le_of_grid hk
  constructor
  · obtain ⟨s1, bounds, evs, hrun, _, hev, _, _, hleaves⟩ :=
      createSubTree_square bvh hN subdiv_level k fuel RefLoc.root 0 0 s hfuel
        (by omega) (by omega) hroom
    rw [Nat.zero_add] at hrun
    refine ⟨s1, bounds, evs, hrun, hev, ?_⟩
    rw [hleaves]
    exact leavesAreUnitCells_quadCells bvh k hk hoff henc hleaf haux
  · intro h0
    obtain ⟨s1, bounds, evs, hrun, _, hev, _, _, hleaves⟩ :=
      createSubTree_square bvh hN k k fuel RefLoc.root 0 0
        { s with
          under_construction := 1
          numLazyBuildPatches := s.numLazyBuildPatches + 1
          events := s.events ++ [Event.atomicAdd 1] } hfuel
        (by omega) (by omega) hroom
    rw [initLazySubdivTree_builder bvh fuel k s h0 (by omega), hrun]
    refine ⟨(s1.atomic_add (-1)).1, evs, rfl, ?_, ?_⟩
    · show s1.events ++ [Event.atomicAdd (-1)] = _
      rw [hev]
      simp
    · rw [hleaves]
      exact leavesAreUnitCells_quadCells bvh k hk hoff henc hleaf haux

theorem createSubTree_lazy_quadtree_witness :
    (∃ s1 bounds evs,
      createSubTree (exampleBVH4i 100) 3 RefLoc.root 0 (2 ^ 2) 0 (2 ^ 2) 2 (freshPatch 0) =
        some (s1, Outcome.done bounds) ∧
      s1.events = (freshPatch 0).events ++ evs ∧
      LeavesAreUnitCells (exampleBVH4i 100) 2 (evs.filterMap Event.leafCell)) ∧
    ((freshPatch 0).under_construction = 0 →
      ∃ s1 evs,
        initLazySubdivTree (exampleBVH4i 100) 3 2 (freshPatch 0) =
          some (s1, Outcome.done s1.bvh4i_subtree_root) ∧
        s1.events = (freshPatch 0).events ++ Event.atomicAdd 1 :: evs ++
          [Event.atomicAdd (-1)] ∧
        LeavesAreUnitCells (exampleBVH4i 100) 2 (evs.filterMap Event.leafCell)) :=
  createSubTree_lazy_quadtree (exampleBVH4i 100) 2 2 3 (freshPatch 0)
    (show 100 < SIZE_T by rw [SIZE_T_val]; decide) (by decide) (by decide) (by decide)
    (fun _ => rfl) (by decide) (by decide) (by decide)

/-- What the building thread does in `initLazySubdivTree`, for the levels 1
to 8 and with room for the nodes: the root reference of the patch is written
once, by the first store of `createSubTree` (`createBVH4iNode` for the node
of the root, before `setInvalid`, before the four child sub-trees and their
bounds), so every leaf, every other node and all bounds are written after
it.  All stores lie between the increment and the decrement of the
in-construction counter, and the reference returned is the one stored. -/
theorem initLazySubdivTree_root_stored_first {B : Type} (bvh : BVH4i B) (fuel k : Nat)
    (s : LazyState B) (hN : bvh.numAllocated64BytesBlocks < SIZE_T)
    (hk : 2 ^ (k + 1) ≤ 256) (hfuel : k + 1 < fuel) (h0 : s.under_construction = 0)
    (hroom : s.used64BytesBlocks + 2 * quadNodes (k + 1) < bvh.numAllocated64BytesBlocks) :
    ∃ s1 rest b3,
      initLazySubdivTree bvh fuel (k + 1) s =
        some (s1, Outcome.done (bvh.createBVH4iNode s.used64BytesBlocks)) ∧
      s1.bvh4i_subtree_root = bvh.createBVH4iNode s.used64BytesBlocks ∧
      s1.under_construction = 0 ∧
      s1.events = s.events ++ Event.atomicAdd 1 ::
        Event.node RefLoc.root s.used64BytesBlocks (bvh.createBVH4iNode s.used64BytesBlocks) ::
        Event.setInvalid s.used64BytesBlocks :: rest ++ [Event.atomicAdd (-1)] ∧
      rest.filter Event.storesRoot = [] ∧
      (rest.filterMap Event.leafCell).length = 4 ^ (k + 1) ∧
      rest.getLast? = some (Event.setBounds s.used64BytesBlocks 3 b3) := by
  have hk8 := level_le_of_grid hk
  obtain ⟨rest, bounds, b3, hrun, hroot, hleaf, hlast, _⟩ :=
    createSubTree_square_step bvh hN (k + 1) k (squareSpec_all bvh hN (k + 1) k)
      fuel RefLoc.root 0 0
      { s with
        under_construction := 1
        numLazyBuildPatches := s.numLazyBuildPatches + 1
        events := s.events ++ [Event.atomicAdd 1] } hfuel
      (by omega) (by omega) hroom
  rw [initLazySubdivTree_builder bvh fuel (k + 1) s h0 (by omega), hrun]
  refine ⟨_, rest, b3, rfl, rfl, rfl, ?_, hroot, ?_, hlast⟩
  · simp [LazyState.atomic_add]
  · rw [hleaf, List.length_map, quadCells_length]

/-- Claim C23, evaluated: at subdivision level 2 (the level `intersect`
passes), on a fresh patch, whose sub-tree `intersect` finds missing, the
second event of `initLazySubdivTree` stores the reference 0 of the node at
block 0 in the root reference.  After these two events the root reference is
0, not `invalidNode`, while the counter is 1: the test of `intersect`, which
reads the root reference only, no longer finds the sub-tree missing.  The
node is invalidated, all 16 leaves are stored and the counter is put back
after that, and no later event stores to the root reference. -/
theorem root_reference_set_before_subtree :
    subtreeMissing (exampleBVH4i 100) (freshPatch 0) = true ∧
    (initLazySubdivTree (exampleBVH4i 100) 3 2 (freshPatch 0)).map
        (fun r => (r.1.events.take 3,
          rootAfter (freshPatch 0).bvh4i_subtree_root (r.1.events.take 2),
          ((r.1.events.drop 2).filterMap Event.leafCell).length,
          (r.1.events.drop 2).filter Event.storesRoot)) =
      some ([Event.atomicAdd 1, Event.node RefLoc.root 0 0, Event.setInvalid 0], 0, 16, []) ∧
    (initLazySubdivTree (exampleBVH4i 100) 3 2 (freshPatch 0)).map
        (fun r => (r.1.events.getLast?,
          rootAfter (freshPatch 0).bvh4i_subtree_root r.1.events == r.1.bvh4i_subtree_root)) =
      some (some (Event.atomicAdd (-1)), true) ∧
    subtreeMissing (exampleBVH4i 100)
      { freshPatch 0 with under_construction := 1, bvh4i_subtree_root := 0 } = false :=
  ⟨by decide, by decide, by decide, rfl⟩

/-- Claim C24, evaluated: two threads find the sub-tree of a fresh patch
missing (there is one state, so one test for both).  The first runs
`initLazySubdivTree` to its end: it builds (5 nodes, blocks 0 to 9) and
returns the reference 0.  The second then makes its call: the counter is back
at zero, so it builds the sub-tree a second time (blocks 10 to 19), replaces
the root reference by 160 and returns that. -/
theorem second_thread_builds_again :
    subtreeMissing (exampleBVH4i 100) (freshPatch 0) = true ∧
    (initLazySubdivTree (exampleBVH4i 100) 3 2 (freshPatch 0)).map
        (fun r => (r.2, r.1.numLazyBuildPatches, r.1.used64BytesBlocks,
          r.1.bvh4i_subtree_root, r.1.under_construction)) =
      some (Outcome.done 0, 1, 10, 0, 0) ∧
    ((initLazySubdivTree (exampleBVH4i 100) 3 2 (freshPatch 0)).bind
        (fun r => initLazySubdivTree (exampleBVH4i 100) 3 2 r.1)).map
        (fun r => (r.2, r.1.numLazyBuildPatches, r.1.used64BytesBlocks,
          r.1.bvh4i_subtree_root, r.1.under_construction,
          (r.1.events.filter Event.storesRoot).length)) =
      some (Outcome.done 160, 2, 20, 160, 0, 2) := by
  decide!

/-! ### The nodes written lie in the arena -/

theorem node_event_indices {B : Type} (curNode : RefLoc) (c v N : Nat) (hc : c + 2 < N) :
    ∀ m ∈ (Event.node curNode c v : Event B).nodeIndices,
      (∃ i, curNode = RefLoc.child m i) ∨ m + 2 < N := by
  intro m hm
  cases curNode with
  | root =>
    simp only [Event.nodeIndices, List.mem_singleton] at hm
    exact Or.inr (by omega)
  | child n i =>
    simp only [Event.nodeIndices, List.mem_cons, List.mem_singleton, List.not_mem_nil,
      or_false] at hm
    rcases hm with h | h
    · exact Or.inl ⟨i, by rw [h]⟩
    · exact Or.inr (by omega)

theorem leaf_event_indices {B : Type} (curNode : RefLoc) (a b c d data v N : Nat) :
    ∀ m ∈ (Event.leaf curNode a b c d data v : Event B).nodeIndices,
      (∃ i, curNode = RefLoc.child m i) ∨ m + 2 < N := by
  intro m hm
  cases curNode with
  | root => simp [Event.nodeIndices] at hm
  | child n i =>
    simp only [Event.nodeIndices, List.mem_singleton] at hm
    exact Or.inl ⟨i, by rw [hm]⟩

theorem child_indices_in_arena {B : Type} {evs : List (Event B)} {c j N : Nat}
    (hc : c + 2 < N)
    (h : ∀ e ∈ evs, ∀ m ∈ e.nodeIndices, (∃ i, RefLoc.child c j = RefLoc.child m i) ∨ m + 2 < N) :
    ∀ e ∈ evs, ∀ m ∈ e.nodeIndices, m + 2 < N := by
  intro e he m hm
  rcases h e he m hm with ⟨i, hi⟩ | h1
  · injection hi with h2 _
    omega
  · exact h1

theorem setBounds_indices_in_arena {B : Type} {c j N : Nat} (b : B) (hc : c + 2 < N) :
    ∀ e ∈ [(Event.setBounds c j b : Event B)], ∀ m ∈ e.nodeIndices, m + 2 < N := by
  intro e he m hm
  simp only [List.mem_singleton] at he
  subst he
  simp only [Event.nodeIndices, List.mem_singleton] at hm
  omega

theorem setInvalid_indices_in_arena {B : Type} {c N : Nat} (hc : c + 2 < N) :
    ∀ e ∈ [(Event.setInvalid c : Event B)], ∀ m ∈ e.nodeIndices, m + 2 < N := by
  intro e he m hm
  simp only [List.mem_singleton] at he
  subst he
  simp only [Event.nodeIndices, List.mem_singleton] at hm
  omega

theorem indices_append {B : Type} {N : Nat} {l1 l2 : List (Event B)}
    (h1 : ∀ e ∈ l1, ∀ m ∈ e.nodeIndices, m + 2 < N)
    (h2 : ∀ e ∈ l2, ∀ m ∈ e.nodeIndices, m + 2 < N) :
    ∀ e ∈ l1 ++ l2, ∀ m ∈ e.nodeIndices, m + 2 < N := by
  intro e he
  rcases List.mem_append.mp he with h | h
  · exact h1 e h
  · exact h2 e h

theorem node_indices_cons {B : Type} {N : Nat} (curNode : RefLoc) (c v : Nat)
    (hc : c + 2 < N) {l : List (Event B)}
    (h : ∀ e ∈ l, ∀ m ∈ e.nodeIndices, m + 2 < N) :
    ∀ e ∈ (Event.node curNode c v : Event B) :: l, ∀ m ∈ e.nodeIndices,
      (∃ i, curNode = RefLoc.child m i) ∨ m + 2 < N := by
  intro e he m hm
  rcases List.mem_cons.mp he with h1 | h1
  · subst h1
    exact node_event_indices curNode c v N hc m hm
  · exact Or.inr (h e h1 m hm)

/-- With fuel for the blocks left in the arena, `createSubTree` returns for
every argument; the nodes it stores into lie below the end of the arena. -/
theorem createSubTree_arena {B : Type} (bvh : BVH4i B)
    (hN : bvh.numAllocated64BytesBlocks + 2 ≤ SIZE_T) :
    ∀ (fuel : Nat) (curNode : RefLoc) (u_start u_end v_start v_end subdiv_level : Nat)
      (s : LazyState B),
      s.used64BytesBlocks + 2 < SIZE_T →
      bvh.numAllocated64BytesBlocks + 2 ≤ s.used64BytesBlocks + 2 * fuel → 1 ≤ fuel →
      ∃ s1 out evs,
        createSubTree bvh fuel curNode u_start u_end v_start v_end subdiv_level s =
          some (s1, out) ∧
        s1.events = s.events ++ evs ∧
        s.used64BytesBlocks ≤ s1.used64BytesBlocks ∧
        (∀ e ∈ evs, ∀ m ∈ e.nodeIndices,
          (∃ i, curNode = RefLoc.child m i) ∨ m + 2 < bvh.numAllocated64BytesBlocks) ∧
        (out = Outcome.fatal → bvh.numAllocated64BytesBlocks ≤ s1.used64BytesBlocks) ∧
        (out ≠ Outcome.fatal →
          s1.used64BytesBlocks = s.used64BytesBlocks ∨
            s1.used64BytesBlocks < bvh.numAllocated64BytesBlocks) ∧
        (1 < subU u_end u_start →
          bvh.numAllocated64BytesBlocks ≤ s.used64BytesBlocks + 2 →
          s1 = { s with used64BytesBlocks := s.used64BytesBlocks + 2 } ∧
            out = Outcome.fatal ∧ evs = []) ∧
        (1 < subU u_end u_start →
          s.used64BytesBlocks + 2 < bvh.numAllocated64BytesBlocks →
          ∃ rest, evs = Event.node curNode s.used64BytesBlocks
            (bvh.createBVH4iNode s.used64BytesBlocks) ::
            Event.setInvalid s.used64BytesBlocks :: rest) := by
  have hS := SIZE_T_val
  intro fuel
  induction fuel with
  | zero => intro _ _ _ _ _ _ _ _ _ h; omega
  | succ f ih =>
    intro curNode u_start u_end v_start v_end subdiv_level s hs hfuel _
    have hadd : addS s.used64BytesBlocks 2 = s.used64BytesBlocks + 2 := addS_exact (by omega)
    unfold createSubTree
    by_cases hext : subU u_end u_start ≤ 1
    · rw [if_pos hext]
      refine ⟨_, _, [Event.leaf curNode u_start u_end v_start v_end _ _], rfl,
        LazyState.store_events _ _ _ _, ?_, ?_, ?_, ?_, ?_, ?_⟩
      · rw [LazyState.store_used]
      · intro e he
        simp only [List.mem_singleton] at he
        subst he
        exact leaf_event_indices curNode _ _ _ _ _ _ _
      · intro h
        cases h
      · intro _
        exact Or.inl (LazyState.store_used _ _ _ _)
      · intro h
        omega
      · intro h
        omega
    · rw [if_neg hext]
      simp only [hadd]
      by_cases hcheck : s.used64BytesBlocks + 2 ≥ bvh.numAllocated64BytesBlocks
      · rw [if_pos hcheck]
        refine ⟨_, _, [], rfl, (List.append_nil _).symm, ?_, ?_, ?_, ?_, ?_, ?_⟩
        · show s.used64BytesBlocks ≤ s.used64BytesBlocks + 2
          omega
        · intro e he
          cases he
        · intro _
          exact hcheck
        · intro h
          exact absurd rfl h
        · intro _ _
          exact ⟨rfl, rfl, rfl⟩
        · intro _ h
          omega
      · rw [if_neg hcheck]
        have hc : s.used64BytesBlocks + 2 < bvh.numAllocated64BytesBlocks := by omega
        have hnode := setInvalid_indices_in_arena (B := B) hc
        -- child 0
        obtain ⟨s4, out0, evs0, h0, he0, hu0, hn0, hf0, hd0, _, _⟩ :=
          ih (RefLoc.child s.used64BytesBlocks 0) u_start (addU u_start u_end / 2)
            v_start (addU v_start v_end / 2) subdiv_level
            ((({ s with used64BytesBlocks := s.used64BytesBlocks + 2 } : LazyState B).store
                curNode (bvh.createBVH4iNode s.used64BytesBlocks)
                (Event.node curNode s.used64BytesBlocks
                  (bvh.createBVH4iNode s.used64BytesBlocks))).record
              (Event.setInvalid s.used64BytesBlocks))
            (by simp only [LazyState.record, LazyState.store_used]; omega)
            (by simp only [LazyState.record, LazyState.store_used]; omega) (by omega)
        simp only [LazyState.record, LazyState.store_used, LazyState.store_events] at he0 hu0 hd0
        have hn0 := child_indices_in_arena hc hn0
        rw [h0]
        cases out0 with
        | fatal =>
          refine ⟨s4, Outcome.fatal, Event.node curNode s.used64BytesBlocks
            (bvh.createBVH4iNode s.used64BytesBlocks) ::
            ([Event.setInvalid s.used64BytesBlocks] ++ evs0), rfl, ?_, by omega, ?_, ?_, ?_, ?_, ?_⟩
          · rw [he0]
            simp
          · exact node_indices_cons curNode _ _ hc (indices_append hnode hn0)
          · intro _
            exact hf0 rfl
          · intro h
            exact absurd rfl h
          · intro _ h
            omega
          · intro _ _
            exact ⟨_, rfl⟩
        | done b0 =>
          simp only []
          have hlt0 : s4.used64BytesBlocks < bvh.numAllocated64BytesBlocks := by
            rcases hd0 (by simp) with h | h <;> omega
          -- child 1
          obtain ⟨s5, out1, evs1, h1, he1, hu1, hn1, hf1, hd1, _, _⟩ :=
            ih (RefLoc.child s.used64BytesBlocks 1) (addU u_start u_end / 2) u_end
              v_start (addU v_start v_end / 2) subdiv_level
              (s4.record (Event.setBounds s.used64BytesBlocks 0 b0))
              (by simp only [LazyState.record]; omega)
              (by simp only [LazyState.record]; omega) (by omega)
          simp only [LazyState.record] at he1 hu1 hd1
          have hn1 := child_indices_in_arena hc hn1
          rw [h1]
          cases out1 with
          | fatal =>
            refine ⟨s5, Outcome.fatal, Event.node curNode s.used64BytesBlocks
              (bvh.createBVH4iNode s.used64BytesBlocks) ::
              ([Event.setInvalid s.used64BytesBlocks] ++ evs0 ++
                [Event.setBounds s.used64BytesBlocks 0 b0] ++ evs1),
              rfl, ?_, by omega, ?_, ?_, ?_, ?_, ?_⟩
            · rw [he1, he0]
              simp
            · exact node_indices_cons curNode _ _ hc
                (indices_append (indices_append (indices_append hnode hn0)
                  (setBounds_indices_in_arena b0 hc)) hn1)
            · intro _
              exact hf1 rfl
            · intro h
              exact absurd rfl h
            · intro _ h
              omega
            · intro _ _
              exact ⟨_, rfl⟩
          | done b1 =>
            simp only []
            have hlt1 : s5.used64BytesBlocks < bvh.numAllocated64BytesBlocks := by
              rcases hd1 (by simp) with h | h <;> omega
            -- child 2
            obtain ⟨s6, out2, evs2, h2, he2, hu2, hn2, hf2, hd2, _, _⟩ :=
              ih (RefLoc.child s.used64BytesBlocks 2) (addU u_start u_end / 2) u_end
                (addU v_start v_end / 2) v_end subdiv_level
                (s5.record (Event.setBounds s.used64BytesBlocks 1 b1))
                (by simp only [LazyState.record]; omega)
                (by simp only [LazyState.record]; omega) (by omega)
            simp only [LazyState.record] at he2 hu2 hd2
            have hn2 := child_indices_in_arena hc hn2
            rw [h2]
            cases out2 with
            | fatal =>
              refine ⟨s6, Outcome.fatal, Event.node curNode s.used64BytesBlocks
                (bvh.createBVH4iNode s.used64BytesBlocks) ::
                ([Event.setInvalid s.used64BytesBlocks] ++ evs0 ++
                  [Event.setBounds s.used64BytesBlocks 0 b0] ++ evs1 ++
                  [Event.setBounds s.used64BytesBlocks 1 b1] ++ evs2),
                rfl, ?_, by omega, ?_, ?_, ?_, ?_, ?_⟩
              · rw [he2, he1, he0]
                simp
              · exact node_indices_cons curNode _ _ hc
                  (indices_append (indices_append (indices_append (indices_append
                    (indices_append hnode hn0) (setBounds_indices_in_arena b0 hc)) hn1)
                    (setBounds_indices_in_arena b1 hc)) hn2)
              · intro _
                exact hf2 rfl
              · intro h
                exact absurd rfl h
              · intro _ h
                omega
              · intro _ _
                exact ⟨_, rfl⟩
            | done b2 =>
              simp only []
              have hlt2 : s6.used64BytesBlocks < bvh.numAllocated64BytesBlocks := by
                rcases hd2 (by simp) with h | h <;> omega
              -- child 3
              obtain ⟨s7, out3, evs3, h3, he3, hu3, hn3, hf3, hd3, _, _⟩ :=
                ih (RefLoc.child s.used64BytesBlocks 3) u_start (addU u_start u_end / 2)
                  (addU v_start v_end / 2) v_end subdiv_level
                  (s6.record (Event.setBounds s.used64BytesBlocks 2 b2))
                  (by simp only [LazyState.record]; omega)
                  (by simp only [LazyState.record]; omega) (by omega)
              simp only [LazyState.record] at he3 hu3 hd3
              have hn3 := child_indices_in_arena hc hn3
              rw [h3]
              cases out3 with
              | fatal =>
                refine ⟨s7, Outcome.fatal, Event.node curNode s.used64BytesBlocks
                  (bvh.createBVH4iNode s.used64BytesBlocks) ::
                  ([Event.setInvalid s.used64BytesBlocks] ++ evs0 ++
                    [Event.setBounds s.used64BytesBlocks 0 b0] ++ evs1 ++
                    [Event.setBounds s.used64BytesBlocks 1 b1] ++ evs2 ++
                    [Event.setBounds s.used64BytesBlocks 2 b2] ++ evs3),
                  rfl, ?_, by omega, ?_, ?_, ?_, ?_, ?_⟩
                · rw [he3, he2, he1, he0]
                  simp
                · exact node_indices_cons curNode _ _ hc
                    (indices_append (indices_append (indices_append (indices_append
                      (indices_append (indices_append (indices_append hnode hn0)
                      (setBounds_indices_in_arena b0 hc)) hn1)
                      (setBounds_indices_in_arena b1 hc)) hn2)
                      (setBounds_indices_in_arena b2 hc)) hn3)
                · intro _
                  exact hf3 rfl
                · intro h
                  exact absurd rfl h
                · intro _ h
                  omega
                · intro _ _
                  exact ⟨_, rfl⟩
              | done b3 =>
                simp only []
                have hlt3 : s7.used64BytesBlocks < bvh.numAllocated64BytesBlocks := by
                  rcases hd3 (by simp) with h | h <;> omega
                refine ⟨_, _, Event.node curNode s.used64BytesBlocks
                  (bvh.createBVH4iNode s.used64BytesBlocks) ::
                  ([Event.setInvalid s.used64BytesBlocks] ++ evs0 ++
                    [Event.setBounds s.used64BytesBlocks 0 b0] ++ evs1 ++
                    [Event.setBounds s.used64BytesBlocks 1 b1] ++ evs2 ++
                    [Event.setBounds s.used64BytesBlocks 2 b2] ++ evs3 ++
                    [Event.setBounds s.used64BytesBlocks 3 b3]),
                  rfl, ?_, ?_, ?_, ?_, ?_, ?_, ?_⟩
                · show s7.events ++ [Event.setBounds s.used64BytesBlocks 3 b3] = _
                  rw [he3, he2, he1, he0]
                  simp
                · show s.used64BytesBlocks ≤ s7.used64BytesBlocks
                  omega
                · exact node_indices_cons curNode _ _ hc
                    (indices_append (indices_append (indices_append (indices_append
                      (indices_append (indices_append (indices_append (indices_append hnode hn0)
                      (setBounds_indices_in_arena b0 hc)) hn1)
                      (setBounds_indices_in_arena b1 hc)) hn2)
                      (setBounds_indices_in_arena b2 hc)) hn3)
                      (setBounds_indices_in_arena b3 hc))
                · intro h
                  cases h
                · intro _
                  exact Or.inr hlt3
                · intro _ h
                  omega
                · intro _ _
                  exact ⟨_, rfl⟩

/-! ## The claim about the exhaustion of the node arena -/

/-- Claim C25 (amended): `createSubTree` returns for all arguments (fuel for
the blocks left in the arena is enough), with a result or by the fatal error.
A call that allocates a node at cursor value `c` raises the fatal error when
`c + 2 >= numAllocated64BytesBlocks`, having moved the cursor and written
nothing, and writes the node when `c + 2 < numAllocated64BytesBlocks`: the
allocation succeeds when the two blocks of the node and one more block fit.
Every node index `m` the run stores into, the node of `curNode` apart, has
`m + 2 < numAllocated64BytesBlocks`.  A run that ends by the fatal error
leaves the cursor at or above `numAllocated64BytesBlocks`; a run that ends
with a result has allocated nothing or leaves it below.  The cursor and the
size of the arena are block counts of memory that exists:
`used64BytesBlocks + 2` and `numAllocated64BytesBlocks + 1` are `size_t`
values. -/
theorem createSubTree_exhaustion_fatal {B : Type} (bvh : BVH4i B) (fuel : Nat)
    (curNode : RefLoc) (u_start u_end v_start v_end subdiv_level : Nat) (s : LazyState B)
    (hN : bvh.numAllocated64BytesBlocks + 2 ≤ SIZE_T)
    (hs : s.used64BytesBlocks + 2 < SIZE_T)
    (hfuel : bvh.numAllocated64BytesBlocks + 2 ≤ s.used64BytesBlocks + 2 * fuel)
    (hpos : 1 ≤ fuel) :
    ∃ s1 out evs,
      createSubTree bvh fuel curNode u_start u_end v_start v_end subdiv_level s =
        some (s1, out) ∧
      s1.events = s.events ++ evs ∧
      (1 < subU u_end u_start →
        bvh.numAllocated64BytesBlocks ≤ s.used64BytesBlocks + 2 →
        s1 = { s with used64BytesBlocks := s.used64BytesBlocks + 2 } ∧
          out = Outcome.fatal ∧ evs = []) ∧
      (1 < subU u_end u_start →
        s.used64BytesBlocks + 2 < bvh.numAllocated64BytesBlocks →
        ∃ rest, evs = Event.node curNode s.used64BytesBlocks
          (bvh.createBVH4iNode s.used64BytesBlocks) ::
          Event.setInvalid s.used64BytesBlocks :: rest) ∧
      (∀ e ∈ evs, ∀ m ∈ e.nodeIndices,
        (∃ i, curNode = RefLoc.child m i) ∨ m + 2 < bvh.numAllocated64BytesBlocks) ∧
      (out = Outcome.fatal → bvh.numAllocated64BytesBlocks ≤ s1.used64BytesBlocks) ∧
      (out ≠ Outcome.fatal →
        s1.used64BytesBlocks = s.used64BytesBlocks ∨
          s1.used64BytesBlocks < bvh.numAllocated64BytesBlocks) := by
  obtain ⟨s1, out, evs, hrun, hev, _, hidx, hfatal, hdone, hstop, hgo⟩ :=
    createSubTree_arena bvh hN fuel curNode u_start u_end v_start v_end subdiv_level s
      hs hfuel hpos
  exact ⟨s1, out, evs, hrun, hev, hstop, hgo, hidx, hfatal, hdone⟩

theorem createSubTree_exhaustion_fatal_witness :
    ∃ s1 out evs,
      createSubTree (exampleBVH4i 8) 5 RefLoc.root 0 4 0 4 2 (freshPatch 0) =
        some (s1, out) ∧
      s1.events = (freshPatch 0).events ++ evs ∧
      (1 < subU 4 0 →
        (exampleBVH4i 8).numAllocated64BytesBlocks ≤ (freshPatch 0).used64BytesBlocks + 2 →
        s1 = { freshPatch 0 with
               used64BytesBlocks := (freshPatch 0).used64BytesBlocks + 2 } ∧
          out = Outcome.fatal ∧ evs = []) ∧
      (1 < subU 4 0 →
        (freshPatch 0).used64BytesBlocks + 2 < (exampleBVH4i 8).numAllocated64BytesBlocks →
        ∃ rest, evs = Event.node RefLoc.root (freshPatch 0).used64BytesBlocks
          ((exampleBVH4i 8).createBVH4iNode (freshPatch 0).used64BytesBlocks) ::
          Event.setInvalid (freshPatch 0).used64BytesBlocks :: rest) ∧
      (∀ e ∈ evs, ∀ m ∈ e.nodeIndices,
        (∃ i, RefLoc.root = RefLoc.child m i) ∨
          m + 2 < (exampleBVH4i 8).numAllocated64BytesBlocks) ∧
      (out = Outcome.fatal → (exampleBVH4i 8).numAllocated64BytesBlocks ≤ s1.used64BytesBlocks) ∧
      (out ≠ Outcome.fatal →
        s1.used64BytesBlocks = (freshPatch 0).used64BytesBlocks ∨
          s1.used64BytesBlocks < (exampleBVH4i 8).numAllocated64BytesBlocks) :=
  createSubTree_exhaustion_fatal (exampleBVH4i 8) 5 RefLoc.root 0 4 0 4 2 (freshPatch 0)
    (show 8 + 2 ≤ SIZE_T by rw [SIZE_T_val]; decide)
    (show 0 + 2 < SIZE_T by rw [SIZE_T_val]; decide) (by decide) (by decide)

/-- Counterexample to claim C25 as stated: an arena of 2 blocks with the
cursor at 0 has room for the two blocks 0 and 1 of one node, and the call
for the grid `[0,2] x [0,2]` ends by the fatal error, with the cursor at 2
and nothing written. -/
theorem createSubTree_fatal_when_node_fits :
    (freshPatch 0).used64BytesBlocks + 2 ≤ (exampleBVH4i 2).numAllocated64BytesBlocks ∧
    (createSubTree (exampleBVH4i 2) 3 RefLoc.root 0 2 0 2 1 (freshPatch 0)).map
        (fun r => (r.2, r.1.used64BytesBlocks, r.1.events)) =
      some (Outcome.fatal, 2, []) := by
  decide

/-! ## The claim about the build of an empty scene -/

/-- A scene with primitives runs the loop: 20 times the five calls. -/
theorem buildLoop_calls_length {S R B : Type} (b : BVH4Triangle4BuilderFastClass S R B) :
    ∀ (n : Nat) (st : BuildState S R B),
      (b.buildLoop n st).calls.length = st.calls.length + 5 * n
  | 0, _ => rfl
  | n + 1, st => by
    rw [BVH4Triangle4BuilderFastClass.buildLoop, buildLoop_calls_length b n]
    simp only [BVH4Triangle4BuilderFastClass.buildOnce, List.length_append, List.length_cons,
      List.length_nil]
    omega

/-- Claim C22: when the scene has no primitive, `build` calls
`prims.resize(0)` and `bvh->set(BVH4::emptyNode,empty,0)` and nothing else:
the BVH is what `set` makes of it for the root `emptyNode`, the bounds
`empty` and the count 0, and no call initialises the allocator, generates
the primitive references or runs the SAH builder. -/
theorem build_empty_scene {S R B : Type} (b : BVH4Triangle4BuilderFastClass S R B)
    (st : BuildState S R B) (h : b.numPrimitives = 0) :
    (b.build st).bvh = b.set b.emptyNode b.empty 0 st.bvh ∧
    (b.build st).prims = 0 ∧
    (b.build st).calls =
      st.calls ++ [BuildCall.resize 0, BuildCall.set b.emptyNode b.empty 0] ∧
    (∀ c ∈ (b.build st).calls, c.isBuildWork = true → c ∈ st.calls) := by
  unfold BVH4Triangle4BuilderFastClass.build
  rw [if_pos h]
  refine ⟨rfl, h, ?_, ?_⟩
  · rw [h]
  · intro c hc hw
    simp only [List.mem_append, List.mem_cons, List.mem_singleton, List.not_mem_nil,
      or_false] at hc
    rcases hc with hc | hc | hc
    · exact hc
    · subst hc
      cases hw
    · subst hc
      cases hw

theorem build_empty_scene_witness :
    ((exampleFastBuilder 0).build { bvh := (1, 2, 3), prims := 5, calls := [] }).bvh =
      (8, 0, 0) ∧
    ((exampleFastBuilder 0).build { bvh := (1, 2, 3), prims := 5, calls := [] }).prims = 0 ∧
    ((exampleFastBuilder 0).build { bvh := (1, 2, 3), prims := 5, calls := [] }).calls =
      [BuildCall.resize 0, BuildCall.set 8 0 0] :=
  have h := build_empty_scene (exampleFastBuilder 0)
    { bvh := (1, 2, 3), prims := 5, calls := [] } rfl
  ⟨h.1, h.2.1, h.2.2.1⟩

end Embree
